import Mathlib

/-! # myTinyInfiniTensor: arena allocator, graph container and graph optimizer

A shallow embedding of `src/core/allocator.cc` and `src/core/graph.cc`.

* `size_t` values are natural numbers reduced modulo `SIZE_MOD = 2 ^ 64`.
* `std::map<size_t, size_t>` (the free-block map) is an association list kept
  in ascending key order with unique keys.
* Shared pointers are handles (`Nat`) into a heap of objects; a nullable
  reference is an `Option Nat`.
* An operation that halts (assertion, null dereference, index past the end)
  returns `Except.error`.
-/

namespace Infini

/-- Number of values of a 64-bit `size_t`. -/
def SIZE_MOD : Nat := 2 ^ 64

/-- Ways in which a call can halt instead of returning. -/
inductive Err where
  /-- An `IT_ASSERT` fired. -/
  | assertion
  /-- A member was accessed through a null reference. -/
  | nullDeref
  /-- A vector was indexed past its end. -/
  | outOfRange
  /-- The iteration budget of the embedding ran out (it never does, see
  `topo_sort_fuel`). -/
  | fuel
  deriving DecidableEq, Repr

/-! ## `std::map<size_t, size_t>` -/

/-- Assignment `m[k] = v` on an ordered map: overwrite or insert in key order. -/
def mapSet : List (Nat × Nat) → Nat → Nat → List (Nat × Nat)
  | [], k, v => [(k, v)]
  | (k', v') :: rest, k, v =>
    if k < k' then (k, v) :: (k', v') :: rest
    else if k = k' then (k, v) :: rest
    else (k', v') :: mapSet rest k v

/-- Removal `m.erase(it)` of the entry with key `k`. -/
def mapErase : List (Nat × Nat) → Nat → List (Nat × Nat)
  | [], _ => []
  | (k', v') :: rest, k => if k' = k then rest else (k', v') :: mapErase rest k

/-- Lookup `m.find(k)->second`. -/
def mapFind : List (Nat × Nat) → Nat → Option Nat
  | [], _ => none
  | (k', v') :: rest, k => if k' = k then some v' else mapFind rest k

/-- The entry after key `k` in key order: `std::next(m.find(k))`. -/
def mapNext : List (Nat × Nat) → Nat → Option (Nat × Nat)
  | [], _ => none
  | (k', _) :: rest, k => if k' = k then rest.head? else mapNext rest k

/-- The entry before key `k` in key order: `std::prev(m.find(k))`, or nothing
when `k` is the first key. -/
def mapPrev : List (Nat × Nat) → Nat → Option (Nat × Nat)
  | [], _ => none
  | [_], _ => none
  | b :: (k', v') :: rest, k => if k' = k then some b else mapPrev ((k', v') :: rest) k

/-! ## Allocator (`src/core/allocator.cc`) -/

/-- State of `Allocator`: `ptr = none` is the null pointer (buffer not bound). -/
structure Allocator where
  used : Nat
  peak : Nat
  ptr : Option Nat
  alignment : Nat
  free_blocks : List (Nat × Nat)
  deriving DecidableEq, Repr

/-- The constructor `Allocator::Allocator`: `alignment = sizeof(uint64_t)`. -/
def Allocator.fresh : Allocator :=
  { used := 0, peak := 0, ptr := none, alignment := 8, free_blocks := [] }

/-- Embedding of `Allocator::getAlignedSize`: `((size - 1) / alignment + 1) * alignment` in
`size_t` arithmetic. -/
def Allocator.getAlignedSize (a : Allocator) (size : Nat) : Nat :=
  ((((size + SIZE_MOD - 1) % SIZE_MOD) / a.alignment + 1) % SIZE_MOD * a.alignment) % SIZE_MOD

/-- The scan of `Allocator::alloc` over the free blocks in ascending start
order: the first block whose test `startAddr >= size` succeeds. -/
def allocScan (size : Nat) : List (Nat × Nat) → Option (Nat × Nat)
  | [] => none
  | (startAddr, blockSize) :: rest =>
    if startAddr ≥ size then some (startAddr, blockSize) else allocScan size rest

/-- Embedding of `Allocator::alloc`: the returned offset and the new state. -/
def Allocator.alloc (a : Allocator) (size : Nat) : Except Err (Nat × Allocator) :=
  if a.ptr ≠ none then .error .assertion
  else
    let size := a.getAlignedSize size
    match allocScan size a.free_blocks with
    | some (startAddr, blockSize) =>
      let fb := mapErase a.free_blocks startAddr
      let fb :=
        if blockSize > size then
          mapSet fb ((startAddr + size) % SIZE_MOD) (blockSize - size)
        else fb
      .ok (startAddr, { a with free_blocks := fb })
    | none =>
      let used := (a.used + size) % SIZE_MOD
      let peak := if used > a.peak then size else a.peak
      .ok ((used + SIZE_MOD - size) % SIZE_MOD, { a with used := used, peak := peak })

/-- Embedding of `Allocator::free`. -/
def Allocator.free (a : Allocator) (addr size : Nat) : Except Err Allocator :=
  if a.ptr ≠ none then .error .assertion
  else
    let size := a.getAlignedSize size
    let fb := mapSet a.free_blocks addr size
    let prev := mapPrev fb addr
    let next := mapNext fb addr
    let fb :=
      match next with
      | some (nextAddr, nextSize) =>
        if (addr + size) % SIZE_MOD = nextAddr then
          mapErase (mapSet fb addr ((size + nextSize) % SIZE_MOD)) nextAddr
        else fb
      | none => fb
    let fb :=
      match prev with
      | some (prevAddr, prevSize) =>
        if (prevAddr + prevSize) % SIZE_MOD = addr then
          mapErase (mapSet fb prevAddr ((prevSize + (mapFind fb addr).getD 0) % SIZE_MOD)) addr
        else fb
      | none => fb
    .ok { a with free_blocks := fb }

/-- Embedding of `Allocator::getPtr`: binds the buffer on the first call, asking the
runtime for `peak` bytes; `rtAlloc` is the runtime's `alloc`. -/
def Allocator.getPtr (a : Allocator) (rtAlloc : Nat → Nat) : Nat × Allocator :=
  match a.ptr with
  | some p => (p, a)
  | none => (rtAlloc a.peak, { a with ptr := some (rtAlloc a.peak) })

/-! ### Call sequences -/

/-- One call of a client of the allocator. -/
inductive Call where
  | alloc (size : Nat)
  | free (addr size : Nat)
  deriving DecidableEq, Repr

/-- A live region: the offset `alloc` returned and the size it was asked for. -/
structure Live where
  addr : Nat
  size : Nat
  deriving DecidableEq, Repr

/-- Allocator state together with the regions that are allocated and not yet
freed. -/
structure Trace where
  st : Allocator
  live : List Live
  deriving DecidableEq, Repr

/-- One call on a traced allocator. A `free` is accepted only for a region
that an earlier `alloc` returned and that is still live; otherwise the
sequence is not one the properties speak about (`none`). -/
def Trace.step (t : Trace) : Call → Option Trace
  | .alloc size =>
    match t.st.alloc size with
    | .ok (off, st) => some { st := st, live := ⟨off, size⟩ :: t.live }
    | .error _ => none
  | .free addr size =>
    if (⟨addr, size⟩ : Live) ∈ t.live then
      match t.st.free addr size with
      | .ok st => some { st := st, live := t.live.erase ⟨addr, size⟩ }
      | .error _ => none
    else none

/-- A whole call sequence from a given traced state. -/
def Trace.run (t : Trace) : List Call → Option Trace
  | [] => some t
  | c :: cs =>
    match t.step c with
    | some t' => t'.run cs
    | none => none

/-- The traced fresh allocator. -/
def Trace.fresh : Trace := { st := Allocator.fresh, live := [] }

/-- Regions `[a₁, a₁ + s₁)` and `[a₂, a₂ + s₂)` share a byte. -/
def overlaps (a₁ s₁ a₂ s₂ : Nat) : Bool :=
  decide (a₁ < a₁ + s₁) && decide (a₂ < a₂ + s₂) &&
    decide (a₁ < a₂ + s₂) && decide (a₂ < a₁ + s₁)

/-- The live regions `[addr, addr + alignedSize)` are pairwise non-overlapping. -/
def liveDisjoint (a : Allocator) : List Live → Bool
  | [] => true
  | r :: rest =>
    rest.all (fun r' =>
      !overlaps r.addr (a.getAlignedSize r.size) r'.addr (a.getAlignedSize r'.size))
    && liveDisjoint a rest

/-- No free block ends where another free block starts. -/
def noAdjacent (fb : List (Nat × Nat)) : Bool :=
  fb.all (fun b => fb.all (fun b' => decide (b ≠ b' → b.1 + b.2 ≠ b'.1)))

/-! ## Tensors and operators -/

/-- Type `Shape`: the dimension sizes of a tensor. -/
abbrev Shape := List Nat

/-- Tag `OpType` together with the kind-specific attributes of the operator
classes: `TransposeObj::getPermute`, `MatmulObj::getTransA/getTransB`. -/
inductive OpKind where
  | Transpose (permute : List Int)
  | MatMul (transA transB : Bool)
  | Other (tag : Nat)
  deriving DecidableEq, Repr

/-- Type `OperatorObj`: inputs and outputs are nullable tensor references,
predecessors and successors are operator references. -/
structure OperatorObj where
  kind : OpKind
  inputs : List (Option Nat)
  outputs : List (Option Nat)
  predecessors : List Nat
  successors : List Nat
  deriving DecidableEq, Repr

instance : Inhabited OperatorObj := ⟨⟨.Other 0, [], [], [], []⟩⟩

/-- Type `TensorObj`: `dtypeSize` is `getDType().getSize()`, `data` the address its
blob is bound to (`none` before memory planning). -/
structure TensorObj where
  fuid : Nat
  shape : Shape
  dtypeSize : Nat
  targets : List Nat
  source : Option Nat
  data : Option Nat
  deriving DecidableEq, Repr

instance : Inhabited TensorObj := ⟨⟨0, [], 0, [], none, none⟩⟩

/-- Modelled from the spec: `TensorObj::size()` (declared in `core/tensor.h`,
not part of the sources) is the element count of the tensor, the product of
its dimension sizes, held in a `size_t`. -/
def TensorObj.size (t : TensorObj) : Nat := t.shape.prod % SIZE_MOD

/-- The byte footprint `tensor->size() * tensor->getDType().getSize()`. -/
def TensorObj.bytes (t : TensorObj) : Nat := (t.size * t.dtypeSize) % SIZE_MOD

/-- Modelled from the spec: `OperatorObj::removeSuccessors` (in
`core/operator.cc`, not part of the sources) drops every reference to `op`. -/
def OperatorObj.removeSuccessors (o : OperatorObj) (op : Nat) : OperatorObj :=
  { o with successors := o.successors.filter (fun x => x ≠ op) }

/-- Modelled from the spec: `OperatorObj::removePredecessors` drops every
reference to `op`. -/
def OperatorObj.removePredecessors (o : OperatorObj) (op : Nat) : OperatorObj :=
  { o with predecessors := o.predecessors.filter (fun x => x ≠ op) }

/-- Modelled from the spec: `OperatorObj::addSuccessors` appends `op`. -/
def OperatorObj.addSuccessors (o : OperatorObj) (op : Nat) : OperatorObj :=
  { o with successors := o.successors ++ [op] }

/-- Modelled from the spec: `OperatorObj::addPredecessors` appends `op`. -/
def OperatorObj.addPredecessors (o : OperatorObj) (op : Nat) : OperatorObj :=
  { o with predecessors := o.predecessors ++ [op] }

/-- Modelled from the spec: `OperatorObj::replaceInput(t1, t2)` overwrites
every input equal to `t1` by `t2`. -/
def OperatorObj.replaceInput (o : OperatorObj) (t1 t2 : Option Nat) : OperatorObj :=
  { o with inputs := o.inputs.map (fun x => if x = t1 then t2 else x) }

/-- Modelled from the spec: `TensorObj::addTarget` appends `op`. -/
def TensorObj.addTarget (t : TensorObj) (op : Nat) : TensorObj :=
  { t with targets := t.targets ++ [op] }

/-! ## Graph container (`src/core/graph.cc`) -/

/-- Type `GraphObj`: the operator and tensor lists hold handles; `opObj` and
`tensorObj` are the objects the handles point to. -/
structure GraphObj where
  ops : List Nat
  tensors : List Nat
  sorted : Bool
  allocator : Allocator
  opObj : Nat → OperatorObj
  tensorObj : Nat → TensorObj

/-- In-place update of the operator behind handle `h`. -/
def GraphObj.modifyOp (g : GraphObj) (h : Nat) (f : OperatorObj → OperatorObj) : GraphObj :=
  { g with opObj := fun x => if x = h then f (g.opObj h) else g.opObj x }

/-- In-place update of the tensor behind handle `h`. -/
def GraphObj.modifyTensor (g : GraphObj) (h : Nat) (f : TensorObj → TensorObj) : GraphObj :=
  { g with tensorObj := fun x => if x = h then f (g.tensorObj h) else g.tensorObj x }

/-- Loop of `addOperatorAndConnect` over the inputs of `op`. -/
def connectInputs (op : Nat) : List (Option Nat) → GraphObj → GraphObj
  | [], g => g
  | none :: rest, g => connectInputs op rest g
  | some input :: rest, g =>
    let g := g.modifyTensor input (fun t => t.addTarget op)
    match (g.tensorObj input).source with
    | some pred =>
      let g := g.modifyOp pred (fun o => o.addSuccessors op)
      connectInputs op rest (g.modifyOp op (fun o => o.addPredecessors pred))
    | none => connectInputs op rest g

/-- Loop of `addOperatorAndConnect` over the outputs of `op`. -/
def connectOutputs (op : Nat) : List (Option Nat) → GraphObj → GraphObj
  | [], g => g
  | none :: rest, g => connectOutputs op rest g
  | some output :: rest, g =>
    let g := g.modifyTensor output (fun t => { t with source := some op })
    let g := (g.tensorObj output).targets.foldl
      (fun g succ =>
        (g.modifyOp succ (fun o => o.addPredecessors op)).modifyOp op
          (fun o => o.addSuccessors succ)) g
    connectOutputs op rest g

/-- Embedding of `GraphObj::addOperatorAndConnect`. -/
def GraphObj.addOperatorAndConnect (g : GraphObj) (op : Nat) : GraphObj :=
  let g := { g with sorted := false, ops := g.ops ++ [op] }
  let g := connectInputs op (g.opObj op).inputs g
  connectOutputs op (g.opObj op).outputs g

/-- Embedding of `GraphObj::addTensor(const Tensor &)` for a tensor of the graph's runtime. -/
def GraphObj.addTensor (g : GraphObj) (tensor : Nat) : GraphObj :=
  { g with tensors := g.tensors ++ [tensor] }

/-! ### `topo_sort` -/

/-- The `std::all_of` of `topo_sort`: every input has no source or a source
that is already flagged. Stops at the first input that fails. -/
def inputsReady (g : GraphObj) (flags : List Nat) : List (Option Nat) → Except Err Bool
  | [] => .ok true
  | none :: _ => .error .nullDeref
  | some t :: rest =>
    match (g.tensorObj t).source with
    | none => inputsReady g flags rest
    | some p => if p ∈ flags then inputsReady g flags rest else .ok false

/-- Local state of `topo_sort`: the vector `sorted`, the set `flags` and the
flag `modified` of the current pass. -/
structure SortState where
  sorted : List Nat
  flags : List Nat
  modified : Bool
  deriving DecidableEq, Repr

/-- One pass `for (auto const &op : ops)` of `topo_sort`. -/
def topoPass (g : GraphObj) : List Nat → SortState → Except Err SortState
  | [], s => .ok s
  | op :: rest, s =>
    if op ∈ s.flags then topoPass g rest s
    else
      match inputsReady g s.flags (g.opObj op).inputs with
      | .error e => .error e
      | .ok true =>
        topoPass g rest
          { sorted := s.sorted ++ [op], flags := op :: s.flags, modified := true }
      | .ok false => topoPass g rest s

/-- The loop `while (sorted.size() < ops.size())` of `topo_sort`, at most
`fuel` passes: `some sorted` when the loop ends, `none` when a pass moved
nothing. -/
def topoLoop (g : GraphObj) : Nat → SortState → Except Err (Option (List Nat))
  | fuel, s =>
    if s.sorted.length < g.ops.length then
      match fuel with
      | 0 => .error .fuel
      | fuel + 1 =>
        match topoPass g g.ops { s with modified := false } with
        | .error e => .error e
        | .ok s' => if s'.modified then topoLoop g fuel s' else .ok none
    else .ok (some s.sorted)

/-- Embedding of `GraphObj::topo_sort`: the returned flag and the graph afterwards. -/
def GraphObj.topo_sort (g : GraphObj) : Except Err (Bool × GraphObj) :=
  if g.sorted then .ok (true, g)
  else
    match topoLoop g g.ops.length { sorted := [], flags := [], modified := false } with
    | .error e => .error e
    | .ok none => .ok (false, g)
    | .ok (some sorted) => .ok (true, { g with ops := sorted, sorted := true })

/-! ### `dataMalloc` -/

/-- The first loop of `dataMalloc`: the sum of the byte footprints. -/
def allocSizeOf (g : GraphObj) : List Nat → Nat → Nat
  | [], acc => acc
  | t :: rest, acc => allocSizeOf g rest ((acc + (g.tensorObj t).bytes) % SIZE_MOD)

/-- The second loop of `dataMalloc`: bind each tensor to `getPtr() + offset`
and advance `offset`. -/
def bindTensors (rtAlloc : Nat → Nat) : List Nat → Nat → GraphObj → GraphObj
  | [], _, g => g
  | t :: rest, offset, g =>
    let (p, al) := g.allocator.getPtr rtAlloc
    let g := { g with allocator := al }
    let g := g.modifyTensor t (fun o => { o with data := some (p + offset) })
    bindTensors rtAlloc rest ((offset + (g.tensorObj t).bytes) % SIZE_MOD) g

/-- Embedding of `GraphObj::dataMalloc`; `rtAlloc` is the runtime's `alloc`. -/
def GraphObj.dataMalloc (g : GraphObj) (rtAlloc : Nat → Nat) : Except Err GraphObj :=
  match g.topo_sort with
  | .error e => .error e
  | .ok (false, _) => .error .assertion
  | .ok (true, g) =>
    let allocSize := allocSizeOf g g.tensors 0
    match g.allocator.alloc allocSize with
    | .error e => .error e
    | .ok (offset, al) => .ok (bindTensors rtAlloc g.tensors offset { g with allocator := al })

/-! ### `optimize` -/

/-- The loop of `InvTranspose` over the indices `i`: `permute_a[permute_b[i]] != i`
with the `int` entries converted to `size_t` for indexing and comparison. -/
def invTransposeFrom (permute_a permute_b : List Int) : List Nat → Except Err Bool
  | [] => .ok true
  | i :: rest =>
    match permute_b[i]? with
    | none => .error .outOfRange
    | some j =>
      match permute_a[(j % (SIZE_MOD : Int)).toNat]? with
      | none => .error .outOfRange
      | some v =>
        if (v % (SIZE_MOD : Int)).toNat ≠ i then .ok false
        else invTransposeFrom permute_a permute_b rest

/-- Embedding of `InvTranspose(a, b)` on the permutations of the two operators. -/
def InvTranspose (permute_a permute_b : List Int) : Except Err Bool :=
  invTransposeFrom permute_a permute_b (List.range permute_a.length)

/-- Embedding of `isTransForMul` on the permutation of the operator. -/
def isTransForMul (permute : List Int) : Bool :=
  let rank := permute.length
  if rank < 2 then false
  else if (List.range (rank - 2)).any
      (fun i => decide ((permute.getD i 0 % (SIZE_MOD : Int)).toNat ≠ i)) then false
  else if permute.getD (rank - 1) 0 = (rank : Int) - 2
      ∧ permute.getD (rank - 2) 0 = (rank : Int) - 1 then true
  else false

/-- Embedding of `GraphObj::removeConnections(op, upstream_op)`. -/
def GraphObj.removeConnections (g : GraphObj) (op : Nat) (upstream_op : Option Nat) :
    Except Err GraphObj :=
  match upstream_op with
  | none => .error .nullDeref
  | some u =>
    let g := g.modifyOp u (fun o => o.removeSuccessors op)
    let g := g.modifyOp op (fun o => o.removePredecessors u)
    match (g.opObj u).predecessors with
    | [upstream_parent_op] =>
      let g := g.modifyOp upstream_parent_op (fun o => o.removeSuccessors u)
      let g := g.modifyOp u (fun o => o.removePredecessors upstream_parent_op)
      let g := g.modifyOp u (fun o => o.addSuccessors op)
      .ok (g.modifyOp op (fun o => o.addPredecessors u))
    | _ => .ok g

/-- Inner loop of `reconnectDownstream` over the targets of one output. -/
def reconnectTargets (output : Nat) (upstream_tensor : Option Nat) :
    List Nat → GraphObj → Except Err GraphObj
  | [], g => .ok g
  | target :: rest, g =>
    match upstream_tensor with
    | none => .error .nullDeref
    | some ut =>
      let g := g.modifyTensor ut (fun t => t.addTarget target)
      let g := g.modifyOp target (fun o => o.replaceInput (some output) upstream_tensor)
      reconnectTargets output upstream_tensor rest g

/-- Outer loop of `reconnectDownstream` over the outputs of `op`. -/
def reconnectOutputs (upstream_tensor : Option Nat) :
    List (Option Nat) → GraphObj → Except Err GraphObj
  | [], g => .ok g
  | none :: _, _ => .error .nullDeref
  | some output :: rest, g =>
    match reconnectTargets output upstream_tensor (g.tensorObj output).targets g with
    | .error e => .error e
    | .ok g => reconnectOutputs upstream_tensor rest g

/-- Embedding of `GraphObj::reconnectDownstream(op, upstream_tensor)`. -/
def GraphObj.reconnectDownstream (g : GraphObj) (op : Nat) (upstream_tensor : Option Nat) :
    Except Err GraphObj :=
  reconnectOutputs upstream_tensor (g.opObj op).outputs g

/-- The vectors `remove_ops`, `remove_tensors` and `wait_for_cut` of `optimize`. -/
structure Removal where
  remove_ops : List Nat
  remove_tensors : List (Option Nat)
  wait_for_cut : List (Option Nat)
  deriving DecidableEq, Repr

/-- Loop of `markForRemoval` over the outputs of `op`. -/
def markOutputs : List (Option Nat) → GraphObj × Removal → Except Err (GraphObj × Removal)
  | [], s => .ok s
  | output :: rest, (g, r) =>
    let r := { r with remove_tensors := r.remove_tensors ++ [output] }
    match output with
    | none => .error .nullDeref
    | some out =>
      let g := (g.tensorObj out).targets.foldl
        (fun g target => g.modifyOp target (fun o => o.replaceInput output none)) g
      markOutputs rest (g, r)

/-- Embedding of `GraphObj::markForRemoval(op, remove_ops, remove_tensors, wait_for_cut)`. -/
def GraphObj.markForRemoval (g : GraphObj) (op : Nat) (r : Removal) :
    Except Err (GraphObj × Removal) :=
  markOutputs (g.opObj op).outputs (g, { r with remove_ops := r.remove_ops ++ [op] })

/-- Step 1 of `optimize` for one operator of the list. -/
def eliminateStep (op : Nat) (s : GraphObj × Removal) : Except Err (GraphObj × Removal) :=
  let (g, r) := s
  match (g.opObj op).kind, (g.opObj op).predecessors with
  | .Transpose permute_a, [upstream_op] =>
    match (g.opObj upstream_op).kind with
    | .Transpose permute_b =>
      match InvTranspose permute_a permute_b with
      | .error e => .error e
      | .ok false => .ok s
      | .ok true =>
        match (g.opObj upstream_op).inputs with
        | [] => .error .outOfRange
        | upstream_tensor :: _ =>
          match g.removeConnections op (some upstream_op) with
          | .error e => .error e
          | .ok g =>
            match g.reconnectDownstream op upstream_tensor with
            | .error e => .error e
            | .ok g => g.markForRemoval op r
    | _ => .ok s
  | _, _ => .ok s

/-- Step 2 of `optimize` for input position `i` of the MatMul operator `op`. -/
def fuseInput (op : Nat) (i : Nat) (g : GraphObj) : Except Err GraphObj :=
  match (g.opObj op).inputs[i]? with
  | none => .error .outOfRange
  | some none => .error .nullDeref
  | some (some input) =>
    match (g.tensorObj input).source with
    | none => .ok g
    | some upstream_op =>
      match (g.opObj upstream_op).kind with
      | .Transpose permute =>
        if isTransForMul permute then
          let g := g.modifyOp op (fun o =>
            match o.kind with
            | .MatMul transA transB =>
              if i = 0 then { o with kind := .MatMul (transA != true) transB }
              else { o with kind := .MatMul transA (transB != true) }
            | _ => o)
          match g.removeConnections op (some upstream_op) with
          | .error e => .error e
          | .ok g =>
            match (g.opObj upstream_op).inputs with
            | [] => .error .outOfRange
            | upstream_tensor :: _ => g.reconnectDownstream op upstream_tensor
        else .ok g
      | _ => .ok g

/-- Step 2 of `optimize` for one operator of the list. -/
def fuseStep (op : Nat) (g : GraphObj) : Except Err GraphObj :=
  match (g.opObj op).kind with
  | .MatMul _ _ =>
    match fuseInput op 0 g with
    | .error e => .error e
    | .ok g => fuseInput op 1 g
  | _ => .ok g

/-- A loop `for (const auto &op : ops)` whose body may halt. -/
def forOps {σ : Type} (body : Nat → σ → Except Err σ) : List Nat → σ → Except Err σ
  | [], s => .ok s
  | op :: rest, s =>
    match body op s with
    | .error e => .error e
    | .ok s => forOps body rest s

/-- Embedding of `GraphObj::cleanIsolatedTensors`; the argument is the stack `wait_for_cut`
with its back first. The body calls `removeConnections(op, nullptr)`, which
dereferences the null operator. -/
def cleanIsolatedTensors : List (Option Nat) → GraphObj × Removal → Except Err (GraphObj × Removal)
  | [], s => .ok s
  | none :: _, _ => .error .nullDeref
  | some tensor :: rest, (g, r) =>
    match (g.tensorObj tensor).source with
    | none => cleanIsolatedTensors rest (g, r)
    | some op =>
      match g.removeConnections op none with
      | .error e => .error e
      | .ok g =>
        match g.markForRemoval op r with
        | .error e => .error e
        | .ok s => cleanIsolatedTensors rest s

/-- Embedding of `GraphObj::finalizeRemoval`: erase every marked operator and tensor from
the lists the graph owns. -/
def GraphObj.finalizeRemoval (g : GraphObj) (r : Removal) : GraphObj :=
  { g with
    ops := r.remove_ops.foldl (fun ops op => ops.filter (fun x => x ≠ op)) g.ops
    tensors := r.remove_tensors.foldl
      (fun ts t => ts.filter (fun x => some x ≠ t)) g.tensors }

/-- Embedding of `GraphObj::optimize`. -/
def GraphObj.optimize (g : GraphObj) : Except Err GraphObj :=
  match g.topo_sort with
  | .error e => .error e
  | .ok (false, _) => .error .assertion
  | .ok (true, g) =>
    match forOps eliminateStep g.ops (g, { remove_ops := [], remove_tensors := [], wait_for_cut := [] }) with
    | .error e => .error e
    | .ok (g1, r) =>
      match forOps fuseStep g.ops g1 with
      | .error e => .error e
      | .ok g2 =>
        match cleanIsolatedTensors r.wait_for_cut.reverse (g2, r) with
        | .error e => .error e
        | .ok (g3, r) => .ok (g3.finalizeRemoval r)

/-! ### `checkValid` -/

/-- First loop of `checkValid`: the assertions on one tensor. -/
def GraphObj.tensorValid (g : GraphObj) (t : Nat) : Bool :=
  !((g.tensorObj t).targets.length == 0 && (g.tensorObj t).source == none)
  && (g.tensorObj t).targets.all (fun op => decide (op ∈ g.ops))
  && (match (g.tensorObj t).source with
      | none => true
      | some op => decide (op ∈ g.ops))

/-- Second loop of `checkValid`: the assertions on one operator. -/
def GraphObj.opValid (g : GraphObj) (op : Nat) : Bool :=
  (g.opObj op).inputs.all (fun t => decide (t ∈ g.tensors.map some))
  && (g.opObj op).outputs.all (fun t => decide (t ∈ g.tensors.map some))
  && (g.opObj op).predecessors.all (fun pre => decide (pre ∈ g.ops))
  && (g.opObj op).successors.all (fun suc => decide (suc ∈ g.ops))

/-- Third loop of `checkValid`: no FUID occurs twice. -/
def fuidsUnique : List Nat → List Nat → Bool
  | [], _ => true
  | f :: rest, seen => !(decide (f ∈ seen)) && fuidsUnique rest (f :: seen)

/-- Embedding of `GraphObj::checkValid`: `true` when it returns true, `false` when one of its
assertions fires. -/
def GraphObj.checkValid (g : GraphObj) : Bool :=
  g.tensors.all g.tensorValid && g.ops.all g.opValid
  && fuidsUnique (g.tensors.map (fun t => (g.tensorObj t).fuid)) []

/-! ## Properties of graphs -/

/-- Operator `p` produces an input of operator `o`: some tensor that `o` reads
has `p` as its source. -/
def GraphObj.feeds (g : GraphObj) (p o : Nat) : Prop :=
  ∃ t, some t ∈ (g.opObj o).inputs ∧ (g.tensorObj t).source = some p

/-- Operator `o` of the list depends on operator `p` of the list through a
tensor source link. -/
def GraphObj.dependsOn (g : GraphObj) (o p : Nat) : Prop :=
  o ∈ g.ops ∧ p ∈ g.ops ∧ g.feeds p o

/-- The operators of the list contain a dependency cycle. -/
def GraphObj.hasCycle (g : GraphObj) : Prop :=
  ∃ o, Relation.TransGen g.dependsOn o o

/-- No input of an operator of the list is null. -/
def GraphObj.inputsNonNull (g : GraphObj) : Bool :=
  g.ops.all (fun o => (g.opObj o).inputs.all (fun i => i.isSome))

/-- Every input of an operator of the list has no source or a source that is
in the operator list. -/
def GraphObj.sourcesInOps (g : GraphObj) : Bool :=
  g.ops.all (fun o => (g.opObj o).inputs.all (fun i =>
    match i with
    | none => true
    | some t =>
      match (g.tensorObj t).source with
      | none => true
      | some p => decide (p ∈ g.ops)))

/-- In the list `l` every producer of an input of an operator stands at a
strictly smaller index than the operator. -/
def GraphObj.topoOrdered (g : GraphObj) (l : List Nat) : Prop :=
  ∀ (j o p : Nat), l[j]? = some o → g.feeds p o → ∃ i : Nat, i < j ∧ l[i]? = some p

/-- The byte footprints of the tensors of a list, without reduction. -/
def GraphObj.totalBytes (g : GraphObj) (ts : List Nat) : Nat :=
  (ts.map (fun t => (g.tensorObj t).shape.prod * (g.tensorObj t).dtypeSize)).sum

/-! ## Example graphs -/

/-- A fresh tensor object of four-byte elements, not yet connected. -/
def mkTensor (fuid : Nat) (shape : Shape) : TensorObj :=
  { fuid := fuid, shape := shape, dtypeSize := 4, targets := [], source := none, data := none }

/-- A freshly constructed operator object, not yet connected. -/
def mkOperator (kind : OpKind) (inputs outputs : List Nat) : OperatorObj :=
  { kind := kind, inputs := inputs.map some, outputs := outputs.map some,
    predecessors := [], successors := [] }

/-- An empty graph over a given heap of objects. -/
def emptyGraph (opObj : Nat → OperatorObj) (tensorObj : Nat → TensorObj) : GraphObj :=
  { ops := [], tensors := [], sorted := false, allocator := Allocator.fresh,
    opObj := opObj, tensorObj := tensorObj }

/-- The chain `x → Transpose([1,0]) → y1 → Transpose([1,0]) → y2 → C → z` on a
2-D tensor: tensors `x = 0, y1 = 1, y2 = 2, z = 3`, operators `0, 1` (the two
Transposes) and `2` (the consumer `C`), built through `addTensor` and
`addOperatorAndConnect`. -/
def transposePairGraph : GraphObj :=
  emptyGraph
    (fun h => match h with
      | 0 => mkOperator (.Transpose [1, 0]) [0] [1]
      | 1 => mkOperator (.Transpose [1, 0]) [1] [2]
      | 2 => mkOperator (.Other 0) [2] [3]
      | _ => default)
    (fun h => mkTensor h [2, 3])
  |>.addTensor 0 |>.addTensor 1 |>.addTensor 2 |>.addTensor 3
  |>.addOperatorAndConnect 0 |>.addOperatorAndConnect 1 |>.addOperatorAndConnect 2

/-- The graph `x → Transpose([0,2,1]) → t → MatMul(t, B, transA = false) → c`:
tensors `x = 0, t = 1, B = 2, c = 3`, operators `0` (the Transpose) and `1`
(the MatMul). -/
def transposeMatmulGraph : GraphObj :=
  emptyGraph
    (fun h => match h with
      | 0 => mkOperator (.Transpose [0, 2, 1]) [0] [1]
      | 1 => mkOperator (.MatMul false false) [1, 2] [3]
      | _ => default)
    (fun h => mkTensor h [2, 3, 4])
  |>.addTensor 0 |>.addTensor 1 |>.addTensor 2 |>.addTensor 3
  |>.addOperatorAndConnect 0 |>.addOperatorAndConnect 1

/-- The graph `x → op → y` with `x` of shape `[1073741823, 1073741825, 4]` and
`y` of shape `[3]`, both of four-byte elements: `2 ^ 64 - 16` and `12` bytes,
`2 ^ 64 - 4` bytes in total. -/
def hugeTensorGraph : GraphObj :=
  emptyGraph
    (fun _ => mkOperator (.Other 0) [0] [1])
    (fun h => match h with
      | 0 => mkTensor 0 [1073741823, 1073741825, 4]
      | _ => mkTensor h [3])
  |>.addTensor 0 |>.addTensor 1 |>.addOperatorAndConnect 0

/-- The chain `x → op 1 → y → op 0 → z` (tensors `x = 0, y = 1, z = 2`) with the
consumer added to the graph before the producer: the operator list is
`[0, 1]`. -/
def reversedChainGraph : GraphObj :=
  emptyGraph
    (fun h => match h with
      | 0 => mkOperator (.Other 0) [1] [2]
      | _ => mkOperator (.Other 0) [0] [1])
    (fun h => mkTensor h [2, 3])
  |>.addTensor 0 |>.addTensor 1 |>.addTensor 2
  |>.addOperatorAndConnect 0 |>.addOperatorAndConnect 1

/-- Two operators that read each other's output: operator 0 reads tensor 1 and
writes tensor 0, operator 1 reads tensor 0 and writes tensor 1. -/
def cyclicGraph : GraphObj :=
  emptyGraph
    (fun h => match h with
      | 0 => mkOperator (.Other 0) [1] [0]
      | _ => mkOperator (.Other 0) [0] [1])
    (fun h => mkTensor h [2, 3])
  |>.addTensor 0 |>.addTensor 1
  |>.addOperatorAndConnect 0 |>.addOperatorAndConnect 1

/-! ## Invariant of `topo_sort` -/

/-- What `topo_sort` maintains about its local state: `flags` holds exactly the
operators of `sorted`, which are distinct operators of the graph, each one
behind the producers of its inputs. -/
structure SortInv (g : GraphObj) (s : SortState) : Prop where
  flags_iff : ∀ x, x ∈ s.flags ↔ x ∈ s.sorted
  nodup : s.sorted.Nodup
  subset : ∀ x ∈ s.sorted, x ∈ g.ops
  ordered : ∀ l1 o l2, s.sorted = l1 ++ o :: l2 → ∀ p, g.feeds p o → p ∈ l1

/-- Allocator state together with every offset `alloc` has returned so far. -/
structure AllocLog where
  st : Allocator
  returned : List Nat
  deriving DecidableEq, Repr

/-- One call on a logged allocator. A `free` is accepted only at an offset that
`alloc` returned earlier, with any size; otherwise the sequence is not one the
alignment property speaks about (`none`). -/
def AllocLog.step (l : AllocLog) : Call → Option AllocLog
  | .alloc size =>
    match l.st.alloc size with
    | .ok (off, st) => some { st := st, returned := off :: l.returned }
    | .error _ => none
  | .free addr size =>
    if addr ∈ l.returned then
      match l.st.free addr size with
      | .ok st => some { st := st, returned := l.returned }
      | .error _ => none
    else none

/-- A whole call sequence from a given logged state. -/
def AllocLog.run (l : AllocLog) : List Call → Option AllocLog
  | [] => some l
  | c :: cs =>
    match l.step c with
    | some l' => l'.run cs
    | none => none

/-- The logged fresh allocator. -/
def AllocLog.fresh : AllocLog := { st := Allocator.fresh, returned := [] }

/-- Every start and every length of the map is a multiple of 8. -/
def blocksAligned (fb : List (Nat × Nat)) : Prop :=
  ∀ b ∈ fb, b.1 % 8 = 0 ∧ b.2 % 8 = 0

/-- The alignment invariant of a logged allocator. -/
structure AllocLog.aligned (l : AllocLog) : Prop where
  alignment : l.st.alignment = 8
  used : l.st.used % 8 = 0
  blocks : blocksAligned l.st.free_blocks
  offsets : ∀ off ∈ l.returned, off % 8 = 0

/-- The key order of `std::map`: starts strictly ascending. -/
def mapSorted (fb : List (Nat × Nat)) : Prop :=
  fb.Pairwise (fun b b' => b.1 < b'.1)

/-- Regions `[a₁, a₁ + s₁)` and `[a₂, a₂ + s₂)` do not overlap: one ends at or
before the start of the other. -/
def regionsDisjoint (a₁ s₁ a₂ s₂ : Nat) : Prop :=
  a₁ + s₁ ≤ a₂ ∨ a₂ + s₂ ≤ a₁

/-- The blocks of the map are pairwise non-overlapping. -/
def blocksDisjoint (fb : List (Nat × Nat)) : Prop :=
  ∀ b ∈ fb, ∀ b' ∈ fb, b ≠ b' → regionsDisjoint b.1 b.2 b'.1 b'.2

/-- Byte `x` lies in a block of the map. -/
def covered (fb : List (Nat × Nat)) (x : Nat) : Prop :=
  ∃ b ∈ fb, b.1 ≤ x ∧ x < b.1 + b.2

/-- Each block ends strictly before the start of every later block of the map:
ascending, non-overlapping and non-adjacent at once. -/
def gapped (fb : List (Nat × Nat)) : Prop :=
  fb.Pairwise (fun b b' => b.1 + b.2 < b'.1)

/-- The first merge of `Allocator::free`: with the block that follows `addr` in
the map, when the block at `addr` ends where it starts. -/
def mergeNext (fb : List (Nat × Nat)) (addr size : Nat) : List (Nat × Nat) :=
  match mapNext fb addr with
  | some (nextAddr, nextSize) =>
    if (addr + size) % SIZE_MOD = nextAddr then
      mapErase (mapSet fb addr ((size + nextSize) % SIZE_MOD)) nextAddr
    else fb
  | none => fb

/-- The second merge of `Allocator::free`: with the block `prev` that preceded
`addr` in the map, when it ends at `addr`. -/
def mergePrev (prev : Option (Nat × Nat)) (fb : List (Nat × Nat)) (addr : Nat) :
    List (Nat × Nat) :=
  match prev with
  | some (prevAddr, prevSize) =>
    if (prevAddr + prevSize) % SIZE_MOD = addr then
      mapErase (mapSet fb prevAddr ((prevSize + (mapFind fb addr).getD 0) % SIZE_MOD)) addr
    else fb
  | none => fb

/-- The free-block map that `Allocator::free` leaves, as a function of the map
before the call, the offset and the aligned size. -/
def freeBlocks (fb0 : List (Nat × Nat)) (addr size : Nat) : List (Nat × Nat) :=
  mergePrev (mapPrev (mapSet fb0 addr size) addr)
    (mergeNext (mapSet fb0 addr size) addr size) addr

/-- An unbound allocator with the free blocks `[0, 8)` and `[24, 32)`. -/
def twoBlockAllocator : Allocator :=
  { used := 32, peak := 32, ptr := none, alignment := 8, free_blocks := [(0, 8), (24, 8)] }

/-! ## Shape inference (`src/utils/operator_utils.cc`, `src/operators/matmul.cc`) -/

/-- The padding loop of `infer_broadcast`: a vector of `maxRank` ones whose
entry `maxRank - A.size() + i` is overwritten by `A[i]`. -/
def padShape (maxRank : Nat) (A : Shape) : Shape :=
  (List.range A.length).foldl
    (fun padded i => padded.set (maxRank - A.length + i) (A.getD i 0))
    (List.replicate maxRank 1)

/-- The comparison loop of `infer_broadcast` over the axes `i`, writing
`broadcastedShape[i]`; the assertion fires on two sizes that are both not 1
and differ. -/
def broadcastLoop (paddedA paddedB : Shape) : List Nat → Shape → Except Err Shape
  | [], broadcastedShape => .ok broadcastedShape
  | i :: rest, broadcastedShape =>
    if paddedA.getD i 0 = 1 then
      broadcastLoop paddedA paddedB rest (broadcastedShape.set i (paddedB.getD i 0))
    else if paddedB.getD i 0 = 1 then
      broadcastLoop paddedA paddedB rest (broadcastedShape.set i (paddedA.getD i 0))
    else if paddedA.getD i 0 = paddedB.getD i 0 then
      broadcastLoop paddedA paddedB rest (broadcastedShape.set i (paddedA.getD i 0))
    else .error .assertion

/-- Embedding of `infer_broadcast(A, B)`. -/
def infer_broadcast (A B : Shape) : Except Err Shape :=
  let maxRank := max A.length B.length
  let paddedA := padShape maxRank A
  let paddedB := padShape maxRank B
  broadcastLoop paddedA paddedB (List.range maxRank) (List.replicate maxRank 0)

/-- Reference semantics, from the words of the specification: a shape
right-aligned to rank `n` by padding with ones on the left. -/
def rightAlign (n : Nat) (A : Shape) : Shape :=
  List.replicate (n - A.length) 1 ++ A

/-- Reference semantics: two aligned sizes that are both different from 1 and
unequal. -/
def axisMismatch (x y : Nat) : Bool :=
  decide (x ≠ 1) && decide (y ≠ 1) && decide (x ≠ y)

/-- Reference semantics: the size of a broadcast axis, the side that is not 1
(or the common value). -/
def broadcastAxis (x y : Nat) : Nat :=
  if x = 1 then y else x

/-- Reference semantics of bidirectional broadcasting as a partial function:
no result when some aligned axis mismatches, otherwise the axis-wise result on
the right-aligned shapes. -/
def broadcastSpec (A B : Shape) : Option Shape :=
  let n := max A.length B.length
  if (List.zip (rightAlign n A) (rightAlign n B)).any (fun p => axisMismatch p.1 p.2) then none
  else some (List.zipWith broadcastAxis (rightAlign n A) (rightAlign n B))

/-- The statement `std::swap(shape[size - 1], shape[size - 2])` of
`MatmulObj::inferShape`; on a shape of rank below 2 an index is past the end. -/
def swapLastTwo (shape : Shape) : Except Err Shape :=
  if shape.length < 2 then .error .outOfRange
  else
    .ok ((shape.set (shape.length - 1) (shape.getD (shape.length - 2) 0)).set
      (shape.length - 2) (shape.getD (shape.length - 1) 0))

/-- The batch loop of `MatmulObj::inferShape`: both iterators start at the
front and the loop ends as soon as one of them reaches its last two axes. -/
def batchLoop : List Nat → List Nat → Shape → Except Err Shape
  | a :: restA, b :: restB, batchShape =>
    if a = b then batchLoop restA restB (batchShape ++ [a])
    else if a = 1 then batchLoop restA restB (batchShape ++ [b])
    else if b = 1 then batchLoop restA restB (batchShape ++ [a])
    else .error .assertion
  | _, _, batchShape => .ok batchShape

/-- The body of `MatmulObj::inferShape` on the dimensions of its two inputs. -/
def matmulShape (transA transB : Bool) (shapeA shapeB : Shape) : Except Err Shape :=
  match (if transA then swapLastTwo shapeA else .ok shapeA) with
  | .error e => .error e
  | .ok shapeA =>
    match (if transB then swapLastTwo shapeB else .ok shapeB) with
    | .error e => .error e
    | .ok shapeB =>
      if ¬ (shapeA.length ≥ 2 ∧ shapeB.length ≥ 2) then .error .assertion
      else if shapeA.getD (shapeA.length - 1) 0 ≠ shapeB.getD (shapeB.length - 2) 0 then
        .error .assertion
      else
        match batchLoop (shapeA.take (shapeA.length - 2)) (shapeB.take (shapeB.length - 2)) [] with
        | .error e => .error e
        | .ok batchShape =>
          .ok (batchShape ++
            [shapeA.getD (shapeA.length - 2) 0, shapeB.getD (shapeB.length - 1) 0])

/-- Embedding of `MatmulObj::inferShape(inputs)`: the operands are `inputs[0]`
and `inputs[1]`. -/
def MatmulObj.inferShape (transA transB : Bool) (inputs : List (Option TensorObj)) :
    Except Err (Option (List Shape)) :=
  match inputs with
  | some A :: some B :: _ =>
    match matmulShape transA transB A.shape B.shape with
    | .error e => .error e
    | .ok shape => .ok (some [shape])
  | none :: _ :: _ => .error .nullDeref
  | some _ :: none :: _ => .error .nullDeref
  | _ => .error .outOfRange

/-- Reference semantics: a shape with its last two axes exchanged when the
flag is set. -/
def transposeLast (flag : Bool) (shape : Shape) : Shape :=
  if flag then
    shape.take (shape.length - 2)
      ++ [shape.getD (shape.length - 1) 0, shape.getD (shape.length - 2) 0]
  else shape

/-- Reference semantics of the MatMul shape for operands of rank at least 2:
with `A'` and `B'` the operands after `transA`/`transB`, the broadcast of the
batch axes `A'[:-2]` and `B'[:-2]` followed by `[A'[-2], B'[-1]]`; no shape
when `A'[-1]` differs from `B'[-2]` or the batch axes do not broadcast. -/
def matmulSpec (transA transB : Bool) (A B : Shape) : Option Shape :=
  let A' := transposeLast transA A
  let B' := transposeLast transB B
  if A'.getD (A'.length - 1) 0 ≠ B'.getD (B'.length - 2) 0 then none
  else
    match broadcastSpec (A'.take (A'.length - 2)) (B'.take (B'.length - 2)) with
    | none => none
    | some batch => some (batch ++ [A'.getD (A'.length - 2) 0, B'.getD (B'.length - 1) 0])

/-- What `checkValid` asserts, as a property of the graph: every listed tensor
has a source or a target, its targets and its source are listed operators;
every input, output, predecessor and successor of a listed operator is listed;
and no FUID occurs twice in the tensor list. -/
structure GraphObj.wellFormed (g : GraphObj) : Prop where
  connected : ∀ t ∈ g.tensors,
    (g.tensorObj t).targets ≠ [] ∨ (g.tensorObj t).source ≠ none
  targets_mem : ∀ t ∈ g.tensors, ∀ op ∈ (g.tensorObj t).targets, op ∈ g.ops
  source_mem : ∀ t ∈ g.tensors, ∀ op, (g.tensorObj t).source = some op → op ∈ g.ops
  inputs_mem : ∀ op ∈ g.ops, ∀ i ∈ (g.opObj op).inputs, ∃ t ∈ g.tensors, i = some t
  outputs_mem : ∀ op ∈ g.ops, ∀ o ∈ (g.opObj op).outputs, ∃ t ∈ g.tensors, o = some t
  predecessors_mem : ∀ op ∈ g.ops, ∀ pre ∈ (g.opObj op).predecessors, pre ∈ g.ops
  successors_mem : ∀ op ∈ g.ops, ∀ suc ∈ (g.opObj op).successors, suc ∈ g.ops
  fuids : (g.tensors.map (fun t => (g.tensorObj t).fuid)).Nodup

/-- The predecessor lists are exactly the ones derived from the tensor links:
the predecessors of a listed operator are the sources of its inputs. -/
def GraphObj.predecessorsDerived (g : GraphObj) : Prop :=
  ∀ op ∈ g.ops, ∀ p, p ∈ (g.opObj op).predecessors ↔ g.feeds p op

/-! ### `shape_infer` -/

/-- Modelled from the spec: `TensorObj::setShape` (in `core/tensor.h`, not part
of the sources) replaces the shape, and with it the element count. -/
def TensorObj.setShape (t : TensorObj) (shape : Shape) : TensorObj :=
  { t with shape := shape }

/-- The loop of `GraphObj::getTensor` over a tensor list: the first tensor with
the given FUID, or the null reference. -/
def findTensor (tensorObj : Nat → TensorObj) (fuid : Nat) : List Nat → Option Nat
  | [] => none
  | tensor :: rest =>
    if (tensorObj tensor).fuid = fuid then some tensor else findTensor tensorObj fuid rest

/-- Embedding of `GraphObj::getTensor(fuid)`. -/
def GraphObj.getTensor (g : GraphObj) (fuid : Nat) : Option Nat :=
  findTensor g.tensorObj fuid g.tensors

/-- The call `op->inferShape()`: the operator infers its output shapes from its
current input tensors. `MatmulObj::inferShape` is the one of the sources; for
the other kinds, whose `inferShape` is not part of the sources, `infer` stands
for it. -/
def GraphObj.inferShape
    (infer : OperatorObj → List (Option TensorObj) → Except Err (Option (List Shape)))
    (g : GraphObj) (op : Nat) : Except Err (Option (List Shape)) :=
  match (g.opObj op).kind with
  | .MatMul transA transB =>
    MatmulObj.inferShape transA transB ((g.opObj op).inputs.map (fun i => i.map g.tensorObj))
  | _ => infer (g.opObj op) ((g.opObj op).inputs.map (fun i => i.map g.tensorObj))

/-- The inner loop of `shape_infer` over the inferred shapes `ans[i]` and the
outputs `oldOutputs[i]`: a tensor whose shape differs is looked up by FUID and
given the new shape. -/
def updateOutputs : List Shape → List (Option Nat) → GraphObj → Except Err GraphObj
  | [], _, g => .ok g
  | _ :: _, [], _ => .error .outOfRange
  | _ :: _, none :: _, _ => .error .nullDeref
  | newShape :: restShapes, some output :: restOutputs, g =>
    if newShape ≠ (g.tensorObj output).shape then
      match g.getTensor (g.tensorObj output).fuid with
      | none => .error .nullDeref
      | some tensor =>
        updateOutputs restShapes restOutputs
          (g.modifyTensor tensor (fun t => t.setShape newShape))
    else updateOutputs restShapes restOutputs g

/-- The body of the loop of `shape_infer` for one operator. -/
def shapeInferStep
    (infer : OperatorObj → List (Option TensorObj) → Except Err (Option (List Shape)))
    (op : Nat) (g : GraphObj) : Except Err GraphObj :=
  match g.inferShape infer op with
  | .error e => .error e
  | .ok none => .error .assertion
  | .ok (some ans) =>
    if ans.length ≠ (g.opObj op).outputs.length then .error .assertion
    else updateOutputs ans (g.opObj op).outputs g

/-- Embedding of `GraphObj::shape_infer`. -/
def GraphObj.shape_infer
    (infer : OperatorObj → List (Option TensorObj) → Except Err (Option (List Shape)))
    (g : GraphObj) : Except Err GraphObj :=
  forOps (shapeInferStep infer) g.ops g

/-- Two MatMul operators in a cycle: operator 0 computes tensor 2 from tensors
0 and 1, operator 1 computes tensor 0 from tensors 2 and 3. Tensor 2 carries
the stale shape `[1, 1]`. -/
def cyclicMatmulGraph : GraphObj :=
  emptyGraph
    (fun h => match h with
      | 0 => mkOperator (.MatMul false false) [0, 1] [2]
      | _ => mkOperator (.MatMul false false) [2, 3] [0])
    (fun h => match h with
      | 0 => mkTensor 0 [2, 3]
      | 1 => mkTensor 1 [3, 4]
      | 2 => mkTensor 2 [1, 1]
      | _ => mkTensor h [4, 3])
  |>.addTensor 0 |>.addTensor 1 |>.addTensor 2 |>.addTensor 3
  |>.addOperatorAndConnect 0 |>.addOperatorAndConnect 1

/-- Validity of a graph as `shape_infer` needs it: every output of a listed
operator is a listed tensor, no two listed tensors share a FUID, no tensor is
an output twice (of one operator or of two positions of the list), and every
operator stands behind the operators that produce its inputs. -/
structure GraphObj.shapeInferable (g : GraphObj) : Prop where
  outputs_listed : ∀ op ∈ g.ops, ∀ o ∈ (g.opObj op).outputs, ∃ t ∈ g.tensors, o = some t
  fuids_distinct : (g.tensors.map (fun t => (g.tensorObj t).fuid)).Nodup
  outputs_nodup : ∀ op ∈ g.ops, (g.opObj op).outputs.Nodup
  one_producer : ∀ (i j p o x : Nat), g.ops[i]? = some p → g.ops[j]? = some o →
    some x ∈ (g.opObj p).outputs → some x ∈ (g.opObj o).outputs → i = j
  producers_first : ∀ (i j p o x : Nat), g.ops[i]? = some p → g.ops[j]? = some o →
    some x ∈ (g.opObj p).outputs → some x ∈ (g.opObj o).inputs → i < j

/-- Every call of `inferShape` that `shape_infer` makes succeeds: when the
operators before position `k` have been processed, the operator at position
`k` infers as many shapes as it has outputs. -/
def GraphObj.inferSucceeds
    (infer : OperatorObj → List (Option TensorObj) → Except Err (Option (List Shape)))
    (g : GraphObj) : Prop :=
  ∀ (k op : Nat) (gk : GraphObj), g.ops[k]? = some op →
    forOps (shapeInferStep infer) (g.ops.take k) g = .ok gk →
    ∃ ans, gk.inferShape infer op = .ok (some ans)
      ∧ ans.length = (gk.opObj op).outputs.length

/-- Graph `g1` differs from `g` at most in the shapes of tensors. -/
structure ShapeFrame (g g1 : GraphObj) : Prop where
  ops : g1.ops = g.ops
  tensors : g1.tensors = g.tensors
  sorted : g1.sorted = g.sorted
  allocator : g1.allocator = g.allocator
  opObj : g1.opObj = g.opObj
  fields : ∀ t, (g1.tensorObj t).setShape (g.tensorObj t).shape = g.tensorObj t

/-- The chain of two MatMul operators `A × B → C`, `C × D → E` (tensors
`A = 0, B = 1, C = 2, D = 3, E = 4`), whose intermediate and final tensors
carry the stale shape `[1, 1]`. -/
def matmulChainGraph : GraphObj :=
  emptyGraph
    (fun h => match h with
      | 0 => mkOperator (.MatMul false false) [0, 1] [2]
      | _ => mkOperator (.MatMul false false) [2, 3] [4])
    (fun h => match h with
      | 0 => mkTensor 0 [2, 3]
      | 1 => mkTensor 1 [3, 4]
      | 3 => mkTensor 3 [4, 5]
      | _ => mkTensor h [1, 1])
  |>.addTensor 0 |>.addTensor 1 |>.addTensor 2 |>.addTensor 3 |>.addTensor 4
  |>.addOperatorAndConnect 0 |>.addOperatorAndConnect 1

/-- Modelled from the spec: a permute vector is a permutation of
`{0, …, n-1}`, `n` its length, when its entries are pairwise distinct and each
lies in `[0, n)`. -/
def isPermutation (p : List Int) : Bool :=
  decide p.Nodup && p.all (fun x => decide (0 ≤ x) && decide (x < (p.length : Int)))

/-- Modelled from the spec: `a[b[i]] = i` for every axis `i < n`, both reads
in range: the composition of the two permute vectors is the identity. -/
def composeIsId (a b : List Int) (n : Nat) : Bool :=
  (List.range n).all (fun i =>
    match b[i]? with
    | none => false
    | some j => decide (0 ≤ j) && decide (a[j.toNat]? = some (i : Int)))

/-- The `for` loop of `isTransForMul` over the axes still to test, each read
`permute[i]` bounds-checked: `false` at the first axis with
`permute[i] != i` (the `int` entry converted to `size_t` for the
comparison), `true` when no axis is left. -/
def transForMulLoop (permute : List Int) : List Nat → Except Err Bool
  | [] => .ok true
  | i :: rest =>
    match permute[i]? with
    | none => .error .outOfRange
    | some v =>
      if (v % (SIZE_MOD : Int)).toNat ≠ i then .ok false
      else transForMulLoop permute rest

/-- Embedding of `isTransForMul(const TransposeObj &self)` with every vector
read bounds-checked: a read past the end of `permute` is `outOfRange`. The
last test reads `permute[rank - 1]` first and `permute[rank - 2]` only when
the first comparison holds. -/
def isTransForMulChecked (permute : List Int) : Except Err Bool :=
  let rank := permute.length
  if rank < 2 then .ok false
  else
    match transForMulLoop permute (List.range (rank - 2)) with
    | .error e => .error e
    | .ok false => .ok false
    | .ok true =>
      match permute[rank - 1]? with
      | none => .error .outOfRange
      | some x =>
        if x = (rank : Int) - 2 then
          match permute[rank - 2]? with
          | none => .error .outOfRange
          | some y => if y = (rank : Int) - 1 then .ok true else .ok false
        else .ok false

/-! # Theorems -/

/-! ## Allocator -/

/-- C1 (allocator correctness) does not hold of the code. On a fresh allocator
the calls `alloc(16)`, `alloc(8)`, `alloc(8)`, `free(16, 8)`, `alloc(16)` free
only a live region, and the last `alloc` answers a request for 16 bytes with
the 8-byte free block at offset 16 (its test is `startAddr >= size`), so the
live regions `[16, 32)` and `[24, 32)` overlap. -/
theorem alloc_live_regions_overlap :
    Trace.fresh.run [.alloc 16, .alloc 8, .alloc 8, .free 16 8, .alloc 16]
      = some { st := { used := 32, peak := 8, ptr := none, alignment := 8, free_blocks := [] },
               live := [⟨16, 16⟩, ⟨24, 8⟩, ⟨0, 16⟩] }
    ∧ liveDisjoint Allocator.fresh [⟨16, 16⟩, ⟨24, 8⟩, ⟨0, 16⟩] = false := by
  decide

/-- C2 (allocator coalescing) does not hold of the code. After the ten calls
below, each `free` releasing a live region, the last `free(48, 8)` leaves the
free blocks `(24, 24)`, `(32, 8)`, `(48, 8)`: the block at 24 ends at 48, where
the block at 48 starts. The blocks overlap because `alloc(24)` was served from
the 8-byte block at 24, and `free` looks only at the map neighbours. -/
theorem free_leaves_adjacent_blocks :
    Trace.fresh.run
        [.alloc 24, .alloc 8, .alloc 8, .alloc 8, .alloc 8, .free 24 8, .alloc 24,
         .free 24 24, .free 32 8, .free 48 8]
      = some { st := { used := 56, peak := 8, ptr := none, alignment := 8,
                       free_blocks := [(24, 24), (32, 8), (48, 8)] },
               live := [⟨40, 8⟩, ⟨0, 24⟩] }
    ∧ noAdjacent [(24, 24), (32, 8), (48, 8)] = false := by
  decide

/-- C3 (first fit by size) does not hold of the code. In the state reached by
`alloc(16); free(0, 16)` the free block `(0, 16)` is long enough for a request
of 8 bytes, yet `alloc(8)` grows `used` from 16 to 24 and returns 16, leaving
the block untouched; and with the free block `(16, 8)` a request of 16 bytes is
served from that block although it is too short. -/
theorem alloc_tests_start_not_length :
    Trace.fresh.run [.alloc 16, .free 0 16]
      = some { st := { used := 16, peak := 16, ptr := none, alignment := 8,
                       free_blocks := [(0, 16)] }, live := [] }
    ∧ Allocator.alloc { used := 16, peak := 16, ptr := none, alignment := 8,
                        free_blocks := [(0, 16)] } 8
      = .ok (16, { used := 24, peak := 8, ptr := none, alignment := 8,
                   free_blocks := [(0, 16)] })
    ∧ Allocator.alloc { used := 32, peak := 8, ptr := none, alignment := 8,
                        free_blocks := [(16, 8)] } 16
      = .ok (16, { used := 32, peak := 8, ptr := none, alignment := 8,
                   free_blocks := [] }) := by
  refine ⟨by decide, rfl, rfl⟩

/-- C4 (peak tracking) does not hold of the code. After `alloc(8); alloc(8)` on
a fresh allocator `used` is 16 and `peak` is 8: when `used` exceeds `peak` the
code stores the size of the request in `peak`, not `used`. The first half of
the claim holds there: the second `alloc` returns the previous `used`, 8. -/
theorem peak_falls_behind_used :
    Allocator.fresh.alloc 8
      = .ok (0, { used := 8, peak := 8, ptr := none, alignment := 8, free_blocks := [] })
    ∧ Allocator.alloc { used := 8, peak := 8, ptr := none, alignment := 8, free_blocks := [] } 8
      = .ok (8, { used := 16, peak := 8, ptr := none, alignment := 8, free_blocks := [] })
    ∧ ¬ ((16 : Nat) ≤ (8 : Nat)) := by
  refine ⟨rfl, rfl, by decide⟩

/-! ## Memory planning -/

theorem bytes_eq_of_lt (t : TensorObj) (h : t.shape.prod * t.dtypeSize < SIZE_MOD) :
    t.bytes = t.shape.prod * t.dtypeSize := by
  unfold TensorObj.bytes TensorObj.size
  rcases Nat.eq_zero_or_pos t.dtypeSize with h0 | h0
  · simp [h0]
  · have h1 : t.shape.prod < SIZE_MOD :=
      lt_of_le_of_lt (Nat.le_mul_of_pos_right _ h0) h
    rw [Nat.mod_eq_of_lt h1, Nat.mod_eq_of_lt h]

theorem totalBytes_cons (g : GraphObj) (t : Nat) (ts : List Nat) :
    g.totalBytes (t :: ts)
      = (g.tensorObj t).shape.prod * (g.tensorObj t).dtypeSize + g.totalBytes ts := by
  simp [GraphObj.totalBytes]

theorem totalBytes_congr (g g' : GraphObj) (ts : List Nat)
    (h : ∀ t, (g'.tensorObj t).shape = (g.tensorObj t).shape
      ∧ (g'.tensorObj t).dtypeSize = (g.tensorObj t).dtypeSize) :
    g'.totalBytes ts = g.totalBytes ts := by
  induction ts with
  | nil => rfl
  | cons t ts ih => rw [totalBytes_cons, totalBytes_cons, ih, (h t).1, (h t).2]

theorem totalBytes_take_succ (g : GraphObj) (ts : List Nat) (i : Nat) (h : i < ts.length) :
    g.totalBytes (ts.take (i + 1))
      = g.totalBytes (ts.take i)
        + (g.tensorObj ts[i]).shape.prod * (g.tensorObj ts[i]).dtypeSize := by
  induction ts generalizing i with
  | nil => simp at h
  | cons t ts ih =>
    cases i with
    | zero => simp [GraphObj.totalBytes]
    | succ i =>
      have h' : i < ts.length := by simpa using h
      simp only [List.take_succ_cons, totalBytes_cons, List.getElem_cons_succ]
      rw [ih i h']; omega

theorem totalBytes_take_le (g : GraphObj) (ts : List Nat) (i : Nat) :
    g.totalBytes (ts.take i) ≤ g.totalBytes ts := by
  induction ts generalizing i with
  | nil => simp
  | cons t ts ih =>
    cases i with
    | zero => simp [GraphObj.totalBytes]
    | succ i =>
      simp only [List.take_succ_cons, totalBytes_cons]
      have := ih i
      omega

theorem totalBytes_take_mono (g : GraphObj) (ts : List Nat) (i j : Nat) (h : i ≤ j) :
    g.totalBytes (ts.take i) ≤ g.totalBytes (ts.take j) := by
  have := totalBytes_take_le g (ts.take j) i
  rwa [List.take_take, Nat.min_eq_left h] at this

theorem allocSizeOf_eq (g : GraphObj) (ts : List Nat) (acc : Nat)
    (h : acc + g.totalBytes ts < SIZE_MOD) :
    allocSizeOf g ts acc = acc + g.totalBytes ts := by
  induction ts generalizing acc with
  | nil => simp [allocSizeOf, GraphObj.totalBytes]
  | cons t ts ih =>
    rw [totalBytes_cons] at h
    have hb := bytes_eq_of_lt (g.tensorObj t) (by omega)
    unfold allocSizeOf
    rw [hb, Nat.mod_eq_of_lt (by omega), ih _ (by omega), totalBytes_cons]
    omega

theorem getAlignedSize_fresh_bounds (n : Nat) (h : n + 7 < SIZE_MOD) :
    n ≤ Allocator.fresh.getAlignedSize n ∧ Allocator.fresh.getAlignedSize n < SIZE_MOD := by
  unfold Allocator.getAlignedSize Allocator.fresh SIZE_MOD at *
  simp only
  omega

theorem alloc_fresh (n : Nat) (h : n + 7 < SIZE_MOD) :
    Allocator.fresh.alloc n
      = .ok (0, { Allocator.fresh with
            used := Allocator.fresh.getAlignedSize n
            peak := Allocator.fresh.getAlignedSize n }) := by
  obtain ⟨h1, h2⟩ := getAlignedSize_fresh_bounds n h
  generalize hA : Allocator.fresh.getAlignedSize n = A at h1 h2
  have hA' : ({ used := 0, peak := 0, ptr := none, alignment := 8, free_blocks := [] } : Allocator).getAlignedSize n = A := hA
  simp only [Allocator.alloc, Allocator.fresh, allocScan, hA', ne_eq, not_true_eq_false, if_false, Nat.zero_add]
  rw [Nat.mod_eq_of_lt h2]
  have : (A + SIZE_MOD - A) % SIZE_MOD = 0 := by
    rw [Nat.add_sub_cancel_left]; exact Nat.mod_self _
  rw [this]
  rcases Nat.eq_zero_or_pos A with h0 | h0
  · subst h0; simp
  · simp [h0]


theorem getPtr_spec (a : Allocator) (rt : Nat → Nat)
    (h : a.ptr = none ∨ a.ptr = some (rt a.peak)) :
    (a.getPtr rt).1 = rt a.peak ∧ (a.getPtr rt).2.ptr = some (rt a.peak)
      ∧ (a.getPtr rt).2.peak = a.peak ∧ (a.getPtr rt).2.used = a.used := by
  unfold Allocator.getPtr
  rcases h with h | h <;> simp [h]

theorem bindTensors_spec (rt : Nat → Nat) (ts : List Nat) :
    ∀ (offset : Nat) (g : GraphObj), ts.Nodup →
      (g.allocator.ptr = none ∨ g.allocator.ptr = some (rt g.allocator.peak)) →
      offset + g.totalBytes ts < SIZE_MOD →
      (bindTensors rt ts offset g).tensors = g.tensors
      ∧ (bindTensors rt ts offset g).allocator.peak = g.allocator.peak
      ∧ (bindTensors rt ts offset g).allocator.used = g.allocator.used
      ∧ (∀ t, ((bindTensors rt ts offset g).tensorObj t).shape = (g.tensorObj t).shape
          ∧ ((bindTensors rt ts offset g).tensorObj t).dtypeSize = (g.tensorObj t).dtypeSize)
      ∧ (∀ t, t ∉ ts → (bindTensors rt ts offset g).tensorObj t = g.tensorObj t)
      ∧ (∀ (i : Nat) (h : i < ts.length),
          ((bindTensors rt ts offset g).tensorObj ts[i]).data
            = some (rt g.allocator.peak + (offset + g.totalBytes (ts.take i)))) := by
  induction ts with
  | nil =>
    intro offset g _ _ _
    simp [bindTensors]
  | cons t ts ih =>
    intro offset g hnd hptr hlt
    obtain ⟨hp1, hp2, hp3, hp4⟩ := getPtr_spec g.allocator rt hptr
    rw [totalBytes_cons] at hlt
    have hb := bytes_eq_of_lt (g.tensorObj t) (by omega)
    have hnd' := (List.nodup_cons.mp hnd).2
    have htn := (List.nodup_cons.mp hnd).1
    -- the graph after the body of the loop
    set g1 : GraphObj :=
      ({ g with allocator := (g.allocator.getPtr rt).2 } : GraphObj).modifyTensor t
        (fun o => { o with data := some ((g.allocator.getPtr rt).1 + offset) }) with hg1
    have hstep : bindTensors rt (t :: ts) offset g
        = bindTensors rt ts ((offset + (g1.tensorObj t).bytes) % SIZE_MOD) g1 := rfl
    have hshape : ∀ x, (g1.tensorObj x).shape = (g.tensorObj x).shape
        ∧ (g1.tensorObj x).dtypeSize = (g.tensorObj x).dtypeSize := by
      intro x
      simp only [hg1, GraphObj.modifyTensor]
      by_cases hx : x = t <;> simp [hx]
    have hb1 : (g1.tensorObj t).bytes = (g.tensorObj t).shape.prod * (g.tensorObj t).dtypeSize := by
      rw [← hb]; unfold TensorObj.bytes TensorObj.size
      rw [(hshape t).1, (hshape t).2]
    have htot : g1.totalBytes ts = g.totalBytes ts := totalBytes_congr g g1 ts hshape
    have hpeak1 : g1.allocator.peak = g.allocator.peak := hp3
    have hptr1 : g1.allocator.ptr = some (rt g1.allocator.peak) := by
      rw [hpeak1]; exact hp2
    have hoff : (offset + (g1.tensorObj t).bytes) % SIZE_MOD
        = offset + (g.tensorObj t).shape.prod * (g.tensorObj t).dtypeSize := by
      rw [hb1]; exact Nat.mod_eq_of_lt (by omega)
    rw [hstep, hoff]
    obtain ⟨i1, i2, i3, i4, i5, i6⟩ := ih
      (offset + (g.tensorObj t).shape.prod * (g.tensorObj t).dtypeSize) g1 hnd'
      (Or.inr hptr1) (by rw [htot]; omega)
    refine ⟨i1, i2.trans hpeak1, i3.trans hp4, ?_, ?_, ?_⟩
    · intro x
      exact ⟨(i4 x).1.trans (hshape x).1, (i4 x).2.trans (hshape x).2⟩
    · intro x hx
      have hxt : x ≠ t := fun h => hx (h ▸ List.mem_cons_self _ _)
      have hxts : x ∉ ts := fun h => hx (List.mem_cons_of_mem _ h)
      rw [i5 x hxts]
      simp [hg1, GraphObj.modifyTensor, hxt]
    · intro i hi
      cases i with
      | zero =>
        simp only [List.getElem_cons_zero, List.take_zero]
        rw [i5 t htn]
        simp [hg1, GraphObj.modifyTensor, hp1, GraphObj.totalBytes]
      | succ i =>
        have hi' : i < ts.length := by simpa using hi
        simp only [List.getElem_cons_succ, List.take_succ_cons, totalBytes_cons]
        rw [i6 i hi', hpeak1]
        rw [totalBytes_congr g g1 (ts.take i) hshape]
        congr 1; omega


theorem topo_sort_frame (g g1 : GraphObj) (b : Bool) (h : g.topo_sort = .ok (b, g1)) :
    g1.tensors = g.tensors ∧ g1.allocator = g.allocator ∧ g1.tensorObj = g.tensorObj
      ∧ g1.opObj = g.opObj := by
  unfold GraphObj.topo_sort at h
  split at h
  · cases h; exact ⟨rfl, rfl, rfl, rfl⟩
  · split at h
    · cases h
    · cases h; exact ⟨rfl, rfl, rfl, rfl⟩
    · cases h; exact ⟨rfl, rfl, rfl, rfl⟩

/-- C5 as stated fails: the byte total of `hugeTensorGraph` is `2 ^ 64 - 4`,
which does not overflow `size_t`, its allocator is fresh and `topo_sort`
succeeds, but rounding the total up to the alignment wraps to 0, so
`dataMalloc()` leaves `peak = 0` and binds tensor 0, of `2 ^ 64 - 16` bytes, at
offset 0: its region is not inside `[0, peak)`. -/
theorem dataMalloc_region_outside_peak :
    hugeTensorGraph.allocator = Allocator.fresh ∧
    hugeTensorGraph.checkValid = true ∧
    hugeTensorGraph.totalBytes hugeTensorGraph.tensors = 2 ^ 64 - 4 ∧
    ∃ g, hugeTensorGraph.dataMalloc (fun _ => 4096) = .ok g ∧
      g.allocator.peak = 0 ∧
      (g.tensorObj 0).data = some (4096 + 0) ∧
      (g.tensorObj 0).bytes = 2 ^ 64 - 16 ∧
      ¬ (0 + (g.tensorObj 0).bytes ≤ g.allocator.peak) := by
  refine ⟨rfl, by decide, by decide, _, rfl, by decide, by decide, by decide, by decide⟩

/-- C5, amended: for every graph with a fresh allocator, a tensor list without
repetition and a byte total that stays below `2 ^ 64` when rounded up to the
alignment (`total + 7 < 2 ^ 64`), on which `topo_sort` succeeds, `dataMalloc()`
returns; afterwards tensor `i` of the list is bound at the buffer address plus
the sum of the byte sizes of the tensors before it, its region ends at or
before `peak`, and it ends at or before the start of every later tensor. -/
theorem dataMalloc_binds_disjoint_regions (g : GraphObj) (rt : Nat → Nat)
    (hsort : ∃ g1, g.topo_sort = .ok (true, g1))
    (hfresh : g.allocator = Allocator.fresh)
    (hnodup : g.tensors.Nodup)
    (htotal : g.totalBytes g.tensors + 7 < SIZE_MOD) :
    ∃ g', g.dataMalloc rt = .ok g' ∧ g'.tensors = g.tensors ∧
      ∀ (i : Nat) (hi : i < g.tensors.length),
        (g'.tensorObj g.tensors[i]).bytes
          = (g.tensorObj g.tensors[i]).shape.prod * (g.tensorObj g.tensors[i]).dtypeSize
        ∧ (g'.tensorObj g.tensors[i]).data
          = some (rt g'.allocator.peak + g.totalBytes (g.tensors.take i))
        ∧ g.totalBytes (g.tensors.take i) + (g'.tensorObj g.tensors[i]).bytes
          ≤ g'.allocator.peak
        ∧ ∀ (j : Nat), i < j → j < g.tensors.length →
          g.totalBytes (g.tensors.take i) + (g'.tensorObj g.tensors[i]).bytes
            ≤ g.totalBytes (g.tensors.take j) := by
  obtain ⟨g1, hg1⟩ := hsort
  obtain ⟨ht, ha, hto, -⟩ := topo_sort_frame g g1 true hg1
  have htot1 : ∀ ts, g1.totalBytes ts = g.totalBytes ts := fun ts =>
    totalBytes_congr g g1 ts (fun t => by rw [hto]; exact ⟨rfl, rfl⟩)
  have hsize : allocSizeOf g1 g1.tensors 0 = g.totalBytes g.tensors := by
    rw [allocSizeOf_eq g1 g1.tensors 0 (by rw [htot1, ht]; omega), htot1, ht]; omega
  have halloc := alloc_fresh (g.totalBytes g.tensors) htotal
  obtain ⟨hA1, hA2⟩ := getAlignedSize_fresh_bounds (g.totalBytes g.tensors) htotal
  set A := Allocator.fresh.getAlignedSize (g.totalBytes g.tensors) with hA
  set g2 : GraphObj := { g1 with allocator := { Allocator.fresh with used := A, peak := A } }
    with hg2
  have hdm : g.dataMalloc rt = .ok (bindTensors rt g1.tensors 0 g2) := by
    unfold GraphObj.dataMalloc
    rw [hg1]
    simp only [hsize, ha, hfresh, halloc]
  have htot2 : ∀ ts, g2.totalBytes ts = g.totalBytes ts := fun ts =>
    totalBytes_congr g g2 ts (fun t => by simp only [hg2]; rw [hto]; exact ⟨rfl, rfl⟩)
  obtain ⟨b1, b2, -, b4, -, b6⟩ := bindTensors_spec rt g1.tensors 0 g2 (by rw [ht]; exact hnodup)
    (Or.inl rfl) (by rw [htot2, ht]; omega)
  have hpeak : (bindTensors rt g1.tensors 0 g2).allocator.peak = A := b2
  refine ⟨_, hdm, by rw [b1]; exact ht, ?_⟩
  intro i hi
  have hi1 : i < g1.tensors.length := by rw [ht]; exact hi
  have hel : g1.tensors[i] = g.tensors[i] := by simp only [ht]
  have hstep := totalBytes_take_succ g g.tensors i hi
  have hle := totalBytes_take_le g g.tensors (i + 1)
  have hbytes : ((bindTensors rt g1.tensors 0 g2).tensorObj g.tensors[i]).bytes
      = (g.tensorObj g.tensors[i]).shape.prod * (g.tensorObj g.tensors[i]).dtypeSize := by
    have h2 : (g2.tensorObj g.tensors[i]) = g.tensorObj g.tensors[i] := by
      simp only [hg2]; rw [hto]
    have := bytes_eq_of_lt (g.tensorObj g.tensors[i]) (by omega)
    rw [← this]
    unfold TensorObj.bytes TensorObj.size
    rw [(b4 _).1, (b4 _).2, h2]
  refine ⟨hbytes, ?_, ?_, ?_⟩
  · have := b6 i hi1
    rw [hel] at this
    rw [this, hpeak, htot2, ht]
    simp [hg2]
  · rw [hbytes, hpeak]; omega
  · intro j hij hj
    rw [hbytes, ← hstep]
    exact totalBytes_take_mono g g.tensors (i + 1) j hij

/-- Witness for C5 (amended) on the chain of `transposePairGraph`: four tensors
of 24 bytes each. -/
theorem dataMalloc_binds_disjoint_regions_witness :
    (∃ g1, transposePairGraph.topo_sort = .ok (true, g1)) ∧
    transposePairGraph.allocator = Allocator.fresh ∧
    transposePairGraph.tensors.Nodup ∧
    transposePairGraph.totalBytes transposePairGraph.tensors + 7 < SIZE_MOD ∧
    ∃ g', transposePairGraph.dataMalloc (fun _ => 4096) = .ok g' ∧
      g'.tensors = transposePairGraph.tensors ∧
      ∀ (i : Nat) (hi : i < transposePairGraph.tensors.length),
        (g'.tensorObj transposePairGraph.tensors[i]).bytes
          = (transposePairGraph.tensorObj transposePairGraph.tensors[i]).shape.prod
            * (transposePairGraph.tensorObj transposePairGraph.tensors[i]).dtypeSize
        ∧ (g'.tensorObj transposePairGraph.tensors[i]).data
          = some ((fun _ => 4096) g'.allocator.peak
              + transposePairGraph.totalBytes (transposePairGraph.tensors.take i))
        ∧ transposePairGraph.totalBytes (transposePairGraph.tensors.take i)
            + (g'.tensorObj transposePairGraph.tensors[i]).bytes
          ≤ g'.allocator.peak
        ∧ ∀ (j : Nat), i < j → j < transposePairGraph.tensors.length →
          transposePairGraph.totalBytes (transposePairGraph.tensors.take i)
              + (g'.tensorObj transposePairGraph.tensors[i]).bytes
            ≤ transposePairGraph.totalBytes (transposePairGraph.tensors.take j) :=
  ⟨⟨_, rfl⟩, rfl, by decide, by decide,
    dataMalloc_binds_disjoint_regions transposePairGraph (fun _ => 4096)
      ⟨_, rfl⟩ rfl (by decide) (by decide)⟩

/-! ## Topological sort -/


theorem inputsReady_true (g : GraphObj) (flags : List Nat) (ins : List (Option Nat))
    (h : inputsReady g flags ins = .ok true) :
    ∀ t p, some t ∈ ins → (g.tensorObj t).source = some p → p ∈ flags := by
  induction ins with
  | nil => intro t p ht; simp at ht
  | cons i ins ih =>
    cases i with
    | none => simp [inputsReady] at h
    | some x =>
      unfold inputsReady at h
      intro t p ht hs
      rcases List.mem_cons.mp ht with heq | hmem
      · have hx : t = x := by simpa using heq
        subst hx
        rw [hs] at h
        simp only at h
        by_contra hp
        rw [if_neg hp] at h
        cases h
      · cases hsx : (g.tensorObj x).source with
        | none => rw [hsx] at h; exact ih h t p hmem hs
        | some q =>
          rw [hsx] at h
          simp only at h
          by_cases hq : q ∈ flags
          · rw [if_pos hq] at h; exact ih h t p hmem hs
          · rw [if_neg hq] at h; cases h

theorem inputsReady_false (g : GraphObj) (flags : List Nat) (ins : List (Option Nat))
    (h : inputsReady g flags ins = .ok false) :
    ∃ t p, some t ∈ ins ∧ (g.tensorObj t).source = some p ∧ p ∉ flags := by
  induction ins with
  | nil => simp [inputsReady] at h
  | cons i ins ih =>
    cases i with
    | none => simp [inputsReady] at h
    | some x =>
      unfold inputsReady at h
      cases hsx : (g.tensorObj x).source with
      | none =>
        rw [hsx] at h
        obtain ⟨t, p, h1, h2, h3⟩ := ih h
        exact ⟨t, p, List.mem_cons_of_mem _ h1, h2, h3⟩
      | some q =>
        rw [hsx] at h
        simp only at h
        by_cases hq : q ∈ flags
        · rw [if_pos hq] at h
          obtain ⟨t, p, h1, h2, h3⟩ := ih h
          exact ⟨t, p, List.mem_cons_of_mem _ h1, h2, h3⟩
        · exact ⟨x, q, List.mem_cons_self _ _, hsx, hq⟩

theorem inputsReady_total (g : GraphObj) (flags : List Nat) (ins : List (Option Nat))
    (h : ∀ i ∈ ins, i ≠ none) : ∃ b, inputsReady g flags ins = .ok b := by
  induction ins with
  | nil => exact ⟨true, rfl⟩
  | cons i ins ih =>
    have ih' := ih (fun j hj => h j (List.mem_cons_of_mem _ hj))
    cases i with
    | none => exact absurd rfl (h none (List.mem_cons_self _ _))
    | some x =>
      unfold inputsReady
      cases hsx : (g.tensorObj x).source with
      | none => exact ih'
      | some q =>
        simp only
        by_cases hq : q ∈ flags
        · rw [if_pos hq]; exact ih'
        · rw [if_neg hq]; exact ⟨false, rfl⟩

theorem SortInv.place (g : GraphObj) (s : SortState) (op : Nat) (hinv : SortInv g s)
    (hop : op ∈ g.ops) (hnf : op ∉ s.flags)
    (hready : inputsReady g s.flags (g.opObj op).inputs = .ok true) :
    SortInv g { sorted := s.sorted ++ [op], flags := op :: s.flags, modified := true } := by
  have hns : op ∉ s.sorted := fun h => hnf ((hinv.flags_iff op).mpr h)
  refine ⟨?_, ?_, ?_, ?_⟩
  · intro x
    simp only [List.mem_cons, List.mem_append, List.mem_singleton]
    rw [hinv.flags_iff x]
    tauto
  · show (s.sorted ++ [op]).Nodup
    rw [List.nodup_append]
    refine ⟨hinv.nodup, List.nodup_singleton _, ?_⟩
    intro a ha hb
    rw [List.mem_singleton] at hb
    exact hns (hb ▸ ha)
  · intro x hx
    rcases List.mem_append.mp hx with h | h
    · exact hinv.subset x h
    · rw [List.mem_singleton] at h; exact h ▸ hop
  · intro l1 o l2 heq p hp
    have heq : s.sorted ++ [op] = l1 ++ o :: l2 := heq
    rcases List.eq_nil_or_concat l2 with h2 | ⟨l2', z, h2⟩
    · subst h2
      have := List.append_inj' heq (by simp)
      obtain ⟨h1, h3⟩ := this
      have ho : op = o := by simpa using h3
      subst ho
      obtain ⟨t, ht, hs⟩ := hp
      have := inputsReady_true g s.flags _ hready t p ht hs
      rw [← h1]
      exact (hinv.flags_iff p).mp this
    · subst h2
      have heq' : s.sorted ++ [op] = (l1 ++ o :: l2') ++ [z] := by
        rw [heq]; simp
      have := List.append_inj' heq' (by simp)
      exact hinv.ordered l1 o l2' this.1 p hp

theorem topoPass_inv (g : GraphObj) (l : List Nat) :
    ∀ s s', topoPass g l s = .ok s' → (∀ o ∈ l, o ∈ g.ops) → SortInv g s → SortInv g s' := by
  induction l with
  | nil => intro s s' h _ hinv; cases h; exact hinv
  | cons op rest ih =>
    intro s s' h hl hinv
    have hrest : ∀ o ∈ rest, o ∈ g.ops := fun o ho => hl o (List.mem_cons_of_mem _ ho)
    unfold topoPass at h
    by_cases hf : op ∈ s.flags
    · rw [if_pos hf] at h; exact ih s s' h hrest hinv
    · rw [if_neg hf] at h
      cases hr : inputsReady g s.flags (g.opObj op).inputs with
      | error e => rw [hr] at h; cases h
      | ok b =>
        rw [hr] at h
        cases b with
        | true =>
          exact ih _ s' h hrest
            (SortInv.place g s op hinv (hl op (List.mem_cons_self _ _)) hf hr)
        | false => exact ih s s' h hrest hinv

theorem topoPass_total (g : GraphObj) (l : List Nat)
    (hnn : ∀ o ∈ l, ∀ i ∈ (g.opObj o).inputs, i ≠ none) :
    ∀ s, ∃ s', topoPass g l s = .ok s' := by
  induction l with
  | nil => intro s; exact ⟨s, rfl⟩
  | cons op rest ih =>
    intro s
    have ih' := ih (fun o ho => hnn o (List.mem_cons_of_mem _ ho))
    unfold topoPass
    by_cases hf : op ∈ s.flags
    · rw [if_pos hf]; exact ih' s
    · rw [if_neg hf]
      obtain ⟨b, hb⟩ := inputsReady_total g s.flags (g.opObj op).inputs
        (hnn op (List.mem_cons_self _ _))
      rw [hb]
      cases b with
      | true => exact ih' _
      | false => exact ih' s

theorem topoPass_grows (g : GraphObj) (l : List Nat) :
    ∀ s s', topoPass g l s = .ok s' →
      (∀ x ∈ s.flags, x ∈ s'.flags) ∧ s.sorted.length ≤ s'.sorted.length
      ∧ s'.modified = (s.modified || decide (s.sorted.length < s'.sorted.length)) := by
  induction l with
  | nil =>
    intro s s' h; cases h
    simp
  | cons op rest ih =>
    intro s s' h
    unfold topoPass at h
    by_cases hf : op ∈ s.flags
    · rw [if_pos hf] at h; exact ih s s' h
    · rw [if_neg hf] at h
      cases hr : inputsReady g s.flags (g.opObj op).inputs with
      | error e => rw [hr] at h; cases h
      | ok b =>
        rw [hr] at h
        cases b with
        | true =>
          obtain ⟨h1, h2, h3⟩ := ih _ s' h
          simp only [List.length_append, List.length_singleton] at h2 h3
          refine ⟨fun x hx => h1 x (List.mem_cons_of_mem _ hx), by omega, ?_⟩
          rw [h3]
          have : s.sorted.length < s'.sorted.length := by omega
          simp [this]
        | false => exact ih s s' h

theorem topoPass_places (g : GraphObj) (m : Nat) (l : List Nat) :
    ∀ s s', topoPass g l s = .ok s' → m ∈ l → (∀ p, g.feeds p m → p ∈ s.flags) →
      m ∈ s'.flags := by
  induction l with
  | nil => intro s s' _ hm; simp at hm
  | cons op rest ih =>
    intro s s' h hm hp
    have hmono := topoPass_grows g rest
    unfold topoPass at h
    by_cases hf : op ∈ s.flags
    · rw [if_pos hf] at h
      rcases List.mem_cons.mp hm with heq | hmem
      · exact (hmono s s' h).1 m (heq ▸ hf)
      · exact ih s s' h hmem hp
    · rw [if_neg hf] at h
      cases hr : inputsReady g s.flags (g.opObj op).inputs with
      | error e => rw [hr] at h; cases h
      | ok b =>
        rw [hr] at h
        cases b with
        | true =>
          rcases List.mem_cons.mp hm with heq | hmem
          · exact (hmono _ s' h).1 m (heq ▸ List.mem_cons_self _ _)
          · exact ih _ s' h hmem (fun p hpm => List.mem_cons_of_mem _ (hp p hpm))
        | false =>
          rcases List.mem_cons.mp hm with heq | hmem
          · obtain ⟨t, p, h1, h2, h3⟩ := inputsReady_false g s.flags _ hr
            exact absurd (hp p ⟨t, heq ▸ h1, h2⟩) h3
          · exact ih s s' h hmem hp


theorem inputsNonNull_spec (g : GraphObj) (h : g.inputsNonNull = true) :
    ∀ o ∈ g.ops, ∀ i ∈ (g.opObj o).inputs, i ≠ none := by
  intro o ho i hi hnone
  unfold GraphObj.inputsNonNull at h
  have := List.all_eq_true.mp (List.all_eq_true.mp h o ho) i hi
  rw [hnone] at this
  cases this

theorem sourcesInOps_spec (g : GraphObj) (h : g.sourcesInOps = true) :
    ∀ o ∈ g.ops, ∀ p, g.feeds p o → p ∈ g.ops := by
  intro o ho p ⟨t, ht, hs⟩
  unfold GraphObj.sourcesInOps at h
  have := List.all_eq_true.mp (List.all_eq_true.mp h o ho) (some t) ht
  simp only [hs] at this
  exact of_decide_eq_true this

/-- An operator on a dependency cycle reads a tensor produced by an operator on
a dependency cycle. -/
theorem cycle_pred (g : GraphObj) (o : Nat) (h : Relation.TransGen g.dependsOn o o) :
    o ∈ g.ops ∧ ∃ p, g.feeds p o ∧ Relation.TransGen g.dependsOn p p := by
  obtain ⟨p, hop, hpo⟩ := (Relation.TransGen.head'_iff).mp h
  exact ⟨hop.1, p, hop.2.2, Relation.TransGen.tail' hpo hop⟩

theorem ordered_no_cycle (g : GraphObj) (l : List Nat)
    (hord : ∀ l1 o l2, l = l1 ++ o :: l2 → ∀ p, g.feeds p o → p ∈ l1) :
    ∀ x ∈ l, ¬ Relation.TransGen g.dependsOn x x := by
  induction l using List.reverseRecOn with
  | nil => intro x hx; simp at hx
  | append_singleton init last ih =>
    have hinit : ∀ l1 o l2, init = l1 ++ o :: l2 → ∀ p, g.feeds p o → p ∈ l1 := by
      intro l1 o l2 heq p hp
      exact hord l1 o (l2 ++ [last]) (by rw [heq]; simp) p hp
    intro x hx hc
    rcases List.mem_append.mp hx with h | h
    · exact ih hinit x h hc
    · rw [List.mem_singleton] at h
      subst h
      obtain ⟨-, p, hp, hcp⟩ := cycle_pred g x hc
      exact ih hinit p (hord init x [] rfl p hp) hcp

theorem length_lt_of_missing (l ops : List Nat) (o : Nat) (hnd : l.Nodup)
    (hsub : ∀ x ∈ l, x ∈ ops) (ho : o ∈ ops) (hnot : o ∉ l) : l.length < ops.length := by
  have hnd' : (o :: l).Nodup := List.nodup_cons.mpr ⟨hnot, hnd⟩
  have hsub' : (o :: l) ⊆ ops := by
    intro x hx
    rcases List.mem_cons.mp hx with h | h
    · exact h ▸ ho
    · exact hsub x h
  have := (List.subperm_of_subset hnd' hsub').length_le
  simp only [List.length_cons] at this
  omega

theorem exists_missing (l ops : List Nat) (hnd : ops.Nodup) (hlt : l.length < ops.length) :
    ∃ o ∈ ops, o ∉ l := by
  by_contra hcon
  push_neg at hcon
  have := (List.subperm_of_subset hnd (fun x hx => hcon x hx)).length_le
  omega

/-- In a graph without dependency cycle, a non-empty class of operators of the
list has a member none of whose dependencies is in the class. -/
theorem exists_min_of_acyclic (g : GraphObj) (hac : ¬ g.hasCycle) (S : Nat → Prop)
    (h : ∃ o ∈ g.ops, S o) : ∃ m ∈ g.ops, S m ∧ ∀ p, g.dependsOn m p → ¬ S p := by
  haveI : Finite {o // o ∈ g.ops} := (List.finite_toSet g.ops).to_subtype
  let r : {o // o ∈ g.ops} → {o // o ∈ g.ops} → Prop :=
    fun a b => Relation.TransGen (fun x y => g.dependsOn y x) a.1 b.1
  haveI : IsTrans {o // o ∈ g.ops} r := ⟨fun a b c hab hbc => Relation.TransGen.trans hab hbc⟩
  haveI : IsIrrefl {o // o ∈ g.ops} r := ⟨fun a ha => hac ⟨a.1, by
    have : Relation.TransGen (Function.swap g.dependsOn) a.1 a.1 := ha
    exact Relation.transGen_swap.mp this⟩⟩
  have hwf : WellFounded r := Finite.wellFounded_of_trans_of_irrefl r
  obtain ⟨o, ho, hS⟩ := h
  obtain ⟨m, hm, hmin⟩ := hwf.has_min {a | S a.1} ⟨⟨o, ho⟩, hS⟩
  refine ⟨m.1, m.2, hm, ?_⟩
  intro p hdep hSp
  exact hmin ⟨p, hdep.2.1⟩ hSp (Relation.TransGen.single hdep)

theorem topoLoop_sorts (g : GraphObj) (hnodup : g.ops.Nodup) (hnn : g.inputsNonNull = true)
    (hsrc : g.sourcesInOps = true) (hac : ¬ g.hasCycle) :
    ∀ (fuel : Nat) (s : SortState), SortInv g s → g.ops.length ≤ fuel + s.sorted.length →
      ∃ l, topoLoop g fuel s = .ok (some l) ∧ l.Nodup ∧ (∀ x ∈ l, x ∈ g.ops)
        ∧ (∀ l1 o l2, l = l1 ++ o :: l2 → ∀ p, g.feeds p o → p ∈ l1)
        ∧ g.ops.length ≤ l.length := by
  intro fuel
  induction fuel with
  | zero =>
    intro s hinv hlen
    unfold topoLoop
    rw [if_neg (by omega)]
    exact ⟨s.sorted, rfl, hinv.nodup, hinv.subset, hinv.ordered, by omega⟩
  | succ fuel ih =>
    intro s hinv hlen
    unfold topoLoop
    by_cases hlt : s.sorted.length < g.ops.length
    · rw [if_pos hlt]
      simp only
      have hinv0 : SortInv g { s with modified := false } :=
        ⟨hinv.flags_iff, hinv.nodup, hinv.subset, hinv.ordered⟩
      obtain ⟨s', hs'⟩ := topoPass_total g g.ops (inputsNonNull_spec g hnn) { s with modified := false }
      have hinv' := topoPass_inv g g.ops _ s' hs' (fun o ho => ho) hinv0
      obtain ⟨-, hle, hmod⟩ := topoPass_grows g g.ops _ s' hs'
      -- some operator of the list is not placed yet and has all producers placed
      obtain ⟨m, hm, hmS, hmin⟩ := exists_min_of_acyclic g hac (fun o => o ∉ s.sorted)
        (exists_missing s.sorted g.ops hnodup hlt)
      have hprod : ∀ p, g.feeds p m → p ∈ s.flags := by
        intro p hp
        have hpo := sourcesInOps_spec g hsrc m hm p hp
        have := hmin p ⟨hm, hpo, hp⟩
        exact (hinv.flags_iff p).mpr (not_not.mp this)
      have hplaced := topoPass_places g m g.ops _ s' hs' hm hprod
      have hms' : m ∈ s'.sorted := (hinv'.flags_iff m).mp hplaced
      have hgrow : s.sorted.length < s'.sorted.length := by
        by_contra hcon
        have heq : s'.sorted.length ≤ s.sorted.length := by omega
        -- `s.sorted` is a sublist-permutation of `s'.sorted` of the same length
        have hsub : ∀ x ∈ s.sorted, x ∈ s'.sorted := by
          intro x hx
          have h1 := (topoPass_grows g g.ops _ s' hs').1 x ((hinv.flags_iff x).mpr hx)
          exact (hinv'.flags_iff x).mp h1
        have hperm := (List.subperm_of_subset hinv.nodup hsub).perm_of_length_le heq
        exact hmS (hperm.mem_iff.mpr hms')
      have hmod' : s'.modified = true := by
        rw [hmod]; simp [hgrow]
      rw [hs']
      simp only [hmod', if_true]
      exact ih s' hinv' (by omega)
    · rw [if_neg hlt]
      exact ⟨s.sorted, rfl, hinv.nodup, hinv.subset, hinv.ordered, by omega⟩

theorem topoLoop_cycle (g : GraphObj) (hnn : g.inputsNonNull = true) (hc : g.hasCycle) :
    ∀ (fuel : Nat) (s : SortState), SortInv g s → g.ops.length ≤ fuel + s.sorted.length →
      topoLoop g fuel s = .ok none := by
  obtain ⟨c, hcyc⟩ := hc
  have hcops : c ∈ g.ops := (cycle_pred g c hcyc).1
  have hshort : ∀ s, SortInv g s → s.sorted.length < g.ops.length := by
    intro s hinv
    exact length_lt_of_missing s.sorted g.ops c hinv.nodup hinv.subset hcops
      (fun h => ordered_no_cycle g s.sorted hinv.ordered c h hcyc)
  intro fuel
  induction fuel with
  | zero =>
    intro s hinv hlen
    have := hshort s hinv
    omega
  | succ fuel ih =>
    intro s hinv hlen
    unfold topoLoop
    rw [if_pos (hshort s hinv)]
    simp only
    have hinv0 : SortInv g { s with modified := false } :=
      ⟨hinv.flags_iff, hinv.nodup, hinv.subset, hinv.ordered⟩
    obtain ⟨s', hs'⟩ := topoPass_total g g.ops (inputsNonNull_spec g hnn) { s with modified := false }
    have hinv' := topoPass_inv g g.ops _ s' hs' (fun o ho => ho) hinv0
    obtain ⟨-, hle, hmod⟩ := topoPass_grows g g.ops _ s' hs'
    rw [hs']
    simp only
    cases hm : s'.modified with
    | false => simp
    | true =>
      simp only [if_true]
      have hgrow : s.sorted.length < s'.sorted.length := by
        rw [hm] at hmod
        simpa using hmod.symm
      exact ih s' hinv' (by omega)

theorem sortInv_init (g : GraphObj) : SortInv g { sorted := [], flags := [], modified := false } :=
  ⟨fun x => Iff.rfl, List.nodup_nil, fun x hx => by simp at hx,
    fun l1 o l2 h => by simp at h⟩

theorem ordered_to_index (g : GraphObj) (l : List Nat)
    (hord : ∀ l1 o l2, l = l1 ++ o :: l2 → ∀ p, g.feeds p o → p ∈ l1) : g.topoOrdered l := by
  intro j o p hj hp
  have hjl : j < l.length := by
    by_contra hcon
    rw [List.getElem?_eq_none (by omega)] at hj
    cases hj
  have hget : l[j] = o := by
    rw [List.getElem?_eq_getElem hjl] at hj
    exact Option.some.inj hj
  have hsplit : l = l.take j ++ o :: l.drop (j + 1) := by
    rw [← hget]
    exact (List.take_append_drop j l).symm.trans (by rw [List.drop_eq_getElem_cons hjl])
  have hmem := hord _ _ _ hsplit p hp
  obtain ⟨i, hi, hpi⟩ := List.getElem_of_mem hmem
  have hij : i < j := by
    have := hi
    rw [List.length_take] at this
    omega
  refine ⟨i, hij, ?_⟩
  rw [List.getElem_take] at hpi
  rw [List.getElem?_eq_getElem (by omega)]
  exact congrArg some hpi


theorem inputsReady_error (g : GraphObj) (flags : List Nat) (ins : List (Option Nat)) (e : Err)
    (h : inputsReady g flags ins = .error e) : e = .nullDeref := by
  induction ins with
  | nil => simp [inputsReady] at h
  | cons i ins ih =>
    cases i with
    | none =>
      simp only [inputsReady] at h
      cases h; rfl
    | some x =>
      unfold inputsReady at h
      cases hsx : (g.tensorObj x).source with
      | none => rw [hsx] at h; exact ih h
      | some q =>
        rw [hsx] at h
        simp only at h
        by_cases hq : q ∈ flags
        · rw [if_pos hq] at h; exact ih h
        · rw [if_neg hq] at h; cases h

theorem topoPass_error (g : GraphObj) (l : List Nat) :
    ∀ s e, topoPass g l s = .error e → e = .nullDeref := by
  induction l with
  | nil => intro s e h; cases h
  | cons op rest ih =>
    intro s e h
    unfold topoPass at h
    by_cases hf : op ∈ s.flags
    · rw [if_pos hf] at h; exact ih s e h
    · rw [if_neg hf] at h
      cases hr : inputsReady g s.flags (g.opObj op).inputs with
      | error e' =>
        rw [hr] at h
        simp only at h
        cases h
        exact inputsReady_error g s.flags _ e hr
      | ok b =>
        rw [hr] at h
        cases b with
        | true => exact ih _ e h
        | false => exact ih s e h

/-- The pass budget `ops.size()` is enough: the loop of `topo_sort` never stops
for lack of it. -/
theorem topoLoop_fuel (g : GraphObj) :
    ∀ (fuel : Nat) (s : SortState), g.ops.length ≤ fuel + s.sorted.length →
      topoLoop g fuel s ≠ .error .fuel := by
  intro fuel
  induction fuel with
  | zero =>
    intro s hlen
    unfold topoLoop
    rw [if_neg (by omega)]
    simp
  | succ fuel ih =>
    intro s hlen
    unfold topoLoop
    by_cases hlt : s.sorted.length < g.ops.length
    · rw [if_pos hlt]
      simp only
      cases hp : topoPass g g.ops { s with modified := false } with
      | error e =>
        simp only
        have := topoPass_error g g.ops _ e hp
        rw [this]
        simp
      | ok s' =>
        simp only
        obtain ⟨-, hle, hmod⟩ := topoPass_grows g g.ops _ s' hp
        cases hm : s'.modified with
        | false => simp
        | true =>
          simp only [if_true]
          have hgrow : s.sorted.length < s'.sorted.length := by
            rw [hm] at hmod
            simpa using hmod.symm
          exact ih s' (by omega)
    · rw [if_neg hlt]
      simp

/-- The embedding of `topo_sort` never reports an exhausted budget: a call
returns, or halts on a null input. -/
theorem topo_sort_fuel (g : GraphObj) : g.topo_sort ≠ .error .fuel := by
  unfold GraphObj.topo_sort
  by_cases hs : g.sorted = true
  · rw [if_pos hs]; simp
  · rw [if_neg hs]
    have := topoLoop_fuel g g.ops.length
      { sorted := [], flags := [], modified := false } (by simp)
    cases hl : topoLoop g g.ops.length { sorted := [], flags := [], modified := false } with
    | error e =>
      simp only
      intro h
      cases h
      exact this hl
    | ok r =>
      cases r <;> simp

theorem acyclic_of_rank (g : GraphObj) (rank : Nat → Nat)
    (h : ∀ o p, g.dependsOn o p → rank p < rank o) : ¬ g.hasCycle := by
  rintro ⟨o, ho⟩
  have key : ∀ a b, Relation.TransGen g.dependsOn a b → rank b < rank a := by
    intro a b hab
    induction hab with
    | single h1 => exact h _ _ h1
    | tail _ h2 ih => exact lt_trans (h _ _ h2) ih
  exact lt_irrefl _ (key o o ho)

theorem reversedChainGraph_acyclic : ¬ reversedChainGraph.hasCycle := by
  apply acyclic_of_rank reversedChainGraph (fun o => if o = 0 then 1 else 0)
  rintro o p ⟨ho, hp, t, ht, hs⟩
  have hops : reversedChainGraph.ops = [0, 1] := rfl
  rw [hops] at ho hp
  have ho' : o = 0 ∨ o = 1 := by simpa using ho
  rcases ho' with rfl | rfl
  · have hin : (reversedChainGraph.opObj 0).inputs = [some 1] := rfl
    rw [hin] at ht
    have ht' : t = 1 := by simpa using ht
    subst ht'
    have hsrc : (reversedChainGraph.tensorObj 1).source = some 1 := rfl
    rw [hsrc] at hs
    have : p = 1 := by simpa using hs.symm
    subst this
    decide
  · have hin : (reversedChainGraph.opObj 1).inputs = [some 0] := rfl
    rw [hin] at ht
    have ht' : t = 0 := by simpa using ht
    subst ht'
    have hsrc : (reversedChainGraph.tensorObj 0).source = none := rfl
    rw [hsrc] at hs
    cases hs

theorem cyclicGraph_hasCycle : cyclicGraph.hasCycle :=
  ⟨0, Relation.TransGen.tail
    (Relation.TransGen.single
      (⟨by decide, by decide, 1, by decide, rfl⟩ : cyclicGraph.dependsOn 0 1))
    (⟨by decide, by decide, 0, by decide, rfl⟩ : cyclicGraph.dependsOn 1 0)⟩

/-- C6 (topological sort, success): for every graph without duplicate operators
whose operators read only non-null tensors with a source in the operator list,
whose `sorted` flag, when set, tells the truth, and which has no dependency
cycle, `topo_sort` returns true with the `sorted` flag set, and in the
resulting operator list (a permutation of the old one, over the same objects)
every producer of an input of an operator stands at a strictly smaller index
than that operator. -/
theorem topo_sort_orders_acyclic (g : GraphObj)
    (hnodup : g.ops.Nodup) (hnn : g.inputsNonNull = true) (hsrc : g.sourcesInOps = true)
    (hflag : g.sorted = true → g.topoOrdered g.ops)
    (hac : ¬ g.hasCycle) :
    ∃ g', g.topo_sort = .ok (true, g') ∧ g'.sorted = true ∧ g'.topoOrdered g'.ops
      ∧ g'.ops.Perm g.ops ∧ g'.opObj = g.opObj ∧ g'.tensorObj = g.tensorObj := by
  unfold GraphObj.topo_sort
  by_cases hs : g.sorted = true
  · rw [if_pos hs]
    exact ⟨g, rfl, hs, hflag hs, List.Perm.refl _, rfl, rfl⟩
  · rw [if_neg hs]
    obtain ⟨l, hl, hnd, hsub, hord, hlen⟩ := topoLoop_sorts g hnodup hnn hsrc hac g.ops.length
      { sorted := [], flags := [], modified := false } (sortInv_init g) (by simp)
    rw [hl]
    refine ⟨_, rfl, rfl, ?_, ?_, rfl, rfl⟩
    · exact ordered_to_index g l hord
    · exact (List.subperm_of_subset hnd hsub).perm_of_length_le hlen

/-- Witness for C6: `reversedChainGraph`, whose list `[0, 1]` has the consumer
first. -/
theorem topo_sort_orders_acyclic_witness :
    reversedChainGraph.ops = [0, 1] ∧
    ∃ g', reversedChainGraph.topo_sort = .ok (true, g') ∧ g'.sorted = true
      ∧ g'.topoOrdered g'.ops
      ∧ g'.ops.Perm reversedChainGraph.ops ∧ g'.opObj = reversedChainGraph.opObj
      ∧ g'.tensorObj = reversedChainGraph.tensorObj :=
  ⟨rfl, topo_sort_orders_acyclic reversedChainGraph (by decide) (by decide) (by decide)
    (fun h => absurd h (by decide)) reversedChainGraph_acyclic⟩

/-- C7 (topological sort, failure): for every graph whose `sorted` flag is
false, whose operators read only non-null tensors and contain a dependency
cycle, `topo_sort` returns false and the graph is exactly what it was: same
operator list in the same order, `sorted` flag still false. -/
theorem topo_sort_rejects_cycle (g : GraphObj) (hs : g.sorted = false)
    (hnn : g.inputsNonNull = true) (hc : g.hasCycle) :
    g.topo_sort = .ok (false, g) := by
  unfold GraphObj.topo_sort
  rw [hs]
  simp only [Bool.false_eq_true, if_false]
  rw [topoLoop_cycle g hnn hc g.ops.length _ (sortInv_init g) (by simp)]

/-- Witness for C7: `cyclicGraph`. -/
theorem topo_sort_rejects_cycle_witness :
    cyclicGraph.sorted = false ∧ cyclicGraph.ops = [0, 1] ∧
    cyclicGraph.topo_sort = .ok (false, cyclicGraph) :=
  ⟨rfl, rfl, topo_sort_rejects_cycle cyclicGraph rfl (by decide) cyclicGraph_hasCycle⟩


/-! ## Graph optimizer -/

/-- C8 (transpose elimination) does not hold of the code. On the valid chain
`x → Transpose([1,0]) → y1 → Transpose([1,0]) → y2 → C`, `optimize()` makes
the consumer `C` (operator 2) read `x` (tensor 0), and removes the downstream
Transpose (operator 1) and `y2` (tensor 2), but the upstream Transpose
(operator 0) and its output `y1` (tensor 1) stay in the lists: nothing is ever
pushed on `wait_for_cut`, so the cleanup has no work. -/
theorem optimize_keeps_upstream_transpose :
    transposePairGraph.checkValid = true ∧
    ∃ g, transposePairGraph.optimize = .ok g ∧ (g.opObj 2).inputs = [some 0] ∧
      g.ops = [0, 2] ∧ g.tensors = [0, 1, 3] := by
  refine ⟨by decide, _, rfl, by decide, by decide, by decide⟩

/-- C9 (Transpose-MatMul fusion) does not hold of the code. On
`x → Transpose([0,2,1]) → t → MatMul(t, B, transA = false)`, `optimize()` sets
`transA`, but the MatMul (operator 1) still reads `t` (tensor 1), `x` (tensor 0)
has no new consumer, and the Transpose (operator 0) stays in the operator
list: `reconnectDownstream(op, ...)` rewires the consumers of the MatMul's
output, not the MatMul's own input, and the Transpose is never marked. -/
theorem optimize_matmul_keeps_transposed_input :
    transposeMatmulGraph.checkValid = true ∧
    ∃ g, transposeMatmulGraph.optimize = .ok g ∧
      (g.opObj 1).kind = .MatMul true false ∧
      (g.opObj 1).inputs = [some 1, some 2] ∧
      (g.tensorObj 0).targets = [0] ∧
      g.ops = [0, 1] := by
  refine ⟨by decide, _, rfl, by decide, by decide, by decide, by decide⟩

/-- C10 (optimize preserves validity) does not hold of the code. The chain
`x → Transpose → y1 → Transpose → y2 → C` passes `checkValid()` and
`topo_sort()`; after `optimize()` the kept tensor `y1` (tensor 1) still has
the removed Transpose (operator 1) as a target and the consumer (operator 2)
still has it as a predecessor, so `checkValid()` fails. -/
theorem optimize_breaks_checkValid :
    transposePairGraph.checkValid = true ∧
    ∃ g, transposePairGraph.optimize = .ok g ∧
      1 ∉ g.ops ∧ 1 ∈ g.tensors ∧ (g.tensorObj 1).targets = [1] ∧
      2 ∈ g.ops ∧ (g.opObj 2).predecessors = [1] ∧
      g.checkValid = false := by
  refine ⟨by decide, _, rfl, by decide, by decide, by decide, by decide, by decide, by decide⟩

/-! ## Rounding and misuse of the allocator -/

theorem getAlignedSize_eq (al : Allocator) (s : Nat) (hs : 1 ≤ s) (hs' : s < SIZE_MOD)
    (hb : ((s - 1) / al.alignment + 1) * al.alignment < SIZE_MOD) :
    al.getAlignedSize s = ((s - 1) / al.alignment + 1) * al.alignment := by
  have hq : (s - 1) / al.alignment ≤ s - 1 := Nat.div_le_self _ _
  unfold Allocator.getAlignedSize
  have h1 : (s + SIZE_MOD - 1) % SIZE_MOD = s - 1 := by
    have : s + SIZE_MOD - 1 = (s - 1) + SIZE_MOD := by omega
    rw [this, Nat.add_mod_right, Nat.mod_eq_of_lt (by omega)]
  rw [h1, Nat.mod_eq_of_lt (a := (s - 1) / al.alignment + 1) (by omega),
    Nat.mod_eq_of_lt hb]

theorem getAlignedSize_zero (al : Allocator) (h : al.alignment = 8) :
    al.getAlignedSize 0 = 0 := by
  unfold Allocator.getAlignedSize SIZE_MOD
  rw [h]
  norm_num

/-- C18 (rounding up): for a positive alignment `a` and a size `s` with
`1 ≤ s` and `s + a - 1 < 2 ^ 64`, `getAlignedSize(s)` is
`((s - 1) / a + 1) * a`, a multiple of `a` in `[s, s + a - 1]`, below every
other multiple of `a` that is at least `s`, and a fixed point of
`getAlignedSize`; and with `a = 8` the size 0 is sent to 0. -/
theorem getAlignedSize_rounds_up (al : Allocator) (s : Nat) (ha : 0 < al.alignment)
    (hs : 1 ≤ s) (hb : s + al.alignment - 1 < SIZE_MOD) :
    al.getAlignedSize s = ((s - 1) / al.alignment + 1) * al.alignment
      ∧ al.alignment ∣ al.getAlignedSize s
      ∧ s ≤ al.getAlignedSize s
      ∧ al.getAlignedSize s ≤ s + al.alignment - 1
      ∧ (∀ m, al.alignment ∣ m → s ≤ m → al.getAlignedSize s ≤ m)
      ∧ al.getAlignedSize (al.getAlignedSize s) = al.getAlignedSize s
      ∧ (al.alignment = 8 → al.getAlignedSize 0 = 0) := by
  have hdm := Nat.div_add_mod (s - 1) al.alignment
  have hmod := Nat.mod_lt (s - 1) ha
  have hexp : ((s - 1) / al.alignment + 1) * al.alignment
      = al.alignment * ((s - 1) / al.alignment) + al.alignment := by ring
  have hle : ((s - 1) / al.alignment + 1) * al.alignment ≤ s + al.alignment - 1 := by
    rw [hexp]; omega
  have heq := getAlignedSize_eq al s hs (by omega) (by omega)
  have hge : s ≤ ((s - 1) / al.alignment + 1) * al.alignment := by
    rw [hexp]; omega
  refine ⟨heq, ?_, ?_, ?_, ?_, ?_, getAlignedSize_zero al⟩
  · rw [heq]; exact Dvd.intro_left _ rfl
  · rw [heq]; exact hge
  · rw [heq]; exact hle
  · rintro m ⟨k, rfl⟩ hm
    rw [heq]
    have hk : (s - 1) / al.alignment < k := by
      by_contra hcon
      have hk' : k ≤ (s - 1) / al.alignment := by omega
      have := Nat.mul_le_mul_left al.alignment hk'
      omega
    calc ((s - 1) / al.alignment + 1) * al.alignment
        ≤ k * al.alignment := Nat.mul_le_mul_right _ hk
      _ = al.alignment * k := Nat.mul_comm _ _
  · rw [heq]
    have hdiv : (((s - 1) / al.alignment + 1) * al.alignment - 1) / al.alignment
        = (s - 1) / al.alignment := by
      have h1 : ((s - 1) / al.alignment + 1) * al.alignment - 1
          = (al.alignment - 1) + al.alignment * ((s - 1) / al.alignment) := by
        rw [hexp]; omega
      rw [h1, Nat.add_mul_div_left _ _ ha, Nat.div_eq_of_lt (by omega)]
      omega
    have heq2 := getAlignedSize_eq al (((s - 1) / al.alignment + 1) * al.alignment)
      (by omega) (by omega) (by rw [hdiv]; omega)
    rw [heq2, hdiv]

/-- Witness for C18: alignment 8 and size 13, rounded up to 16. -/
theorem getAlignedSize_rounds_up_witness :
    Allocator.fresh.getAlignedSize 13 = 16 ∧
    (Allocator.fresh.getAlignedSize 13 = ((13 - 1) / Allocator.fresh.alignment + 1) * Allocator.fresh.alignment
      ∧ Allocator.fresh.alignment ∣ Allocator.fresh.getAlignedSize 13
      ∧ 13 ≤ Allocator.fresh.getAlignedSize 13
      ∧ Allocator.fresh.getAlignedSize 13 ≤ 13 + Allocator.fresh.alignment - 1
      ∧ (∀ m, Allocator.fresh.alignment ∣ m → 13 ≤ m → Allocator.fresh.getAlignedSize 13 ≤ m)
      ∧ Allocator.fresh.getAlignedSize (Allocator.fresh.getAlignedSize 13)
          = Allocator.fresh.getAlignedSize 13
      ∧ (Allocator.fresh.alignment = 8 → Allocator.fresh.getAlignedSize 0 = 0)) :=
  ⟨by decide, getAlignedSize_rounds_up Allocator.fresh 13 (by decide) (by decide) (by decide)⟩

/-- C19 (allocator misuse): `alloc` and `free` halt exactly when the buffer is
bound (`ptr` is not null), the only way they halt is the assertion at their
first line, before any field is written; an unbound allocator always answers
`alloc`; and once `getPtr` has bound the buffer both calls halt. -/
theorem alloc_free_fail_iff_bound (a : Allocator) (addr size : Nat) (rtAlloc : Nat → Nat) :
    (a.alloc size = .error .assertion ↔ a.ptr ≠ none)
    ∧ (a.free addr size = .error .assertion ↔ a.ptr ≠ none)
    ∧ (∀ e, a.alloc size = .error e → e = .assertion ∧ a.ptr ≠ none)
    ∧ (∀ e, a.free addr size = .error e → e = .assertion ∧ a.ptr ≠ none)
    ∧ (a.ptr = none → ∃ off a', a.alloc size = .ok (off, a'))
    ∧ (a.ptr = none → ∃ a', a.free addr size = .ok a')
    ∧ (a.getPtr rtAlloc).2.alloc size = .error .assertion
    ∧ (a.getPtr rtAlloc).2.free addr size = .error .assertion := by
  have halloc : ∀ b : Allocator, b.ptr ≠ none → b.alloc size = .error .assertion := by
    intro b hb; unfold Allocator.alloc; rw [if_pos hb]
  have hfree : ∀ b : Allocator, b.ptr ≠ none → b.free addr size = .error .assertion := by
    intro b hb; unfold Allocator.free; rw [if_pos hb]
  have hallocok : a.ptr = none → ∃ off a', a.alloc size = .ok (off, a') := by
    intro h
    unfold Allocator.alloc
    rw [if_neg (by simp [h])]
    simp only
    split
    · exact ⟨_, _, rfl⟩
    · exact ⟨_, _, rfl⟩
  have hfreeok : a.ptr = none → ∃ a', a.free addr size = .ok a' := by
    intro h
    unfold Allocator.free
    rw [if_neg (by simp [h])]
    exact ⟨_, rfl⟩
  have hbound : (a.getPtr rtAlloc).2.ptr ≠ none := by
    unfold Allocator.getPtr
    cases hp : a.ptr with
    | none => simp
    | some p => simp [hp]
  refine ⟨⟨?_, halloc a⟩, ⟨?_, hfree a⟩, ?_, ?_, hallocok, hfreeok, halloc _ hbound,
    hfree _ hbound⟩
  · intro h hnone
    obtain ⟨off, a', hok⟩ := hallocok hnone
    rw [hok] at h; cases h
  · intro h hnone
    obtain ⟨a', hok⟩ := hfreeok hnone
    rw [hok] at h; cases h
  · intro e h
    by_cases hp : a.ptr = none
    · obtain ⟨off, a', hok⟩ := hallocok hp
      rw [hok] at h; cases h
    · rw [halloc a hp] at h
      cases h; exact ⟨rfl, hp⟩
  · intro e h
    by_cases hp : a.ptr = none
    · obtain ⟨a', hok⟩ := hfreeok hp
      rw [hok] at h; cases h
    · rw [hfree a hp] at h
      cases h; exact ⟨rfl, hp⟩

/-! ## Alignment of offsets -/

theorem getAlignedSize_mod8 (al : Allocator) (h : al.alignment = 8) (s : Nat) :
    al.getAlignedSize s % 8 = 0 := by
  unfold Allocator.getAlignedSize SIZE_MOD
  rw [h]
  omega

theorem mapSet_mem (fb : List (Nat × Nat)) (k v : Nat) :
    ∀ b ∈ mapSet fb k v, b = (k, v) ∨ b ∈ fb := by
  induction fb with
  | nil => intro b hb; simp [mapSet] at hb; exact Or.inl hb
  | cons hd tl ih =>
    obtain ⟨k', v'⟩ := hd
    intro b hb
    unfold mapSet at hb
    split at hb
    · rcases List.mem_cons.mp hb with h | h
      · exact Or.inl h
      · exact Or.inr h
    · split at hb
      · rcases List.mem_cons.mp hb with h | h
        · exact Or.inl h
        · exact Or.inr (List.mem_cons_of_mem _ h)
      · rcases List.mem_cons.mp hb with h | h
        · exact Or.inr (h ▸ List.mem_cons_self _ _)
        · rcases ih b h with h' | h'
          · exact Or.inl h'
          · exact Or.inr (List.mem_cons_of_mem _ h')

theorem mapErase_mem (fb : List (Nat × Nat)) (k : Nat) : ∀ b ∈ mapErase fb k, b ∈ fb := by
  induction fb with
  | nil => intro b hb; simp [mapErase] at hb
  | cons hd tl ih =>
    obtain ⟨k', v'⟩ := hd
    intro b hb
    unfold mapErase at hb
    split at hb
    · exact List.mem_cons_of_mem _ hb
    · rcases List.mem_cons.mp hb with h | h
      · exact h ▸ List.mem_cons_self _ _
      · exact List.mem_cons_of_mem _ (ih b h)

theorem mapFind_mem (fb : List (Nat × Nat)) (k v : Nat) (h : mapFind fb k = some v) :
    (k, v) ∈ fb := by
  induction fb with
  | nil => simp [mapFind] at h
  | cons hd tl ih =>
    obtain ⟨k', v'⟩ := hd
    unfold mapFind at h
    split at h
    · rename_i hk
      cases h
      exact hk ▸ List.mem_cons_self _ _
    · exact List.mem_cons_of_mem _ (ih h)

theorem mapNext_mem (fb : List (Nat × Nat)) (k : Nat) (b : Nat × Nat)
    (h : mapNext fb k = some b) : b ∈ fb := by
  induction fb with
  | nil => simp [mapNext] at h
  | cons hd tl ih =>
    obtain ⟨k', v'⟩ := hd
    unfold mapNext at h
    split at h
    · exact List.mem_cons_of_mem _ (List.mem_of_mem_head? h)
    · exact List.mem_cons_of_mem _ (ih h)

theorem mapPrev_mem (fb : List (Nat × Nat)) (k : Nat) (b : Nat × Nat)
    (h : mapPrev fb k = some b) : b ∈ fb := by
  induction fb with
  | nil => simp [mapPrev] at h
  | cons hd tl ih =>
    cases tl with
    | nil => simp [mapPrev] at h
    | cons hd2 tl2 =>
      obtain ⟨k', v'⟩ := hd2
      unfold mapPrev at h
      split at h
      · cases h; exact List.mem_cons_self _ _
      · exact List.mem_cons_of_mem _ (ih h)

theorem allocScan_mem (size : Nat) (fb : List (Nat × Nat)) (b : Nat × Nat)
    (h : allocScan size fb = some b) : b ∈ fb := by
  induction fb with
  | nil => simp [allocScan] at h
  | cons hd tl ih =>
    obtain ⟨k', v'⟩ := hd
    unfold allocScan at h
    split at h
    · cases h; exact List.mem_cons_self _ _
    · exact List.mem_cons_of_mem _ (ih h)

theorem blocksAligned_mapSet (fb : List (Nat × Nat)) (k v : Nat) (h : blocksAligned fb)
    (hk : k % 8 = 0) (hv : v % 8 = 0) : blocksAligned (mapSet fb k v) := by
  intro b hb
  rcases mapSet_mem fb k v b hb with h' | h'
  · subst h'; exact ⟨hk, hv⟩
  · exact h b h'

theorem blocksAligned_mapErase (fb : List (Nat × Nat)) (k : Nat) (h : blocksAligned fb) :
    blocksAligned (mapErase fb k) :=
  fun b hb => h b (mapErase_mem fb k b hb)

theorem alloc_aligned (a : Allocator) (size off : Nat) (a' : Allocator)
    (halign : a.alignment = 8) (hused : a.used % 8 = 0) (hfb : blocksAligned a.free_blocks)
    (h : a.alloc size = .ok (off, a')) :
    off % 8 = 0 ∧ a'.alignment = 8 ∧ a'.used % 8 = 0 ∧ blocksAligned a'.free_blocks := by
  have hsz := getAlignedSize_mod8 a halign size
  unfold Allocator.alloc at h
  split at h
  · cases h
  · simp only at h
    split at h
    · rename_i startAddr blockSize hscan
      have hmem := hfb _ (allocScan_mem _ _ _ hscan)
      simp only [Except.ok.injEq, Prod.mk.injEq] at h
      obtain ⟨h1, h2⟩ := h
      subst h1 h2
      refine ⟨hmem.1, halign, hused, ?_⟩
      simp only
      split
      · apply blocksAligned_mapSet _ _ _ (blocksAligned_mapErase _ _ hfb)
        · have := hmem.1; unfold SIZE_MOD; omega
        · have := hmem.2; omega
      · exact blocksAligned_mapErase _ _ hfb
    · simp only [Except.ok.injEq, Prod.mk.injEq] at h
      obtain ⟨h1, h2⟩ := h
      subst h1 h2
      refine ⟨?_, halign, ?_, hfb⟩
      · unfold SIZE_MOD; omega
      · show (a.used + a.getAlignedSize size) % SIZE_MOD % 8 = 0
        unfold SIZE_MOD; omega

theorem free_aligned (a : Allocator) (addr size : Nat) (a' : Allocator)
    (halign : a.alignment = 8) (hused : a.used % 8 = 0) (hfb : blocksAligned a.free_blocks)
    (haddr : addr % 8 = 0) (h : a.free addr size = .ok a') :
    a'.alignment = 8 ∧ a'.used % 8 = 0 ∧ blocksAligned a'.free_blocks := by
  have hsz := getAlignedSize_mod8 a halign size
  unfold Allocator.free at h
  split at h
  · cases h
  · simp only [Except.ok.injEq] at h
    subst h
    refine ⟨halign, hused, ?_⟩
    simp only
    have h0 : blocksAligned (mapSet a.free_blocks addr (a.getAlignedSize size)) :=
      blocksAligned_mapSet _ _ _ hfb haddr hsz
    -- after the merge with the following block
    have h1 : blocksAligned
        (match mapNext (mapSet a.free_blocks addr (a.getAlignedSize size)) addr with
        | some (nextAddr, nextSize) =>
          if (addr + a.getAlignedSize size) % SIZE_MOD = nextAddr then
            mapErase (mapSet (mapSet a.free_blocks addr (a.getAlignedSize size)) addr
              ((a.getAlignedSize size + nextSize) % SIZE_MOD)) nextAddr
          else mapSet a.free_blocks addr (a.getAlignedSize size)
        | none => mapSet a.free_blocks addr (a.getAlignedSize size)) := by
      split
      · rename_i nextAddr nextSize hnext
        have hn := h0 _ (mapNext_mem _ _ _ hnext)
        split
        · apply blocksAligned_mapErase
          apply blocksAligned_mapSet _ _ _ h0 haddr
          have := hn.2; unfold SIZE_MOD; omega
        · exact h0
      · exact h0
    split
    · rename_i prevAddr prevSize hprev
      have hp := h0 _ (mapPrev_mem _ _ _ hprev)
      split
      · apply blocksAligned_mapErase
        apply blocksAligned_mapSet _ _ _ h1 hp.1
        have hcur : ((mapFind
            (match mapNext (mapSet a.free_blocks addr (a.getAlignedSize size)) addr with
            | some (nextAddr, nextSize) =>
              if (addr + a.getAlignedSize size) % SIZE_MOD = nextAddr then
                mapErase (mapSet (mapSet a.free_blocks addr (a.getAlignedSize size)) addr
                  ((a.getAlignedSize size + nextSize) % SIZE_MOD)) nextAddr
              else mapSet a.free_blocks addr (a.getAlignedSize size)
            | none => mapSet a.free_blocks addr (a.getAlignedSize size)) addr).getD 0) % 8 = 0 := by
          cases hf : mapFind
            (match mapNext (mapSet a.free_blocks addr (a.getAlignedSize size)) addr with
            | some (nextAddr, nextSize) =>
              if (addr + a.getAlignedSize size) % SIZE_MOD = nextAddr then
                mapErase (mapSet (mapSet a.free_blocks addr (a.getAlignedSize size)) addr
                  ((a.getAlignedSize size + nextSize) % SIZE_MOD)) nextAddr
              else mapSet a.free_blocks addr (a.getAlignedSize size)
            | none => mapSet a.free_blocks addr (a.getAlignedSize size)) addr with
          | none => rfl
          | some v => exact (h1 _ (mapFind_mem _ _ _ hf)).2
        have := hp.2
        unfold SIZE_MOD at hcur ⊢; omega
      · exact h1
    · exact h1

theorem AllocLog.step_aligned (l l' : AllocLog) (c : Call) (hinv : l.aligned)
    (h : l.step c = some l') : l'.aligned := by
  cases c with
  | alloc size =>
    simp only [AllocLog.step] at h
    cases ha : l.st.alloc size with
    | error e => rw [ha] at h; cases h
    | ok r =>
      obtain ⟨off, st⟩ := r
      rw [ha] at h
      simp only [Option.some.injEq] at h
      subst h
      obtain ⟨h1, h2, h3, h4⟩ :=
        alloc_aligned l.st size off st hinv.alignment hinv.used hinv.blocks ha
      refine ⟨h2, h3, h4, ?_⟩
      intro o ho
      rcases List.mem_cons.mp ho with h | h
      · exact h ▸ h1
      · exact hinv.offsets o h
  | free addr size =>
    simp only [AllocLog.step] at h
    by_cases hmem : addr ∈ l.returned
    · rw [if_pos hmem] at h
      cases hf : l.st.free addr size with
      | error e => rw [hf] at h; cases h
      | ok st =>
        rw [hf] at h
        simp only [Option.some.injEq] at h
        subst h
        obtain ⟨h2, h3, h4⟩ := free_aligned l.st addr size st hinv.alignment hinv.used
          hinv.blocks (hinv.offsets addr hmem) hf
        exact ⟨h2, h3, h4, hinv.offsets⟩
    · rw [if_neg hmem] at h; cases h

theorem AllocLog.run_aligned (calls : List Call) :
    ∀ (l l' : AllocLog), l.aligned → l.run calls = some l' → l'.aligned := by
  induction calls with
  | nil => intro l l' hinv h; cases h; exact hinv
  | cons c cs ih =>
    intro l l' hinv h
    unfold AllocLog.run at h
    cases hs : l.step c with
    | none => rw [hs] at h; cases h
    | some l1 =>
      rw [hs] at h
      exact ih l1 l' (AllocLog.step_aligned l l1 c hinv hs) h

theorem AllocLog.fresh_aligned : AllocLog.fresh.aligned :=
  ⟨rfl, rfl, fun b hb => by simp [AllocLog.fresh, Allocator.fresh] at hb,
    fun o ho => by simp [AllocLog.fresh] at ho⟩

/-- C17 (aligned offsets): after any sequence of `alloc`/`free` calls on a fresh
allocator in which every `free` is given an offset that `alloc` returned
earlier, every offset `alloc` has returned is a multiple of 8, and so are
`used` and the start and the length of every free block. -/
theorem alloc_offsets_aligned (calls : List Call) (l : AllocLog)
    (h : AllocLog.fresh.run calls = some l) :
    (∀ off ∈ l.returned, off % 8 = 0) ∧ l.st.used % 8 = 0
      ∧ ∀ b ∈ l.st.free_blocks, b.1 % 8 = 0 ∧ b.2 % 8 = 0 := by
  have := AllocLog.run_aligned calls AllocLog.fresh l AllocLog.fresh_aligned h
  exact ⟨this.offsets, this.used, this.blocks⟩

/-- Witness for C17: `alloc(13)`, `alloc(3)`, `free(0, 5)`, `alloc(20)`. -/
theorem alloc_offsets_aligned_witness :
    AllocLog.fresh.run [.alloc 13, .alloc 3, .free 0 5, .alloc 20]
      = some { st := { used := 48, peak := 24, ptr := none, alignment := 8,
                       free_blocks := [(0, 8)] },
               returned := [24, 16, 0] }
    ∧ (∀ off ∈ [24, 16, 0], off % 8 = 0) ∧ 48 % 8 = 0
      ∧ ∀ b ∈ [((0 : Nat), (8 : Nat))], b.1 % 8 = 0 ∧ b.2 % 8 = 0 :=
  ⟨by decide, alloc_offsets_aligned [.alloc 13, .alloc 3, .free 0 5, .alloc 20]
    { st := { used := 48, peak := 24, ptr := none, alignment := 8,
              free_blocks := [(0, 8)] },
      returned := [24, 16, 0] } (by decide)⟩

/-! ## The step of free -/

theorem free_eq_freeBlocks (a : Allocator) (addr size : Nat) (h : a.ptr = none) :
    a.free addr size
      = .ok { a with free_blocks := freeBlocks a.free_blocks addr (a.getAlignedSize size) } := by
  unfold Allocator.free
  rw [if_neg (by simp [h])]
  rfl

theorem mapSet_insert (L R : List (Nat × Nat)) (k v : Nat) (hL : ∀ b ∈ L, b.1 < k)
    (hR : ∀ b ∈ R, k < b.1) : mapSet (L ++ R) k v = L ++ (k, v) :: R := by
  induction L with
  | nil =>
    cases R with
    | nil => rfl
    | cons hd tl =>
      obtain ⟨k', v'⟩ := hd
      have := hR (k', v') (List.mem_cons_self _ _)
      simp [mapSet, this]
  | cons hd tl ih =>
    obtain ⟨k', v'⟩ := hd
    have h1 : k' < k := hL (k', v') (List.mem_cons_self _ _)
    have h2 : ¬ k < k' := by omega
    have h3 : k ≠ k' := by omega
    simp [mapSet, h2, h3, ih (fun b hb => hL b (List.mem_cons_of_mem _ hb))]

theorem mapSet_mid (L R : List (Nat × Nat)) (k v w : Nat) (hL : ∀ b ∈ L, b.1 < k) :
    mapSet (L ++ (k, v) :: R) k w = L ++ (k, w) :: R := by
  induction L with
  | nil => simp [mapSet]
  | cons hd tl ih =>
    obtain ⟨k', v'⟩ := hd
    have h1 : k' < k := hL (k', v') (List.mem_cons_self _ _)
    have h2 : ¬ k < k' := by omega
    have h3 : k ≠ k' := by omega
    simp [mapSet, h2, h3, ih (fun b hb => hL b (List.mem_cons_of_mem _ hb))]

theorem mapErase_mid (L R : List (Nat × Nat)) (k v : Nat) (hL : ∀ b ∈ L, b.1 ≠ k) :
    mapErase (L ++ (k, v) :: R) k = L ++ R := by
  induction L with
  | nil => simp [mapErase]
  | cons hd tl ih =>
    obtain ⟨k', v'⟩ := hd
    have h1 : k' ≠ k := hL (k', v') (List.mem_cons_self _ _)
    simp [mapErase, h1, ih (fun b hb => hL b (List.mem_cons_of_mem _ hb))]

theorem mapFind_mid (L R : List (Nat × Nat)) (k v : Nat) (hL : ∀ b ∈ L, b.1 ≠ k) :
    mapFind (L ++ (k, v) :: R) k = some v := by
  induction L with
  | nil => simp [mapFind]
  | cons hd tl ih =>
    obtain ⟨k', v'⟩ := hd
    have h1 : k' ≠ k := hL (k', v') (List.mem_cons_self _ _)
    simp [mapFind, h1, ih (fun b hb => hL b (List.mem_cons_of_mem _ hb))]

theorem mapNext_mid (L R : List (Nat × Nat)) (k v : Nat) (hL : ∀ b ∈ L, b.1 ≠ k) :
    mapNext (L ++ (k, v) :: R) k = R.head? := by
  induction L with
  | nil => simp [mapNext]
  | cons hd tl ih =>
    obtain ⟨k', v'⟩ := hd
    have h1 : k' ≠ k := hL (k', v') (List.mem_cons_self _ _)
    simp [mapNext, h1, ih (fun b hb => hL b (List.mem_cons_of_mem _ hb))]

theorem mapPrev_none (l : List (Nat × Nat)) (k : Nat) (h : ∀ b ∈ l.tail, b.1 ≠ k) :
    mapPrev l k = none := by
  induction l with
  | nil => rfl
  | cons hd tl ih =>
    cases tl with
    | nil => rfl
    | cons y rest =>
      obtain ⟨k', v'⟩ := y
      have h1 : k' ≠ k := h (k', v') (by simp)
      unfold mapPrev
      rw [if_neg h1]
      exact ih (fun b hb => h b (by simp at hb ⊢; exact Or.inr hb))

theorem mapPrev_mid (L R : List (Nat × Nat)) (k v : Nat) (hL : ∀ b ∈ L, b.1 ≠ k)
    (hR : ∀ b ∈ R, b.1 ≠ k) : mapPrev (L ++ (k, v) :: R) k = L.getLast? := by
  induction L with
  | nil =>
    simp only [List.nil_append, List.getLast?_nil]
    exact mapPrev_none _ _ (by simpa using hR)
  | cons hd tl ih =>
    cases tl with
    | nil => simp [mapPrev]
    | cons y rest =>
      obtain ⟨k', v'⟩ := y
      have h1 : k' ≠ k := hL (k', v') (by simp)
      have ih' := ih (fun b hb => hL b (List.mem_cons_of_mem _ hb))
      simp only [List.cons_append] at ih' ⊢
      unfold mapPrev
      rw [if_neg h1, ih']
      simp [List.getLast?_cons_cons]

theorem covered_nil (x : Nat) : covered [] x ↔ False := by
  simp [covered]

theorem covered_cons (b : Nat × Nat) (fb : List (Nat × Nat)) (x : Nat) :
    covered (b :: fb) x ↔ (b.1 ≤ x ∧ x < b.1 + b.2) ∨ covered fb x := by
  simp [covered]

theorem covered_append (l r : List (Nat × Nat)) (x : Nat) :
    covered (l ++ r) x ↔ covered l x ∨ covered r x := by
  simp only [covered, List.mem_append]
  constructor
  · rintro ⟨b, hb | hb, h⟩
    · exact Or.inl ⟨b, hb, h⟩
    · exact Or.inr ⟨b, hb, h⟩
  · rintro (⟨b, hb, h⟩ | ⟨b, hb, h⟩)
    · exact ⟨b, Or.inl hb, h⟩
    · exact ⟨b, Or.inr hb, h⟩

theorem gapped_mid (L R : List (Nat × Nat)) (b : Nat × Nat) :
    gapped (L ++ b :: R) ↔
      gapped L ∧ gapped R ∧ (∀ p ∈ L, p.1 + p.2 < b.1) ∧ (∀ n ∈ R, b.1 + b.2 < n.1)
        ∧ (∀ p ∈ L, ∀ n ∈ R, p.1 + p.2 < n.1) := by
  unfold gapped
  rw [List.pairwise_append, List.pairwise_cons]
  constructor
  · rintro ⟨h1, ⟨h2, h3⟩, h4⟩
    exact ⟨h1, h3, fun p hp => h4 p hp b (List.mem_cons_self _ _), h2,
      fun p hp n hn => h4 p hp n (List.mem_cons_of_mem _ hn)⟩
  · rintro ⟨h1, h2, h3, h4, h5⟩
    refine ⟨h1, ⟨h4, h2⟩, ?_⟩
    intro p hp n hn
    rcases List.mem_cons.mp hn with h | h
    · exact h ▸ h3 p hp
    · exact h5 p hp n h

/-- The first merge, on a map `L ++ (addr, s) :: R` whose blocks behind `addr`
start at or after the end of the region. -/
theorem mergeNext_spec (L R : List (Nat × Nat)) (addr s : Nat)
    (hL : ∀ b ∈ L, b.1 < addr) (hR : ∀ b ∈ R, addr + s ≤ b.1) (hs : 0 < s)
    (hgR : gapped R) (hbR : ∀ b ∈ R, b.1 + b.2 < SIZE_MOD) (hb : addr + s < SIZE_MOD) :
    ∃ w R', mergeNext (L ++ (addr, s) :: R) addr s = L ++ (addr, w) :: R'
      ∧ 0 < w ∧ addr + w < SIZE_MOD ∧ gapped R' ∧ (∀ b ∈ R', addr + w < b.1)
      ∧ (∀ b ∈ R', b ∈ R)
      ∧ (∀ x, ((addr ≤ x ∧ x < addr + w) ∨ covered R' x)
          ↔ ((addr ≤ x ∧ x < addr + s) ∨ covered R x)) := by
  have hLne : ∀ b ∈ L, b.1 ≠ addr := fun b hb' => by have := hL b hb'; omega
  unfold mergeNext
  rw [mapNext_mid L R addr s hLne]
  cases R with
  | nil =>
    exact ⟨s, [], rfl, hs, hb, List.Pairwise.nil, fun b hb' => by simp at hb',
      fun b hb' => hb', fun x => Iff.rfl⟩
  | cons n R2 =>
    obtain ⟨nk, nv⟩ := n
    have hn := hR (nk, nv) (List.mem_cons_self _ _)
    have hnb := hbR (nk, nv) (List.mem_cons_self _ _)
    simp only at hn hnb
    have hg2 : gapped R2 := (List.pairwise_cons.mp hgR).2
    have hgn : ∀ b ∈ R2, nk + nv < b.1 := (List.pairwise_cons.mp hgR).1
    simp only [List.head?_cons]
    rw [Nat.mod_eq_of_lt hb]
    by_cases hadj : addr + s = nk
    · rw [if_pos hadj, mapSet_mid L _ addr s _ hL]
      have hLn : ∀ b ∈ L ++ [(addr, (s + nv) % SIZE_MOD)], b.1 ≠ nk := by
        intro b hb'
        rcases List.mem_append.mp hb' with h | h
        · have := hL b h; omega
        · simp only [List.mem_singleton] at h
          subst h; simp only; omega
      have hre : L ++ (addr, (s + nv) % SIZE_MOD) :: (nk, nv) :: R2
          = (L ++ [(addr, (s + nv) % SIZE_MOD)]) ++ (nk, nv) :: R2 := by simp
      rw [hre, mapErase_mid _ R2 nk nv hLn, Nat.mod_eq_of_lt (by omega)]
      refine ⟨s + nv, R2, by simp, by omega, by omega, hg2, ?_, ?_, ?_⟩
      · intro b hb'; have := hgn b hb'; omega
      · intro b hb'; exact List.mem_cons_of_mem _ hb'
      · intro x
        rw [covered_cons]
        simp only
        constructor
        · rintro (h | h)
          · by_cases hx : x < addr + s
            · exact Or.inl ⟨h.1, hx⟩
            · exact Or.inr (Or.inl ⟨by omega, by omega⟩)
          · exact Or.inr (Or.inr h)
        · rintro (h | h | h)
          · exact Or.inl ⟨h.1, by omega⟩
          · exact Or.inl ⟨by omega, by omega⟩
          · exact Or.inr h
    · rw [if_neg hadj]
      refine ⟨s, (nk, nv) :: R2, rfl, hs, hb, hgR, ?_, fun b hb' => hb', fun x => Iff.rfl⟩
      intro b hb'
      have := hR b hb'
      rcases List.mem_cons.mp hb' with h | h
      · subst h; simp only at this ⊢; omega
      · have := hgn b h; omega

/-- The second merge, on a map `L ++ (addr, w) :: R` whose blocks before `addr`
end at or before `addr`. -/
theorem mergePrev_spec (L R : List (Nat × Nat)) (addr w : Nat)
    (hgL : gapped L) (hL : ∀ b ∈ L, b.1 + b.2 ≤ addr) (hLk : ∀ b ∈ L, b.1 < addr)
    (hgR : gapped R) (hR : ∀ b ∈ R, addr + w < b.1) (hw : 0 < w)
    (hb : addr + w < SIZE_MOD) :
    gapped (mergePrev L.getLast? (L ++ (addr, w) :: R) addr)
      ∧ ∀ x, covered (mergePrev L.getLast? (L ++ (addr, w) :: R) addr) x
          ↔ covered L x ∨ (addr ≤ x ∧ x < addr + w) ∨ covered R x := by
  have hLne : ∀ b ∈ L, b.1 ≠ addr := fun b hb' => by have := hLk b hb'; omega
  have hLR : ∀ p ∈ L, ∀ n ∈ R, p.1 + p.2 < n.1 := by
    intro p hp n hn
    have := hL p hp
    have := hR n hn
    omega
  have hnomerge : gapped (L ++ (addr, w) :: R) → gapped (L ++ (addr, w) :: R)
      ∧ ∀ x, covered (L ++ (addr, w) :: R) x
          ↔ covered L x ∨ (addr ≤ x ∧ x < addr + w) ∨ covered R x := by
    intro hg
    refine ⟨hg, fun x => ?_⟩
    rw [covered_append, covered_cons]
  unfold mergePrev
  rcases List.eq_nil_or_concat L with hnil | ⟨L', p, hcat⟩
  · subst hnil
    simp only [List.getLast?_nil]
    apply hnomerge
    exact (gapped_mid [] R (addr, w)).mpr
      ⟨List.Pairwise.nil, hgR, fun p hp => by simp at hp, hR, fun p hp => by simp at hp⟩
  · rw [List.concat_eq_append] at hcat
    subst hcat
    obtain ⟨pk, pv⟩ := p
    have hp1 := hL (pk, pv) (by simp)
    have hp2 := hLk (pk, pv) (by simp)
    simp only at hp1 hp2
    have hgL' := (gapped_mid L' [] (pk, pv)).mp hgL
    obtain ⟨hgL1, -, hgL3, -, -⟩ := hgL'
    have hlast : (L' ++ [(pk, pv)]).getLast? = some (pk, pv) := by simp
    rw [hlast]
    simp only
    rw [Nat.mod_eq_of_lt (by omega)]
    by_cases hadj : pk + pv = addr
    · rw [if_pos hadj, mapFind_mid _ R addr w hLne]
      simp only [Option.getD_some]
      have hL'k : ∀ b ∈ L', b.1 < pk := by
        intro b hb'
        have := hgL3 b hb'
        simp only at this
        omega
      have hre : (L' ++ [(pk, pv)]) ++ (addr, w) :: R = L' ++ (pk, pv) :: ((addr, w) :: R) := by
        simp
      rw [hre, mapSet_mid L' _ pk pv _ hL'k]
      have hne : ∀ b ∈ L' ++ [(pk, (pv + w) % SIZE_MOD)], b.1 ≠ addr := by
        intro b hb'
        rcases List.mem_append.mp hb' with h | h
        · have := hL'k b h; omega
        · simp only [List.mem_singleton] at h
          subst h; simp only; omega
      have hre2 : L' ++ (pk, (pv + w) % SIZE_MOD) :: (addr, w) :: R
          = (L' ++ [(pk, (pv + w) % SIZE_MOD)]) ++ (addr, w) :: R := by simp
      rw [hre2, mapErase_mid _ R addr w hne, Nat.mod_eq_of_lt (by omega)]
      have hre3 : (L' ++ [(pk, pv + w)]) ++ R = L' ++ (pk, pv + w) :: R := by simp
      rw [hre3]
      refine ⟨?_, fun x => ?_⟩
      · refine (gapped_mid L' R (pk, pv + w)).mpr ⟨hgL1, hgR, hgL3, ?_, ?_⟩
        · intro n hn; have := hR n hn; simp only; omega
        · intro p hp n hn
          exact hLR p (List.mem_append_left _ hp) n hn
      · rw [covered_append, covered_cons, covered_append, covered_cons, covered_nil]
        simp only
        constructor
        · rintro (h | h | h)
          · exact Or.inl (Or.inl h)
          · by_cases hx : x < pk + pv
            · exact Or.inl (Or.inr (Or.inl ⟨h.1, hx⟩))
            · exact Or.inr (Or.inl ⟨by omega, by omega⟩)
          · exact Or.inr (Or.inr h)
        · rintro ((h | h | h) | h | h)
          · exact Or.inl h
          · exact Or.inr (Or.inl ⟨h.1, by omega⟩)
          · exact absurd h id
          · exact Or.inr (Or.inl ⟨by omega, by omega⟩)
          · exact Or.inr (Or.inr h)
    · rw [if_neg hadj]
      apply hnomerge
      refine (gapped_mid _ R (addr, w)).mpr ⟨hgL, hgR, ?_, hR, hLR⟩
      intro b hb'
      rcases List.mem_append.mp hb' with h | h
      · have h1 := hgL3 b h
        simp only at h1 ⊢
        omega
      · simp only [List.mem_singleton] at h
        subst h
        simp only
        omega

theorem noAdjacent_iff (fb : List (Nat × Nat)) :
    noAdjacent fb = true ↔ ∀ b ∈ fb, ∀ b' ∈ fb, b ≠ b' → b.1 + b.2 ≠ b'.1 := by
  unfold noAdjacent
  simp only [List.all_eq_true, decide_eq_true_eq]

theorem gapped_of_separate (fb : List (Nat × Nat)) (hs : mapSorted fb)
    (hd : blocksDisjoint fb) (ha : noAdjacent fb = true) : gapped fb := by
  rw [noAdjacent_iff] at ha
  unfold gapped
  unfold mapSorted at hs
  refine hs.imp_of_mem ?_
  intro b b' hb hb' hlt
  have hne : b ≠ b' := fun h => by rw [h] at hlt; exact lt_irrefl _ hlt
  have h1 := hd b hb b' hb' hne
  have h2 := ha b hb b' hb' hne
  unfold regionsDisjoint at h1
  omega

theorem separate_of_gapped (fb : List (Nat × Nat)) (hg : gapped fb) :
    mapSorted fb ∧ blocksDisjoint fb ∧ noAdjacent fb = true := by
  have hsym : fb.Pairwise (fun b b' => b.1 + b.2 < b'.1 ∨ b'.1 + b'.2 < b.1) :=
    hg.imp (fun h => Or.inl h)
  have hall := List.Pairwise.forall (l := fb)
    (R := fun b b' => b.1 + b.2 < b'.1 ∨ b'.1 + b'.2 < b.1)
    (fun _ _ h => h.symm) hsym
  refine ⟨hg.imp (fun h => by omega), ?_, ?_⟩
  · intro b hb b' hb' hne
    have := hall hb hb' hne
    unfold regionsDisjoint
    omega
  · rw [noAdjacent_iff]
    intro b hb b' hb' hne
    have := hall hb hb' hne
    omega

theorem mapSorted_split (fb : List (Nat × Nat)) (addr : Nat) (hs : mapSorted fb) :
    ∃ L M R, fb = L ++ M ++ R ∧ (∀ b ∈ L, b.1 < addr) ∧ (∀ b ∈ R, addr < b.1)
      ∧ (M = [] ∨ ∃ v, M = [(addr, v)]) := by
  induction fb with
  | nil => exact ⟨[], [], [], rfl, by simp, by simp, Or.inl rfl⟩
  | cons hd tl ih =>
    obtain ⟨k, v⟩ := hd
    have htl : mapSorted tl := (List.pairwise_cons.mp hs).2
    have hk : ∀ b ∈ tl, k < b.1 := (List.pairwise_cons.mp hs).1
    rcases Nat.lt_trichotomy k addr with h | h | h
    · obtain ⟨L, M, R, h1, h2, h3, h4⟩ := ih htl
      refine ⟨(k, v) :: L, M, R, by rw [h1]; simp, ?_, h3, h4⟩
      intro b hb
      rcases List.mem_cons.mp hb with h' | h'
      · subst h'; exact h
      · exact h2 b h'
    · subst h
      exact ⟨[], [(k, v)], tl, by simp, by simp, hk, Or.inr ⟨v, rfl⟩⟩
    · refine ⟨[], [], (k, v) :: tl, by simp, by simp, ?_, Or.inl rfl⟩
      intro b hb
      rcases List.mem_cons.mp hb with h' | h'
      · subst h'; exact h
      · have := hk b h'; omega

/-- C20 (the step of `free`): on an unbound allocator whose free-block map is in
key order, with blocks pairwise non-overlapping and pairwise non-adjacent, all
below `2 ^ 64`, and for a region `[addr, addr + s)` below `2 ^ 64` of aligned
size `s > 0` that is disjoint from every free block, `free(addr, size)`
returns, leaves `used` and `peak` alone, and leaves a map that is again in key
order, pairwise non-overlapping and pairwise non-adjacent, and that covers
exactly the bytes free before plus the bytes of the region. -/
theorem free_keeps_blocks_separate (a : Allocator) (addr size : Nat)
    (hptr : a.ptr = none)
    (hsorted : mapSorted a.free_blocks)
    (hdisj : blocksDisjoint a.free_blocks)
    (hadj : noAdjacent a.free_blocks = true)
    (hbound : ∀ b ∈ a.free_blocks, b.1 + b.2 < SIZE_MOD)
    (hpos : 0 < a.getAlignedSize size)
    (hreg : addr + a.getAlignedSize size < SIZE_MOD)
    (hfree : ∀ b ∈ a.free_blocks, regionsDisjoint addr (a.getAlignedSize size) b.1 b.2) :
    ∃ a', a.free addr size = .ok a' ∧ a'.used = a.used ∧ a'.peak = a.peak
      ∧ mapSorted a'.free_blocks ∧ blocksDisjoint a'.free_blocks
      ∧ noAdjacent a'.free_blocks = true
      ∧ ∀ x, covered a'.free_blocks x
          ↔ covered a.free_blocks x ∨ (addr ≤ x ∧ x < addr + a.getAlignedSize size) := by
  refine ⟨{ a with free_blocks := freeBlocks a.free_blocks addr (a.getAlignedSize size) },
    free_eq_freeBlocks a addr size hptr, rfl, rfl, ?_⟩
  show mapSorted (freeBlocks a.free_blocks addr (a.getAlignedSize size))
    ∧ blocksDisjoint (freeBlocks a.free_blocks addr (a.getAlignedSize size))
    ∧ noAdjacent (freeBlocks a.free_blocks addr (a.getAlignedSize size)) = true
    ∧ ∀ x, covered (freeBlocks a.free_blocks addr (a.getAlignedSize size)) x
        ↔ covered a.free_blocks x ∨ (addr ≤ x ∧ x < addr + a.getAlignedSize size)
  generalize a.getAlignedSize size = s at hpos hreg hfree
  generalize a.free_blocks = fb at hsorted hdisj hadj hbound hfree
  have hg := gapped_of_separate fb hsorted hdisj hadj
  obtain ⟨L, M, R, hfb, hLk, hRk, hM⟩ := mapSorted_split fb addr hsorted
  subst hfb
  -- the blocks before the region end at or before it, the blocks behind start after it
  have hLe : ∀ b ∈ L, b.1 + b.2 ≤ addr := by
    intro b hb
    have h1 := hfree b (by simp [hb])
    have h2 := hLk b hb
    unfold regionsDisjoint at h1
    omega
  have hRs : ∀ b ∈ R, addr + s ≤ b.1 := by
    intro b hb
    have h1 := hfree b (by simp [hb])
    have h2 := hRk b hb
    unfold regionsDisjoint at h1
    omega
  have hLne : ∀ b ∈ L, b.1 ≠ addr := fun b hb => by have := hLk b hb; omega
  have hRne : ∀ b ∈ R, b.1 ≠ addr := fun b hb => by have := hRk b hb; omega
  have hgL : gapped L := by
    unfold gapped at hg ⊢
    rw [List.append_assoc, List.pairwise_append] at hg
    exact hg.1
  have hgR : gapped R := by
    unfold gapped at hg ⊢
    rw [List.pairwise_append] at hg
    exact hg.2.1
  have hbR : ∀ b ∈ R, b.1 + b.2 < SIZE_MOD := fun b hb => hbound b (by simp [hb])
  have hset : mapSet (L ++ M ++ R) addr s = L ++ (addr, s) :: R := by
    rcases hM with hM | ⟨v, hM⟩
    · subst hM
      rw [List.append_nil]
      exact mapSet_insert L R addr s hLk hRk
    · subst hM
      rw [List.append_assoc]
      exact mapSet_mid L R addr v s hLk
  have hcovM : ∀ x, ¬ covered M x := by
    intro x
    rcases hM with hM | ⟨v, hM⟩
    · subst hM; simp [covered]
    · subst hM
      have h1 := hfree (addr, v) (by simp)
      unfold regionsDisjoint at h1
      simp only at h1
      rw [covered_cons, covered_nil]
      rintro (⟨h2, h3⟩ | h)
      · simp only at h2 h3
        omega
      · exact h
  have hfbs : freeBlocks (L ++ M ++ R) addr s
      = mergePrev L.getLast? (mergeNext (L ++ (addr, s) :: R) addr s) addr := by
    unfold freeBlocks
    rw [hset, mapPrev_mid L R addr s hLne hRne]
  obtain ⟨w, R', hnext, hw, hwb, hgR', hR'gap, hR'sub, hcov⟩ :=
    mergeNext_spec L R addr s hLk hRs hpos hgR hbR hreg
  rw [hfbs, hnext]
  obtain ⟨hgres, hcovres⟩ := mergePrev_spec L R' addr w hgL hLe hLk hgR' hR'gap hw hwb
  obtain ⟨r1, r2, r3⟩ := separate_of_gapped _ hgres
  refine ⟨r1, r2, r3, ?_⟩
  intro x
  rw [hcovres x, covered_append, covered_append]
  constructor
  · rintro (h | h)
    · exact Or.inl (Or.inl (Or.inl h))
    · rcases (hcov x).mp h with h' | h'
      · exact Or.inr h'
      · exact Or.inl (Or.inr h')
  · rintro (((h | h) | h) | h)
    · exact Or.inl h
    · exact absurd h (hcovM x)
    · exact Or.inr ((hcov x).mpr (Or.inr h))
    · exact Or.inr ((hcov x).mpr (Or.inl h))

/-- Witness for C20: freeing `[8, 24)` between the free blocks `[0, 8)` and
`[24, 32)` leaves the single block `[0, 32)`. -/
theorem free_keeps_blocks_separate_witness :
    twoBlockAllocator.free 8 13
      = .ok { used := 32, peak := 32, ptr := none, alignment := 8, free_blocks := [(0, 32)] }
    ∧ ∃ a', twoBlockAllocator.free 8 13 = .ok a' ∧ a'.used = twoBlockAllocator.used
      ∧ a'.peak = twoBlockAllocator.peak
      ∧ mapSorted a'.free_blocks ∧ blocksDisjoint a'.free_blocks
      ∧ noAdjacent a'.free_blocks = true
      ∧ ∀ x, covered a'.free_blocks x
          ↔ covered twoBlockAllocator.free_blocks x
            ∨ (8 ≤ x ∧ x < 8 + twoBlockAllocator.getAlignedSize 13) :=
  ⟨rfl,
    free_keeps_blocks_separate twoBlockAllocator 8 13 rfl
      (by unfold mapSorted; decide)
      (by unfold blocksDisjoint regionsDisjoint; decide)
      (by decide)
      (by decide)
      (by decide)
      (by decide)
      (by unfold regionsDisjoint; decide)⟩

/-! ## Broadcasting -/

theorem foldl_set_length (f : Nat → Nat) (g : Nat → Nat) (l : List Nat) (init : Shape) :
    (l.foldl (fun p i => p.set (f i) (g i)) init).length = init.length := by
  induction l generalizing init with
  | nil => rfl
  | cons i rest ih => simp only [List.foldl_cons]; rw [ih]; simp

theorem foldl_set_getElem? (A : Shape) (off : Nat) (init : Shape) :
    ∀ m j, ((List.range m).foldl (fun p i => p.set (off + i) (A.getD i 0)) init)[j]?
      = if off ≤ j ∧ j < off + m ∧ j < init.length then some (A.getD (j - off) 0)
        else init[j]? := by
  intro m
  induction m with
  | zero =>
    intro j
    simp only [List.range_zero, List.foldl_nil]
    rw [if_neg (by omega)]
  | succ m ih =>
    intro j
    rw [List.range_succ, List.foldl_append]
    simp only [List.foldl_cons, List.foldl_nil]
    rw [List.getElem?_set, foldl_set_length (fun i => off + i) (fun i => A.getD i 0), ih j]
    by_cases h1 : off + m = j
    · rw [if_pos h1]
      by_cases h2 : off + m < init.length
      · rw [if_pos h2, if_pos (by omega)]
        have : j - off = m := by omega
        rw [this]
      · rw [if_neg h2, if_neg (by omega)]
        exact (List.getElem?_eq_none (by omega)).symm
    · rw [if_neg h1]
      by_cases h3 : off ≤ j ∧ j < off + m ∧ j < init.length
      · rw [if_pos h3, if_pos (by omega)]
      · rw [if_neg h3, if_neg (by omega)]

theorem padShape_eq_rightAlign (n : Nat) (A : Shape) (h : A.length ≤ n) :
    padShape n A = rightAlign n A := by
  apply List.ext_getElem?
  intro j
  have hl : (padShape n A)[j]?
      = if n - A.length ≤ j ∧ j < n - A.length + A.length ∧ j < (List.replicate n 1).length
        then some (A.getD (j - (n - A.length)) 0) else (List.replicate n 1)[j]? :=
    foldl_set_getElem? A (n - A.length) (List.replicate n 1) A.length j
  have hr : (rightAlign n A)[j]?
      = if j < (List.replicate (n - A.length) 1).length
        then (List.replicate (n - A.length) 1)[j]?
        else A[j - (List.replicate (n - A.length) 1).length]? := List.getElem?_append
  rw [hl, hr]
  simp only [List.length_replicate]
  by_cases h1 : j < n - A.length
  · rw [if_neg (by omega), if_pos h1, List.getElem?_replicate, List.getElem?_replicate,
      if_pos (by omega), if_pos h1]
  · rw [if_neg h1]
    by_cases h2 : j < n
    · rw [if_pos ⟨by omega, by omega, by omega⟩, List.getD_eq_getElem?_getD,
        List.getElem?_eq_getElem (by omega)]
      rfl
    · rw [if_neg (by omega), List.getElem?_replicate, if_neg (by omega)]
      exact (List.getElem?_eq_none (by omega)).symm

theorem rightAlign_length (n : Nat) (A : Shape) (h : A.length ≤ n) :
    (rightAlign n A).length = n := by
  unfold rightAlign
  rw [List.length_append, List.length_replicate]
  omega

/-- The comparison loop from axis `k` on: it halts when an axis from `k` on
mismatches, and otherwise completes the axis-wise result. -/
theorem broadcastLoop_spec (a b : Shape) (n : Nat) (ha : a.length = n) (hb : b.length = n) :
    ∀ (m k : Nat) (out : Shape), k + m = n → out.length = n →
      (∀ i, i < k → out[i]? = (List.zipWith broadcastAxis a b)[i]?) →
      ((∃ i, k ≤ i ∧ i < n ∧ axisMismatch (a.getD i 0) (b.getD i 0) = true) →
        broadcastLoop a b (List.range' k m) out = .error .assertion)
      ∧ ((¬ ∃ i, k ≤ i ∧ i < n ∧ axisMismatch (a.getD i 0) (b.getD i 0) = true) →
        broadcastLoop a b (List.range' k m) out = .ok (List.zipWith broadcastAxis a b)) := by
  intro m
  induction m with
  | zero =>
    intro k out hk hlen hout
    simp only [List.range'_zero, broadcastLoop]
    refine ⟨fun ⟨i, h1, h2, _⟩ => by omega, fun _ => ?_⟩
    congr 1
    apply List.ext_getElem?
    intro i
    by_cases hi : i < n
    · exact hout i (by omega)
    · rw [List.getElem?_eq_none (by omega), List.getElem?_eq_none]
      rw [List.length_zipWith]; omega
  | succ m ih =>
    intro k out hk hlen hout
    rw [List.range'_succ]
    have hkn : k < n := by omega
    have hz : (List.zipWith broadcastAxis a b)[k]?
        = some (broadcastAxis (a.getD k 0) (b.getD k 0)) := by
      rw [List.getElem?_zipWith, List.getD_eq_getElem?_getD, List.getD_eq_getElem?_getD,
        List.getElem?_eq_getElem (by omega), List.getElem?_eq_getElem (by omega)]
      rfl
    have hnext : ∀ v, v = broadcastAxis (a.getD k 0) (b.getD k 0) →
        ¬ axisMismatch (a.getD k 0) (b.getD k 0) = true →
        ((∃ i, k ≤ i ∧ i < n ∧ axisMismatch (a.getD i 0) (b.getD i 0) = true) →
          broadcastLoop a b (List.range' (k + 1) m) (out.set k v) = .error .assertion)
        ∧ ((¬ ∃ i, k ≤ i ∧ i < n ∧ axisMismatch (a.getD i 0) (b.getD i 0) = true) →
          broadcastLoop a b (List.range' (k + 1) m) (out.set k v)
            = .ok (List.zipWith broadcastAxis a b)) := by
      intro v hv hmm
      have hiff : (∃ i, k + 1 ≤ i ∧ i < n ∧ axisMismatch (a.getD i 0) (b.getD i 0) = true)
          ↔ (∃ i, k ≤ i ∧ i < n ∧ axisMismatch (a.getD i 0) (b.getD i 0) = true) := by
        constructor
        · rintro ⟨i, h1, h2, h3⟩; exact ⟨i, by omega, h2, h3⟩
        · rintro ⟨i, h1, h2, h3⟩
          by_cases hik : i = k
          · subst hik; exact absurd h3 hmm
          · exact ⟨i, by omega, h2, h3⟩
      have := ih (k + 1) (out.set k v) (by omega) (by simpa using hlen) (by
        intro i hi
        rw [List.getElem?_set]
        by_cases hik : k = i
        · subst hik
          rw [if_pos rfl, if_pos (by omega), hz, hv]
        · rw [if_neg hik]
          exact hout i (by omega))
      rw [hiff] at this
      exact this
    have hax1 : a.getD k 0 = 1 → b.getD k 0 = broadcastAxis (a.getD k 0) (b.getD k 0) := by
      intro h; unfold broadcastAxis; rw [if_pos h]
    have hax2 : a.getD k 0 ≠ 1 → a.getD k 0 = broadcastAxis (a.getD k 0) (b.getD k 0) := by
      intro h; unfold broadcastAxis; rw [if_neg h]
    have hmm_iff : axisMismatch (a.getD k 0) (b.getD k 0) = true
        ↔ a.getD k 0 ≠ 1 ∧ b.getD k 0 ≠ 1 ∧ a.getD k 0 ≠ b.getD k 0 := by
      unfold axisMismatch
      simp only [Bool.and_eq_true, decide_eq_true_eq, and_assoc]
    unfold broadcastLoop
    by_cases h1 : a.getD k 0 = 1
    · rw [if_pos h1]
      exact hnext _ (hax1 h1) (fun h => (hmm_iff.mp h).1 h1)
    · rw [if_neg h1]
      by_cases h2 : b.getD k 0 = 1
      · rw [if_pos h2]
        exact hnext _ (hax2 h1) (fun h => (hmm_iff.mp h).2.1 h2)
      · rw [if_neg h2]
        by_cases h3 : a.getD k 0 = b.getD k 0
        · rw [if_pos h3]
          exact hnext _ (hax2 h1) (fun h => (hmm_iff.mp h).2.2 h3)
        · rw [if_neg h3]
          refine ⟨fun _ => rfl, fun hno => ?_⟩
          exact absurd ⟨k, le_refl _, hkn, hmm_iff.mpr ⟨h1, h2, h3⟩⟩ hno

theorem zip_any_mismatch (a b : Shape) (n : Nat) (ha : a.length = n) (hb : b.length = n) :
    (List.zip a b).any (fun p => axisMismatch p.1 p.2) = true
      ↔ ∃ i, 0 ≤ i ∧ i < n ∧ axisMismatch (a.getD i 0) (b.getD i 0) = true := by
  rw [List.any_eq_true]
  constructor
  · rintro ⟨p, hp, hmm⟩
    obtain ⟨i, hi, hpi⟩ := List.getElem_of_mem hp
    have hi' : i < n := by
      rw [List.length_zip] at hi; omega
    refine ⟨i, Nat.zero_le _, hi', ?_⟩
    rw [List.getElem_zip] at hpi
    rw [List.getD_eq_getElem?_getD, List.getD_eq_getElem?_getD,
      List.getElem?_eq_getElem (by omega), List.getElem?_eq_getElem (by omega)]
    rw [← hpi] at hmm
    exact hmm
  · rintro ⟨i, -, hi, hmm⟩
    have hiz : i < (List.zip a b).length := by
      rw [List.length_zip]; omega
    refine ⟨(List.zip a b)[i], List.getElem_mem _, ?_⟩
    rw [List.getElem_zip]
    rw [List.getD_eq_getElem?_getD, List.getD_eq_getElem?_getD,
      List.getElem?_eq_getElem (by omega), List.getElem?_eq_getElem (by omega)] at hmm
    exact hmm

/-- C11 (broadcast reference semantics): `infer_broadcast(A, B)` is the
bidirectional broadcast of `A` and `B` as a partial function. It halts on its
assertion exactly when two right-aligned sizes are both different from 1 and
unequal, and otherwise returns the shape of rank `max(rank A, rank B)` whose
axis is the side that is not 1 (or the common value). In particular
`[8,1,6,1]` with `[7,1,5]` gives `[8,7,6,5]`, `[5,4]` with `[1]` gives `[5,4]`,
and `[3,4]` with `[4,5]` fails. -/
theorem infer_broadcast_refines_spec :
    (∀ A B : Shape, infer_broadcast A B
        = match broadcastSpec A B with
          | some shape => .ok shape
          | none => .error .assertion)
    ∧ (∀ A B shape, broadcastSpec A B = some shape → shape.length = max A.length B.length)
    ∧ infer_broadcast [8, 1, 6, 1] [7, 1, 5] = .ok [8, 7, 6, 5]
    ∧ infer_broadcast [5, 4] [1] = .ok [5, 4]
    ∧ infer_broadcast [3, 4] [4, 5] = .error .assertion := by
  refine ⟨?_, ?_, rfl, rfl, rfl⟩
  · intro A B
    have hA : A.length ≤ max A.length B.length := le_max_left _ _
    have hB : B.length ≤ max A.length B.length := le_max_right _ _
    have hla := rightAlign_length _ A hA
    have hlb := rightAlign_length _ B hB
    unfold infer_broadcast broadcastSpec
    simp only
    rw [padShape_eq_rightAlign _ A hA, padShape_eq_rightAlign _ B hB, List.range_eq_range']
    obtain ⟨herr, hok⟩ := broadcastLoop_spec _ _ _ hla hlb (max A.length B.length) 0
      (List.replicate (max A.length B.length) 0) (by omega) (by simp) (fun i hi => by omega)
    by_cases hmm : (List.zip (rightAlign (max A.length B.length) A)
        (rightAlign (max A.length B.length) B)).any (fun p => axisMismatch p.1 p.2) = true
    · rw [if_pos hmm]
      exact herr ((zip_any_mismatch _ _ _ hla hlb).mp hmm)
    · rw [if_neg hmm]
      exact hok (fun h => hmm ((zip_any_mismatch _ _ _ hla hlb).mpr h))
  · intro A B shape h
    have hA : A.length ≤ max A.length B.length := le_max_left _ _
    have hB : B.length ≤ max A.length B.length := le_max_right _ _
    unfold broadcastSpec at h
    simp only at h
    split at h
    · cases h
    · cases h
      rw [List.length_zipWith, rightAlign_length _ A hA, rightAlign_length _ B hB]
      simp

/-! ## MatMul shape inference -/

theorem swapLastTwo_spec (s : Shape) (h : 2 ≤ s.length) :
    ∃ s', swapLastTwo s = .ok s' ∧ s'.length = s.length
      ∧ s'.getD (s.length - 1) 0 = s.getD (s.length - 2) 0
      ∧ s'.getD (s.length - 2) 0 = s.getD (s.length - 1) 0 := by
  unfold swapLastTwo
  rw [if_neg (by omega)]
  refine ⟨_, rfl, by simp, ?_, ?_⟩
  · rw [List.getD_eq_getElem?_getD, List.getElem?_set, if_neg (by omega), List.getElem?_set,
      if_pos rfl, if_pos (by omega)]
    rfl
  · rw [List.getD_eq_getElem?_getD, List.getElem?_set, if_pos rfl, if_pos (by simp; omega)]
    rfl

/-- The inner-dimension half of C13: for operands of rank at least 2,
`MatmulObj::inferShape` halts on its assertion when the last axis of the first
operand, after `transA`, differs from the second-to-last axis of the second
operand, after `transB`. -/
theorem matmulShape_inner_mismatch (transA transB : Bool) (A B : Shape)
    (hA : 2 ≤ A.length) (hB : 2 ≤ B.length)
    (h : (if transA then A.getD (A.length - 2) 0 else A.getD (A.length - 1) 0)
      ≠ (if transB then B.getD (B.length - 1) 0 else B.getD (B.length - 2) 0)) :
    matmulShape transA transB A B = .error .assertion := by
  obtain ⟨A', hA', hlA, hA1, hA2⟩ := swapLastTwo_spec A hA
  obtain ⟨B', hB', hlB, hB1, hB2⟩ := swapLastTwo_spec B hB
  unfold matmulShape
  cases transA <;> cases transB <;>
    simp only [Bool.false_eq_true, if_false, if_true, hA', hB'] at h ⊢
  · rw [if_neg (by omega), if_pos h]
  · rw [if_neg (by omega), hlB, hB2, if_pos h]
  · rw [if_neg (by omega), hlA, hA1, if_pos h]
  · rw [if_neg (by omega), hlA, hlB, hA1, hB2, if_pos h]

/-- C12 (MatMul shape reference semantics) does not hold of the code for
operands of different rank. For `A : [2,3,4]` and `B : [4,5]` the reference
shape is `[2,3,5]`, the broadcast batch `[2]` followed by `[3,5]`, but
`MatmulObj::inferShape` returns `[3,5]`: its batch loop pairs the axes from the
front and ends when the shorter operand has none left, so the batch axis of
`A` is dropped. The two examples of the claim, of equal rank, hold. -/
theorem matmul_drops_unpaired_batch_axes :
    matmulSpec false false [2, 3, 4] [4, 5] = some [2, 3, 5]
    ∧ MatmulObj.inferShape false false [some (mkTensor 0 [2, 3, 4]), some (mkTensor 1 [4, 5])]
      = .ok (some [[3, 5]])
    ∧ MatmulObj.inferShape false false [some (mkTensor 0 [2, 3, 4]), some (mkTensor 1 [2, 4, 5])]
      = .ok (some [[2, 3, 5]])
    ∧ MatmulObj.inferShape true false [some (mkTensor 0 [2, 4, 3]), some (mkTensor 1 [2, 4, 5])]
      = .ok (some [[2, 3, 5]]) := by
  refine ⟨by decide, rfl, rfl, rfl⟩

/-- C13 (MatMul shape mismatch) does not hold of the code for operands of
different rank. For `A : [7,3,4,5]` and `B : [7,5,6]` the batch axes `[7,3]` and
`[7]`, right-aligned, pair 3 with 7, both different from 1 and unequal, so the
reference gives no shape; `MatmulObj::inferShape` pairs 7 with 7 from the front
and returns `[7,4,6]`. A mismatch of the inner dimensions halts the inference,
as does a mismatch of two batch axes of operands of equal rank. -/
theorem matmul_accepts_misaligned_batch_axes :
    broadcastSpec [7, 3] [7] = none
    ∧ matmulSpec false false [7, 3, 4, 5] [7, 5, 6] = none
    ∧ MatmulObj.inferShape false false
        [some (mkTensor 0 [7, 3, 4, 5]), some (mkTensor 1 [7, 5, 6])]
      = .ok (some [[7, 4, 6]])
    ∧ MatmulObj.inferShape false false
        [some (mkTensor 0 [2, 3, 4]), some (mkTensor 1 [2, 5, 6])]
      = .error .assertion
    ∧ MatmulObj.inferShape false false
        [some (mkTensor 0 [2, 3, 4]), some (mkTensor 1 [3, 4, 6])]
      = .error .assertion := by
  refine ⟨by decide, by decide, rfl, rfl, rfl⟩

/-! ## Validity check -/

theorem fuidsUnique_iff (l seen : List Nat) :
    fuidsUnique l seen = true ↔ l.Nodup ∧ ∀ x ∈ l, x ∉ seen := by
  induction l generalizing seen with
  | nil => simp [fuidsUnique]
  | cons f rest ih =>
    unfold fuidsUnique
    rw [Bool.and_eq_true, ih, List.nodup_cons]
    simp only [Bool.not_eq_true', decide_eq_false_iff_not, List.mem_cons]
    constructor
    · rintro ⟨h1, h2, h3⟩
      refine ⟨⟨fun hf => (h3 f hf) (Or.inl rfl), h2⟩, ?_⟩
      rintro x (hx | hx)
      · exact hx ▸ h1
      · exact fun hs => h3 x hx (Or.inr hs)
    · rintro ⟨⟨h1, h2⟩, h3⟩
      refine ⟨h3 f (Or.inl rfl), h2, ?_⟩
      rintro x hx (hxf | hxs)
      · exact h1 (hxf ▸ hx)
      · exact h3 x (Or.inr hx) hxs

theorem tensorValid_iff (g : GraphObj) (t : Nat) :
    g.tensorValid t = true ↔
      ((g.tensorObj t).targets ≠ [] ∨ (g.tensorObj t).source ≠ none)
      ∧ (∀ op ∈ (g.tensorObj t).targets, op ∈ g.ops)
      ∧ (∀ op, (g.tensorObj t).source = some op → op ∈ g.ops) := by
  unfold GraphObj.tensorValid
  rw [Bool.and_eq_true, Bool.and_eq_true]
  have h1 : (!((g.tensorObj t).targets.length == 0 && (g.tensorObj t).source == none)) = true
      ↔ ((g.tensorObj t).targets ≠ [] ∨ (g.tensorObj t).source ≠ none) := by
    cases hs : (g.tensorObj t).source <;> cases ht : (g.tensorObj t).targets <;> simp
  have h2 : (g.tensorObj t).targets.all (fun op => decide (op ∈ g.ops)) = true
      ↔ ∀ op ∈ (g.tensorObj t).targets, op ∈ g.ops := by
    simp only [List.all_eq_true, decide_eq_true_eq]
  have h3 : (match (g.tensorObj t).source with
      | none => true
      | some op => decide (op ∈ g.ops)) = true
      ↔ ∀ op, (g.tensorObj t).source = some op → op ∈ g.ops := by
    cases hs : (g.tensorObj t).source <;> simp
  rw [h1, h2, h3, and_assoc]

theorem opValid_iff (g : GraphObj) (op : Nat) :
    g.opValid op = true ↔
      (∀ i ∈ (g.opObj op).inputs, ∃ t ∈ g.tensors, i = some t)
      ∧ (∀ o ∈ (g.opObj op).outputs, ∃ t ∈ g.tensors, o = some t)
      ∧ (∀ pre ∈ (g.opObj op).predecessors, pre ∈ g.ops)
      ∧ (∀ suc ∈ (g.opObj op).successors, suc ∈ g.ops) := by
  unfold GraphObj.opValid
  simp only [Bool.and_eq_true, List.all_eq_true, decide_eq_true_eq, List.mem_map, and_assoc]
  constructor
  · rintro ⟨h1, h2, h3, h4⟩
    refine ⟨fun i hi => ?_, fun o ho => ?_, h3, h4⟩
    · obtain ⟨t, ht, hti⟩ := h1 i hi; exact ⟨t, ht, hti.symm⟩
    · obtain ⟨t, ht, hto⟩ := h2 o ho; exact ⟨t, ht, hto.symm⟩
  · rintro ⟨h1, h2, h3, h4⟩
    refine ⟨fun i hi => ?_, fun o ho => ?_, h3, h4⟩
    · obtain ⟨t, ht, hti⟩ := h1 i hi; exact ⟨t, ht, hti.symm⟩
    · obtain ⟨t, ht, hto⟩ := h2 o ho; exact ⟨t, ht, hto.symm⟩

/-- C16 as stated fails: the graph that `optimize()` leaves of
`transposeMatmulGraph` passes `checkValid()`, although the MatMul (operator 1)
reads tensor 1, whose source is the Transpose (operator 0), and does not have
the Transpose among its predecessors: `checkValid` does not compare the
predecessor lists with the tensor links. -/
theorem checkValid_accepts_underived_predecessors :
    ∃ g, transposeMatmulGraph.optimize = .ok g ∧ g.checkValid = true
      ∧ 1 ∈ g.ops ∧ g.feeds 0 1 ∧ 0 ∉ (g.opObj 1).predecessors
      ∧ ¬ g.predecessorsDerived := by
  refine ⟨_, rfl, by decide, by decide, ⟨1, by decide, rfl⟩, by decide, ?_⟩
  intro h
  have h1 := (h 1 (by decide) 0).mpr ⟨1, by decide, rfl⟩
  exact absurd h1 (by decide)

/-- C16, amended: `checkValid()` returns true exactly when every listed tensor
has a source or a target, every target and source of a listed tensor is a
listed operator, every input and output of a listed operator is a listed
tensor, every predecessor and successor of a listed operator is a listed
operator, and no two entries of the tensor list share a FUID; otherwise one of
its assertions fires. -/
theorem checkValid_iff_wellFormed (g : GraphObj) :
    g.checkValid = true ↔ g.wellFormed := by
  unfold GraphObj.checkValid
  rw [Bool.and_eq_true, Bool.and_eq_true, List.all_eq_true, List.all_eq_true, fuidsUnique_iff]
  constructor
  · rintro ⟨⟨ht, ho⟩, hf, -⟩
    exact {
      connected := fun t h => ((tensorValid_iff g t).mp (ht t h)).1
      targets_mem := fun t h => ((tensorValid_iff g t).mp (ht t h)).2.1
      source_mem := fun t h => ((tensorValid_iff g t).mp (ht t h)).2.2
      inputs_mem := fun op h => ((opValid_iff g op).mp (ho op h)).1
      outputs_mem := fun op h => ((opValid_iff g op).mp (ho op h)).2.1
      predecessors_mem := fun op h => ((opValid_iff g op).mp (ho op h)).2.2.1
      successors_mem := fun op h => ((opValid_iff g op).mp (ho op h)).2.2.2
      fuids := hf }
  · intro h
    refine ⟨⟨fun t ht => ?_, fun op hop => ?_⟩, h.fuids, fun x _ hx => by simp at hx⟩
    · exact (tensorValid_iff g t).mpr ⟨h.connected t ht, h.targets_mem t ht, h.source_mem t ht⟩
    · exact (opValid_iff g op).mpr ⟨h.inputs_mem op hop, h.outputs_mem op hop,
        h.predecessors_mem op hop, h.successors_mem op hop⟩

/-! ## Shape inference over the graph -/

theorem topo_sort_false_unchanged (g g1 : GraphObj) (h : g.topo_sort = .ok (false, g1)) :
    g1 = g := by
  unfold GraphObj.topo_sort at h
  split at h
  · cases h
  · split at h
    · cases h
    · cases h; rfl
    · cases h

/-- C15 as stated fails for `shape_infer()`: on `cyclicMatmulGraph`, a valid
graph whose two operators form a cycle, `topo_sort` returns false, but
`shape_infer()` makes no call of `topo_sort`, runs to its end and changes the
shape of tensor 2 from `[1, 1]` to `[2, 4]`. -/
theorem shape_infer_runs_on_cycle :
    cyclicMatmulGraph.checkValid = true
    ∧ cyclicMatmulGraph.topo_sort = .ok (false, cyclicMatmulGraph)
    ∧ (cyclicMatmulGraph.tensorObj 2).shape = [1, 1]
    ∧ ∃ g, cyclicMatmulGraph.shape_infer (fun _ _ => .ok none) = .ok g
      ∧ (g.tensorObj 2).shape = [2, 4] := by
  refine ⟨by decide, rfl, rfl, _, rfl, by decide⟩

/-- C15, amended: on every graph on which `topo_sort` returns false,
`optimize()` and `dataMalloc()` halt on the assertion that follows their call
of `topo_sort`, and that call left the graph as it was, so no operator
attribute, adjacency link, tensor shape, memory binding or allocator counter
has been written when they halt. -/
theorem optimize_dataMalloc_refuse_cycle (g g1 : GraphObj) (rtAlloc : Nat → Nat)
    (h : g.topo_sort = .ok (false, g1)) :
    g1 = g ∧ g.optimize = .error .assertion ∧ g.dataMalloc rtAlloc = .error .assertion := by
  refine ⟨topo_sort_false_unchanged g g1 h, ?_, ?_⟩
  · unfold GraphObj.optimize; rw [h]
  · unfold GraphObj.dataMalloc; rw [h]

/-- Witness for C15 (amended): `cyclicGraph`. -/
theorem optimize_dataMalloc_refuse_cycle_witness :
    cyclicGraph.topo_sort = .ok (false, cyclicGraph)
    ∧ cyclicGraph = cyclicGraph ∧ cyclicGraph.optimize = .error .assertion
    ∧ cyclicGraph.dataMalloc (fun _ => 4096) = .error .assertion :=
  ⟨rfl, optimize_dataMalloc_refuse_cycle cyclicGraph cyclicGraph (fun _ => 4096) rfl⟩

theorem forOps_append {σ : Type} (body : Nat → σ → Except Err σ) (l1 l2 : List Nat) (s : σ) :
    forOps body (l1 ++ l2) s
      = match forOps body l1 s with
        | .error e => .error e
        | .ok s1 => forOps body l2 s1 := by
  induction l1 generalizing s with
  | nil => rfl
  | cons op rest ih =>
    simp only [List.cons_append, forOps]
    cases body op s with
    | error e => rfl
    | ok s1 => exact ih s1

theorem findTensor_self (tensorObj : Nat → TensorObj) (l : List Nat) (t : Nat) (ht : t ∈ l)
    (hnd : (l.map (fun x => (tensorObj x).fuid)).Nodup) :
    findTensor tensorObj (tensorObj t).fuid l = some t := by
  induction l with
  | nil => simp at ht
  | cons x rest ih =>
    rw [List.map_cons, List.nodup_cons] at hnd
    unfold findTensor
    by_cases hx : t = x
    · subst hx; rw [if_pos rfl]
    · have htr : t ∈ rest := by
        rcases List.mem_cons.mp ht with h | h
        · exact absurd h hx
        · exact h
      have hne : (tensorObj x).fuid ≠ (tensorObj t).fuid := by
        intro heq
        apply hnd.1
        rw [heq]
        exact List.mem_map.mpr ⟨t, htr, rfl⟩
      rw [if_neg hne]
      exact ih htr hnd.2

theorem ShapeFrame.refl (g : GraphObj) : ShapeFrame g g :=
  ⟨rfl, rfl, rfl, rfl, rfl, fun _ => rfl⟩

theorem ShapeFrame.fuid {g g1 : GraphObj} (h : ShapeFrame g g1) (t : Nat) :
    (g1.tensorObj t).fuid = (g.tensorObj t).fuid := by
  have := congrArg TensorObj.fuid (h.fields t)
  exact this

theorem ShapeFrame.setShape {g g1 : GraphObj} (h : ShapeFrame g g1) (t : Nat) (shape : Shape) :
    ShapeFrame g (g1.modifyTensor t (fun o => o.setShape shape)) := by
  refine ⟨h.ops, h.tensors, h.sorted, h.allocator, h.opObj, ?_⟩
  intro x
  simp only [GraphObj.modifyTensor]
  by_cases hx : x = t
  · subst hx
    simp only [if_true]
    exact h.fields x
  · simp only [if_neg hx]
    exact h.fields x

theorem modifyTensor_other (g : GraphObj) (t x : Nat) (f : TensorObj → TensorObj)
    (h : x ≠ t) : (g.modifyTensor t f).tensorObj x = g.tensorObj x := by
  simp [GraphObj.modifyTensor, h]

theorem modifyTensor_self (g : GraphObj) (t : Nat) (f : TensorObj → TensorObj) :
    (g.modifyTensor t f).tensorObj t = f (g.tensorObj t) := by
  simp [GraphObj.modifyTensor]

/-- The inner loop of `shape_infer` on distinct listed outputs: it returns,
changes shapes only, leaves the tensors outside the outputs alone and gives
output `i` the shape `ans[i]`. -/
theorem updateOutputs_spec (g0 : GraphObj)
    (hfuid : (g0.tensors.map (fun t => (g0.tensorObj t).fuid)).Nodup) :
    ∀ (ans : List Shape) (outs : List (Option Nat)) (g : GraphObj), ShapeFrame g0 g →
      ans.length = outs.length → outs.Nodup → (∀ o ∈ outs, ∃ t ∈ g0.tensors, o = some t) →
      ∃ g', updateOutputs ans outs g = .ok g' ∧ ShapeFrame g0 g'
        ∧ (∀ t, some t ∉ outs → g'.tensorObj t = g.tensorObj t)
        ∧ (∀ (i t : Nat), outs[i]? = some (some t) → ans[i]? = some (g'.tensorObj t).shape) := by
  intro ans
  induction ans with
  | nil =>
    intro outs g hframe hlen _ _
    have : outs = [] := List.length_eq_zero.mp hlen.symm
    subst this
    exact ⟨g, rfl, hframe, fun _ _ => rfl, fun i t h => by simp at h⟩
  | cons newShape restS ih =>
    intro outs g hframe hlen hnd hlisted
    cases outs with
    | nil => simp at hlen
    | cons o restO =>
      obtain ⟨t, ht, hot⟩ := hlisted o (List.mem_cons_self _ _)
      subst hot
      have hlen' : restS.length = restO.length := by simpa using hlen
      have hnd' := (List.nodup_cons.mp hnd).2
      have htn : some t ∉ restO := (List.nodup_cons.mp hnd).1
      have hlisted' : ∀ o ∈ restO, ∃ t ∈ g0.tensors, o = some t :=
        fun o ho => hlisted o (List.mem_cons_of_mem _ ho)
      -- the graph after the body of the loop for this output
      have hbody : ∃ g1, updateOutputs (newShape :: restS) (some t :: restO) g
            = updateOutputs restS restO g1
          ∧ ShapeFrame g0 g1 ∧ (∀ x, x ≠ t → g1.tensorObj x = g.tensorObj x)
          ∧ (g1.tensorObj t).shape = newShape := by
        by_cases hne : newShape ≠ (g.tensorObj t).shape
        · have hget : g.getTensor (g.tensorObj t).fuid = some t := by
            unfold GraphObj.getTensor
            rw [hframe.tensors]
            have hfu : ∀ x, (g.tensorObj x).fuid = (g0.tensorObj x).fuid := hframe.fuid
            have hmap : (g0.tensors.map (fun x => (g.tensorObj x).fuid)).Nodup := by
              have : (fun x => (g.tensorObj x).fuid) = (fun x => (g0.tensorObj x).fuid) :=
                funext hfu
              rw [this]; exact hfuid
            exact findTensor_self g.tensorObj g0.tensors t ht hmap
          refine ⟨g.modifyTensor t (fun o => o.setShape newShape), ?_, hframe.setShape t newShape,
            fun x hx => modifyTensor_other g t x _ hx, ?_⟩
          · simp only [updateOutputs]
            rw [if_pos hne, hget]
          · rw [modifyTensor_self]; rfl
        · refine ⟨g, ?_, hframe, fun _ _ => rfl, (not_not.mp hne).symm⟩
          simp only [updateOutputs]
          rw [if_neg hne]
      obtain ⟨g1, hstep, hframe1, hother, hshape⟩ := hbody
      obtain ⟨g', hrun, hframe', hkeep, hpost⟩ := ih restO g1 hframe1 hlen' hnd' hlisted'
      refine ⟨g', hstep.trans hrun, hframe', ?_, ?_⟩
      · intro x hx
        have hxt : x ≠ t := fun h => hx (h ▸ List.mem_cons_self _ _)
        have hxr : some x ∉ restO := fun h => hx (List.mem_cons_of_mem _ h)
        rw [hkeep x hxr, hother x hxt]
      · intro i x hix
        cases i with
        | zero =>
          simp only [List.getElem?_cons_zero, Option.some.injEq] at hix ⊢
          subst hix
          rw [hkeep t htn, hshape]
        | succ i =>
          simp only [List.getElem?_cons_succ] at hix ⊢
          exact hpost i x hix

theorem inferShape_congr
    (infer : OperatorObj → List (Option TensorObj) → Except Err (Option (List Shape)))
    (g1 g2 : GraphObj) (op : Nat) (hop : g1.opObj op = g2.opObj op)
    (hin : ∀ t, some t ∈ (g2.opObj op).inputs → g1.tensorObj t = g2.tensorObj t) :
    g1.inferShape infer op = g2.inferShape infer op := by
  unfold GraphObj.inferShape
  rw [hop]
  have : (g2.opObj op).inputs.map (fun i => i.map g1.tensorObj)
      = (g2.opObj op).inputs.map (fun i => i.map g2.tensorObj) := by
    apply List.map_congr_left
    intro i hi
    cases i with
    | none => rfl
    | some t => simp only [Option.map_some']; rw [hin t hi]
  rw [this]

theorem shapeInferStep_eq
    (infer : OperatorObj → List (Option TensorObj) → Except Err (Option (List Shape)))
    (g : GraphObj) (op : Nat) (ans : List Shape)
    (hinf : g.inferShape infer op = .ok (some ans))
    (hlen : ans.length = (g.opObj op).outputs.length) :
    shapeInferStep infer op g = updateOutputs ans (g.opObj op).outputs g := by
  unfold shapeInferStep
  rw [hinf]
  simp only
  rw [if_neg (by simp [hlen])]

/-- The state of `shape_infer` after the first `k` operators of the list. -/
theorem shape_infer_prefix
    (infer : OperatorObj → List (Option TensorObj) → Except Err (Option (List Shape)))
    (g : GraphObj) (hv : g.shapeInferable) (hs : g.inferSucceeds infer) :
    ∀ k, k ≤ g.ops.length →
      ∃ gk, forOps (shapeInferStep infer) (g.ops.take k) g = .ok gk ∧ ShapeFrame g gk
        ∧ (∀ t, (∀ (i p : Nat), i < k → g.ops[i]? = some p → some t ∉ (g.opObj p).outputs) →
            gk.tensorObj t = g.tensorObj t)
        ∧ (∀ (j op : Nat), j < k → g.ops[j]? = some op →
            ∃ ans, gk.inferShape infer op = .ok (some ans)
              ∧ ans.length = (g.opObj op).outputs.length
              ∧ ∀ (i t : Nat), (g.opObj op).outputs[i]? = some (some t) →
                  ans[i]? = some (gk.tensorObj t).shape) := by
  intro k
  induction k with
  | zero =>
    intro _
    exact ⟨g, rfl, ShapeFrame.refl g, fun _ _ => rfl, fun j op hj => by omega⟩
  | succ k ih =>
    intro hk
    obtain ⟨gk, hrun, hframe, hkeepk, hpostk⟩ := ih (by omega)
    have hkn : k < g.ops.length := by omega
    have hopk : g.ops[k]? = some g.ops[k] := List.getElem?_eq_getElem hkn
    generalize hop : g.ops[k] = op at hopk
    have hmem : op ∈ g.ops := hop ▸ List.getElem_mem _
    obtain ⟨ans, hinf, hlen⟩ := hs k op gk hopk hrun
    have hobj : gk.opObj op = g.opObj op := by rw [hframe.opObj]
    rw [hobj] at hlen
    have hstep : shapeInferStep infer op gk = updateOutputs ans (g.opObj op).outputs gk := by
      rw [shapeInferStep_eq infer gk op ans hinf (by rw [hobj]; exact hlen), hobj]
    obtain ⟨g', hupd, hframe', hkeep, hpost⟩ :=
      updateOutputs_spec g hv.fuids_distinct ans (g.opObj op).outputs gk hframe hlen
        (hv.outputs_nodup op hmem) (hv.outputs_listed op hmem)
    have htake : g.ops.take (k + 1) = g.ops.take k ++ [op] := by
      rw [List.take_succ, hopk]; rfl
    refine ⟨g', ?_, hframe', ?_, ?_⟩
    · rw [htake, forOps_append, hrun]
      simp only [forOps]
      rw [hstep, hupd]
    · intro t ht
      rw [hkeep t (ht k op (by omega) hopk)]
      exact hkeepk t (fun i p hi hp => ht i p (by omega) hp)
    · intro j opj hj hopj
      have hobj' : ∀ o, g'.opObj o = gk.opObj o := by
        intro o; rw [hframe'.opObj, hframe.opObj]
      by_cases hjk : j < k
      · obtain ⟨ansj, hinfj, hlenj, hpostj⟩ := hpostk j opj hjk hopj
        refine ⟨ansj, ?_, hlenj, ?_⟩
        · rw [← hinfj]
          apply inferShape_congr infer g' gk opj (hobj' opj)
          intro t ht
          rw [hframe.opObj] at ht
          apply hkeep
          intro hout
          have := hv.producers_first k j op opj t hopk hopj hout ht
          omega
        · intro i t hit
          rw [hpostj i t hit]
          have hnot : some t ∉ (g.opObj op).outputs := by
            intro hout
            have := hv.one_producer k j op opj t hopk hopj hout (List.getElem?_mem hit)
            omega
          rw [hkeep t hnot]
      · have hjeq : j = k := by omega
        subst hjeq
        have hsame : opj = op := by
          rw [hopk] at hopj
          exact (Option.some.inj hopj).symm
        subst hsame
        refine ⟨ans, ?_, hlen, hpost⟩
        rw [← hinf]
        apply inferShape_congr infer g' gk opj (hobj' opj)
        intro t ht
        rw [hframe.opObj] at ht
        apply hkeep
        intro hout
        have := hv.producers_first j j opj opj t hopk hopk hout ht
        omega

/-- C14 (postcondition of shape inference): on a valid, topologically ordered
graph (outputs listed, FUIDs distinct, no tensor an output twice, producers
before consumers) on which every call of `inferShape` succeeds,
`shape_infer()` returns; afterwards each listed operator infers, from the
final shapes of its inputs, exactly the shapes its outputs now have; the
operator and tensor lists, the operators, every field of a tensor other than
its shape (its FUID among them), and the tensors that no listed operator
produces are unchanged. -/
theorem shape_infer_postcondition
    (infer : OperatorObj → List (Option TensorObj) → Except Err (Option (List Shape)))
    (g : GraphObj) (hv : g.shapeInferable) (hs : g.inferSucceeds infer) :
    ∃ g', g.shape_infer infer = .ok g'
      ∧ g'.ops = g.ops ∧ g'.tensors = g.tensors ∧ g'.opObj = g.opObj
      ∧ (∀ t, (g'.tensorObj t).fuid = (g.tensorObj t).fuid
          ∧ (g'.tensorObj t).setShape (g.tensorObj t).shape = g.tensorObj t)
      ∧ (∀ t, (∀ op ∈ g.ops, some t ∉ (g.opObj op).outputs) →
          g'.tensorObj t = g.tensorObj t)
      ∧ (∀ op ∈ g.ops, ∃ ans, g'.inferShape infer op = .ok (some ans)
          ∧ ans.length = (g.opObj op).outputs.length
          ∧ ∀ (i t : Nat), (g.opObj op).outputs[i]? = some (some t) →
              ans[i]? = some (g'.tensorObj t).shape) := by
  obtain ⟨g', hrun, hframe, hkeep, hpost⟩ :=
    shape_infer_prefix infer g hv hs g.ops.length (le_refl _)
  rw [List.take_length] at hrun
  refine ⟨g', hrun, hframe.ops, hframe.tensors, hframe.opObj,
    fun t => ⟨hframe.fuid t, hframe.fields t⟩, ?_, ?_⟩
  · intro t ht
    apply hkeep
    intro i p _ hp
    exact ht p (List.getElem?_mem hp)
  · intro op hop
    obtain ⟨j, hj, hjop⟩ := List.getElem_of_mem hop
    exact hpost j op hj (by rw [List.getElem?_eq_getElem hj, hjop])

theorem matmulChainGraph_positions (i p : Nat) (h : matmulChainGraph.ops[i]? = some p) :
    (i = 0 ∧ p = 0) ∨ (i = 1 ∧ p = 1) := by
  have hops : matmulChainGraph.ops = [0, 1] := rfl
  rw [hops] at h
  rcases i with _ | _ | i
  · exact Or.inl ⟨rfl, by simpa using h.symm⟩
  · exact Or.inr ⟨rfl, by simpa using h.symm⟩
  · simp at h

theorem matmulChainGraph_shapeInferable : matmulChainGraph.shapeInferable := by
  have hout0 : (matmulChainGraph.opObj 0).outputs = [some 2] := rfl
  have hout1 : (matmulChainGraph.opObj 1).outputs = [some 4] := rfl
  have hin0 : (matmulChainGraph.opObj 0).inputs = [some 0, some 1] := rfl
  have hin1 : (matmulChainGraph.opObj 1).inputs = [some 2, some 3] := rfl
  refine ⟨by decide, by decide, by decide, ?_, ?_⟩
  · intro i j p o x hi hj hp ho
    rcases matmulChainGraph_positions i p hi with ⟨rfl, rfl⟩ | ⟨rfl, rfl⟩ <;>
      rcases matmulChainGraph_positions j o hj with ⟨rfl, rfl⟩ | ⟨rfl, rfl⟩ <;>
      simp only [hout0, hout1, List.mem_singleton, Option.some.injEq] at hp ho <;> omega
  · intro i j p o x hi hj hp ho
    rcases matmulChainGraph_positions i p hi with ⟨rfl, rfl⟩ | ⟨rfl, rfl⟩ <;>
      rcases matmulChainGraph_positions j o hj with ⟨rfl, rfl⟩ | ⟨rfl, rfl⟩ <;>
      simp only [hout0, hout1, hin0, hin1, List.mem_singleton, List.mem_cons, Option.some.injEq,
        List.mem_nil_iff, or_false] at hp ho <;> omega

theorem matmulChainGraph_inferSucceeds (infer : OperatorObj → List (Option TensorObj) →
    Except Err (Option (List Shape))) : matmulChainGraph.inferSucceeds infer := by
  intro k op gk hk hrun
  rcases matmulChainGraph_positions k op hk with ⟨rfl, rfl⟩ | ⟨rfl, rfl⟩
  · have h0 : forOps (shapeInferStep infer) (matmulChainGraph.ops.take 0) matmulChainGraph
        = .ok matmulChainGraph := rfl
    rw [h0] at hrun
    cases hrun
    exact ⟨[[2, 4]], rfl, rfl⟩
  · have h1 : forOps (shapeInferStep infer) (matmulChainGraph.ops.take 1) matmulChainGraph
        = .ok (matmulChainGraph.modifyTensor 2 (fun t => t.setShape [2, 4])) := rfl
    rw [h1] at hrun
    cases hrun
    exact ⟨[[2, 5]], rfl, rfl⟩

/-- Witness for C14: on `matmulChainGraph` the stale shapes `[1, 1]` of the
intermediate and of the final tensor become `[2, 4]` and `[2, 5]`. -/
theorem shape_infer_postcondition_witness :
    (∃ g', matmulChainGraph.shape_infer (fun _ _ => .ok none) = .ok g'
      ∧ (g'.tensorObj 2).shape = [2, 4] ∧ (g'.tensorObj 4).shape = [2, 5])
    ∧ ∃ g', matmulChainGraph.shape_infer (fun _ _ => .ok none) = .ok g'
      ∧ g'.ops = matmulChainGraph.ops ∧ g'.tensors = matmulChainGraph.tensors
      ∧ g'.opObj = matmulChainGraph.opObj
      ∧ (∀ t, (g'.tensorObj t).fuid = (matmulChainGraph.tensorObj t).fuid
          ∧ (g'.tensorObj t).setShape (matmulChainGraph.tensorObj t).shape
            = matmulChainGraph.tensorObj t)
      ∧ (∀ t, (∀ op ∈ matmulChainGraph.ops, some t ∉ (matmulChainGraph.opObj op).outputs) →
          g'.tensorObj t = matmulChainGraph.tensorObj t)
      ∧ (∀ op ∈ matmulChainGraph.ops,
          ∃ ans, g'.inferShape (fun _ _ => .ok none) op = .ok (some ans)
            ∧ ans.length = (matmulChainGraph.opObj op).outputs.length
            ∧ ∀ (i t : Nat), (matmulChainGraph.opObj op).outputs[i]? = some (some t) →
                ans[i]? = some (g'.tensorObj t).shape) :=
  ⟨⟨_, rfl, by decide, by decide⟩,
    shape_infer_postcondition (fun _ _ => .ok none) matmulChainGraph
      matmulChainGraph_shapeInferable (matmulChainGraph_inferSucceeds _)⟩

/-! ## MatMul on operands of equal rank -/

theorem transposeLast_length (flag : Bool) (s : Shape) (h : 2 ≤ s.length) :
    (transposeLast flag s).length = s.length := by
  unfold transposeLast
  cases flag
  · rfl
  · simp only [if_true, List.length_append, List.length_take, List.length_cons, List.length_nil]
    omega

theorem swapLastTwo_eq (s : Shape) (h : 2 ≤ s.length) :
    swapLastTwo s = .ok (transposeLast true s) := by
  unfold swapLastTwo transposeLast
  rw [if_neg (by omega), if_pos rfl]
  congr 1
  apply List.ext_getElem?
  intro j
  rw [List.getElem?_set, List.getElem?_set, List.getElem?_append, List.length_set,
    List.length_take, Nat.min_eq_left (by omega)]
  by_cases h1 : j < s.length - 2
  · rw [if_neg (by omega), if_neg (by omega), if_pos h1, List.getElem?_take, if_pos h1]
  · rw [if_neg h1]
    by_cases h2 : j = s.length - 2
    · subst h2
      rw [if_pos rfl, if_pos (by omega)]
      simp
    · rw [if_neg (by omega)]
      by_cases h3 : j = s.length - 1
      · subst h3
        rw [if_pos rfl, if_pos (by omega)]
        have : s.length - 1 - (s.length - 2) = 1 := by omega
        rw [this]
        simp
      · rw [if_neg (by omega), List.getElem?_eq_none (by omega), List.getElem?_eq_none]
        simp only [List.length_cons, List.length_nil]
        omega

theorem batchLoop_eq (as : List Nat) :
    ∀ (bs : List Nat) (acc : Shape), as.length = bs.length →
      batchLoop as bs acc
        = if (List.zip as bs).any (fun p => axisMismatch p.1 p.2) = true then .error .assertion
          else .ok (acc ++ List.zipWith broadcastAxis as bs) := by
  induction as with
  | nil =>
    intro bs acc hlen
    have : bs = [] := List.length_eq_zero.mp hlen.symm
    subst this
    simp [batchLoop]
  | cons a restA ih =>
    intro bs acc hlen
    cases bs with
    | nil => simp at hlen
    | cons b restB =>
      have hlen' : restA.length = restB.length := by simpa using hlen
      have hmm : axisMismatch a b = true ↔ a ≠ 1 ∧ b ≠ 1 ∧ a ≠ b := by
        unfold axisMismatch
        simp only [Bool.and_eq_true, decide_eq_true_eq, and_assoc]
      have hstep : ∀ v, v = broadcastAxis a b → ¬ axisMismatch a b = true →
          batchLoop restA restB (acc ++ [v])
            = if (List.zip (a :: restA) (b :: restB)).any (fun p => axisMismatch p.1 p.2) = true
              then .error .assertion
              else .ok (acc ++ List.zipWith broadcastAxis (a :: restA) (b :: restB)) := by
        intro v hv hno
        rw [ih restB (acc ++ [v]) hlen', hv]
        simp only [List.zip_cons_cons, List.any_cons, List.zipWith_cons_cons, Bool.or_eq_true,
          List.append_assoc, List.singleton_append]
        by_cases hany : (List.zip restA restB).any (fun p => axisMismatch p.1 p.2) = true
        · rw [if_pos hany, if_pos (Or.inr hany)]
        · rw [if_neg hany, if_neg (by rintro (h | h); exact hno h; exact hany h)]
      unfold batchLoop
      by_cases h1 : a = b
      · rw [if_pos h1]
        apply hstep
        · unfold broadcastAxis
          by_cases ha : a = 1
          · rw [if_pos ha, ← h1, ha]
          · rw [if_neg ha]
        · exact fun h => (hmm.mp h).2.2 h1
      · rw [if_neg h1]
        by_cases h2 : a = 1
        · rw [if_pos h2]
          apply hstep
          · unfold broadcastAxis; rw [if_pos h2]
          · exact fun h => (hmm.mp h).1 h2
        · rw [if_neg h2]
          by_cases h3 : b = 1
          · rw [if_pos h3]
            apply hstep
            · unfold broadcastAxis; rw [if_neg h2]
            · exact fun h => (hmm.mp h).2.1 h3
          · rw [if_neg h3]
            simp only [List.zip_cons_cons, List.any_cons, Bool.or_eq_true]
            rw [if_pos (Or.inl (hmm.mpr ⟨h2, h3, h1⟩))]

theorem broadcastSpec_equal_rank (A B : Shape) (h : A.length = B.length) :
    broadcastSpec A B
      = if (List.zip A B).any (fun p => axisMismatch p.1 p.2) = true then none
        else some (List.zipWith broadcastAxis A B) := by
  unfold broadcastSpec rightAlign
  simp only [h, Nat.max_self, Nat.sub_self, List.replicate_zero, List.nil_append]

/-- For operands of equal rank, at least 2, `MatmulObj::inferShape` computes
the reference shape of C12 and fails exactly when the reference has no shape
(the statement of C12 and C13 restricted to equal rank). -/
theorem matmulShape_equal_rank (transA transB : Bool) (A B : Shape) (hA : 2 ≤ A.length)
    (hAB : A.length = B.length) :
    matmulShape transA transB A B
      = match matmulSpec transA transB A B with
        | some shape => .ok shape
        | none => .error .assertion := by
  have hB : 2 ≤ B.length := by omega
  have hswA : (if transA then swapLastTwo A else .ok A) = .ok (transposeLast transA A) := by
    cases transA
    · rfl
    · simp only [if_true]; exact swapLastTwo_eq A hA
  have hswB : (if transB then swapLastTwo B else .ok B) = .ok (transposeLast transB B) := by
    cases transB
    · rfl
    · simp only [if_true]; exact swapLastTwo_eq B hB
  have hlA := transposeLast_length transA A hA
  have hlB := transposeLast_length transB B hB
  unfold matmulShape matmulSpec
  rw [hswA, hswB]
  simp only
  rw [if_neg (by rw [hlA, hlB]; simp; omega)]
  by_cases hin : (transposeLast transA A).getD ((transposeLast transA A).length - 1) 0
      ≠ (transposeLast transB B).getD ((transposeLast transB B).length - 2) 0
  · rw [if_pos hin, if_pos hin]
  · rw [if_neg hin, if_neg hin]
    have hlen : ((transposeLast transA A).take ((transposeLast transA A).length - 2)).length
        = ((transposeLast transB B).take ((transposeLast transB B).length - 2)).length := by
      rw [List.length_take, List.length_take, hlA, hlB]
      omega
    rw [batchLoop_eq _ _ [] hlen, broadcastSpec_equal_rank _ _ hlen]
    by_cases hany : (List.zip ((transposeLast transA A).take ((transposeLast transA A).length - 2))
        ((transposeLast transB B).take ((transposeLast transB B).length - 2))).any
        (fun p => axisMismatch p.1 p.2) = true
    · rw [if_pos hany, if_pos hany]
    · rw [if_neg hany, if_neg hany]
      simp

/-! ## topo_sort only reorders -/

theorem index_to_ordered (g : GraphObj) (l : List Nat) (h : g.topoOrdered l) :
    ∀ l1 o l2, l = l1 ++ o :: l2 → ∀ p, g.feeds p o → p ∈ l1 := by
  intro l1 o l2 heq p hp
  have hget : l[l1.length]? = some o := by
    rw [heq, List.getElem?_append_right (le_refl _)]
    simp
  obtain ⟨i, hi, hpi⟩ := h l1.length o p hget hp
  rw [heq, List.getElem?_append_left hi] at hpi
  exact List.getElem?_mem hpi

/-- When the loop of `topo_sort` ends with a sorted vector, that vector holds
distinct operators of the list, at least as many as the list has entries. -/
theorem topoLoop_some (g : GraphObj) :
    ∀ (fuel : Nat) (s : SortState) (l : List Nat), SortInv g s →
      topoLoop g fuel s = .ok (some l) →
      l.Nodup ∧ (∀ x ∈ l, x ∈ g.ops) ∧ g.ops.length ≤ l.length := by
  intro fuel
  induction fuel with
  | zero =>
    intro s l hinv h
    unfold topoLoop at h
    by_cases hlt : s.sorted.length < g.ops.length
    · rw [if_pos hlt] at h; cases h
    · rw [if_neg hlt] at h
      cases h
      exact ⟨hinv.nodup, hinv.subset, by omega⟩
  | succ fuel ih =>
    intro s l hinv h
    unfold topoLoop at h
    by_cases hlt : s.sorted.length < g.ops.length
    · rw [if_pos hlt] at h
      simp only at h
      cases hp : topoPass g g.ops { s with modified := false } with
      | error e => rw [hp] at h; cases h
      | ok s' =>
        rw [hp] at h
        simp only at h
        have hinv0 : SortInv g { s with modified := false } :=
          ⟨hinv.flags_iff, hinv.nodup, hinv.subset, hinv.ordered⟩
        have hinv' := topoPass_inv g g.ops _ s' hp (fun o ho => ho) hinv0
        cases hm : s'.modified with
        | false => rw [hm] at h; cases h
        | true =>
          rw [hm] at h
          exact ih s' l hinv' h
    · rw [if_neg hlt] at h
      cases h
      exact ⟨hinv.nodup, hinv.subset, by omega⟩

/-- One pass over the rest `l2` of a list without repetition that is in
topological order, started when exactly the operators `l1` before it are
placed, places every operator of `l2`, in the order of the list. -/
theorem topoPass_ordered (g : GraphObj) (hnd : g.ops.Nodup)
    (hord : ∀ l1 o l2, g.ops = l1 ++ o :: l2 → ∀ p, g.feeds p o → p ∈ l1) :
    ∀ (l2 l1 : List Nat) (s s' : SortState), g.ops = l1 ++ l2 → s.sorted = l1 →
      (∀ x, x ∈ s.flags ↔ x ∈ l1) → topoPass g l2 s = .ok s' → s'.sorted = l1 ++ l2 := by
  intro l2
  induction l2 with
  | nil =>
    intro l1 s s' _ hs _ h
    cases h
    rw [hs, List.append_nil]
  | cons op rest ih =>
    intro l1 s s' hops hs hfl h
    have hnot : op ∉ s.flags := by
      intro hmem
      have h1 : op ∈ l1 := (hfl op).mp hmem
      rw [hops] at hnd
      have := (List.nodup_append.mp hnd).2.2 h1 (List.mem_cons_self _ _)
      exact this
    unfold topoPass at h
    rw [if_neg hnot] at h
    have hops' : g.ops = (l1 ++ [op]) ++ rest := by rw [hops]; simp
    cases hr : inputsReady g s.flags (g.opObj op).inputs with
    | error e => rw [hr] at h; cases h
    | ok b =>
      rw [hr] at h
      cases b with
      | true =>
        simp only at h
        have := ih (l1 ++ [op])
          { sorted := s.sorted ++ [op], flags := op :: s.flags, modified := true } s' hops'
          (by simp [hs])
          (by
            intro x
            simp only [List.mem_cons, List.mem_append, List.mem_singleton]
            rw [hfl x]
            tauto)
          h
        rw [this]; simp
      | false =>
        obtain ⟨t, p, h1, h2, h3⟩ := inputsReady_false g s.flags _ hr
        have hp : p ∈ l1 := hord l1 op rest hops p ⟨t, h1, h2⟩
        exact absurd ((hfl p).mpr hp) h3

/-- On a list that is in topological order, a sorted vector that the loop of
`topo_sort` ends with is the list itself. -/
theorem topoLoop_ordered (g : GraphObj) (hord : g.topoOrdered g.ops) (l : List Nat)
    (h : topoLoop g g.ops.length { sorted := [], flags := [], modified := false }
      = .ok (some l)) : l = g.ops := by
  obtain ⟨hnd, hsub, hlen⟩ := topoLoop_some g _ _ l (sortInv_init g) h
  have hperm := (List.subperm_of_subset hnd hsub).perm_of_length_le hlen
  have hnodup : g.ops.Nodup := hperm.nodup_iff.mp hnd
  cases hn : g.ops.length with
  | zero =>
    rw [hn] at h
    unfold topoLoop at h
    rw [if_neg (by simp [hn])] at h
    cases h
    exact (List.length_eq_zero.mp hn).symm
  | succ n =>
    rw [hn] at h
    unfold topoLoop at h
    rw [if_pos (by simp [hn])] at h
    simp only at h
    cases hp : topoPass g g.ops { sorted := [], flags := [], modified := false } with
    | error e => rw [hp] at h; cases h
    | ok s' =>
      rw [hp] at h
      simp only at h
      have hs' : s'.sorted = g.ops := by
        have := topoPass_ordered g hnodup (index_to_ordered g g.ops hord) g.ops []
          { sorted := [], flags := [], modified := false } s' rfl rfl (fun x => Iff.rfl) hp
        simpa using this
      cases hm : s'.modified with
      | false => rw [hm] at h; cases h
      | true =>
        rw [hm] at h
        simp only [if_true] at h
        unfold topoLoop at h
        rw [if_neg (by rw [hs']; omega)] at h
        cases h
        exact hs'

/-- With non-null inputs the loop of `topo_sort` ends. -/
theorem topoLoop_total (g : GraphObj) (hnn : g.inputsNonNull = true) :
    ∀ (fuel : Nat) (s : SortState), g.ops.length ≤ fuel + s.sorted.length →
      ∃ r, topoLoop g fuel s = .ok r := by
  intro fuel
  induction fuel with
  | zero =>
    intro s hlen
    unfold topoLoop
    rw [if_neg (by omega)]
    exact ⟨_, rfl⟩
  | succ fuel ih =>
    intro s hlen
    unfold topoLoop
    by_cases hlt : s.sorted.length < g.ops.length
    · rw [if_pos hlt]
      simp only
      obtain ⟨s', hs'⟩ := topoPass_total g g.ops (inputsNonNull_spec g hnn)
        { s with modified := false }
      rw [hs']
      simp only
      obtain ⟨-, hle, hmod⟩ := topoPass_grows g g.ops _ s' hs'
      cases hm : s'.modified with
      | false => exact ⟨none, by simp⟩
      | true =>
        simp only [if_true]
        have hgrow : s.sorted.length < s'.sorted.length := by
          rw [hm] at hmod
          simpa using hmod.symm
        exact ih s' (by omega)
    · rw [if_neg hlt]
      exact ⟨_, rfl⟩

/-- C23 (`topo_sort` only reorders): the loop never outruns its budget of
`ops.size()` passes, so a call ends, and with non-null inputs it returns;
whenever it returns true the operator list afterwards is a permutation of the
one before, over the same tensors and objects; and when the list was already
in topological order the call leaves the list exactly as it was, returning
true after one pass when the list has no repetition. -/
theorem topo_sort_only_reorders (g : GraphObj) :
    g.topo_sort ≠ .error .fuel
    ∧ (g.inputsNonNull = true → ∃ b g', g.topo_sort = .ok (b, g'))
    ∧ (∀ g', g.topo_sort = .ok (true, g') →
        g'.ops.Perm g.ops ∧ g'.tensors = g.tensors ∧ g'.opObj = g.opObj
          ∧ g'.tensorObj = g.tensorObj)
    ∧ (g.topoOrdered g.ops → ∀ b g', g.topo_sort = .ok (b, g') → g'.ops = g.ops)
    ∧ (g.topoOrdered g.ops → g.ops.Nodup → g.inputsNonNull = true →
        ∃ g', g.topo_sort = .ok (true, g') ∧ g'.ops = g.ops ∧ g'.sorted = true) := by
  have hperm : ∀ g', g.topo_sort = .ok (true, g') →
      g'.ops.Perm g.ops ∧ g'.tensors = g.tensors ∧ g'.opObj = g.opObj
        ∧ g'.tensorObj = g.tensorObj := by
    intro g' h
    unfold GraphObj.topo_sort at h
    by_cases hs : g.sorted = true
    · rw [if_pos hs] at h
      cases h
      exact ⟨List.Perm.refl _, rfl, rfl, rfl⟩
    · rw [if_neg hs] at h
      cases hl : topoLoop g g.ops.length { sorted := [], flags := [], modified := false } with
      | error e => rw [hl] at h; cases h
      | ok r =>
        rw [hl] at h
        cases r with
        | none => cases h
        | some l =>
          simp only [Except.ok.injEq, Prod.mk.injEq, true_and] at h
          subst h
          obtain ⟨hnd, hsub, hlen⟩ := topoLoop_some g _ _ l (sortInv_init g) hl
          exact ⟨(List.subperm_of_subset hnd hsub).perm_of_length_le hlen, rfl, rfl, rfl⟩
  have hkeep : g.topoOrdered g.ops → ∀ b g', g.topo_sort = .ok (b, g') → g'.ops = g.ops := by
    intro hord b g' h
    unfold GraphObj.topo_sort at h
    by_cases hs : g.sorted = true
    · rw [if_pos hs] at h
      cases h; rfl
    · rw [if_neg hs] at h
      cases hl : topoLoop g g.ops.length { sorted := [], flags := [], modified := false } with
      | error e => rw [hl] at h; cases h
      | ok r =>
        rw [hl] at h
        cases r with
        | none => cases h; rfl
        | some l =>
          simp only [Except.ok.injEq, Prod.mk.injEq] at h
          obtain ⟨-, h2⟩ := h
          subst h2
          exact topoLoop_ordered g hord l hl
  have htotal : g.inputsNonNull = true → ∃ b g', g.topo_sort = .ok (b, g') := by
    intro hnn
    unfold GraphObj.topo_sort
    by_cases hs : g.sorted = true
    · rw [if_pos hs]; exact ⟨_, _, rfl⟩
    · rw [if_neg hs]
      obtain ⟨r, hr⟩ := topoLoop_total g hnn g.ops.length
        { sorted := [], flags := [], modified := false } (by simp)
      rw [hr]
      cases r with
      | none => exact ⟨_, _, rfl⟩
      | some l => exact ⟨_, _, rfl⟩
  refine ⟨topo_sort_fuel g, htotal, hperm, hkeep, ?_⟩
  intro hord hnd hnn
  unfold GraphObj.topo_sort
  by_cases hs : g.sorted = true
  · rw [if_pos hs]; exact ⟨g, rfl, rfl, hs⟩
  · rw [if_neg hs]
    obtain ⟨r, hr⟩ := topoLoop_total g hnn g.ops.length
      { sorted := [], flags := [], modified := false } (by simp)
    rw [hr]
    cases r with
    | some l => exact ⟨_, rfl, topoLoop_ordered g hord l hr, rfl⟩
    | none =>
      -- a pass over an ordered list without repetition places all of it
      exfalso
      cases hn : g.ops.length with
      | zero =>
        rw [hn] at hr
        unfold topoLoop at hr
        rw [if_neg (by simp [hn])] at hr
        cases hr
      | succ n =>
        rw [hn] at hr
        unfold topoLoop at hr
        rw [if_pos (by simp [hn])] at hr
        simp only at hr
        cases hp : topoPass g g.ops { sorted := [], flags := [], modified := false } with
        | error e => rw [hp] at hr; cases hr
        | ok s' =>
          rw [hp] at hr
          simp only at hr
          have hs' : s'.sorted = g.ops := by
            have := topoPass_ordered g hnd (index_to_ordered g g.ops hord) g.ops []
              { sorted := [], flags := [], modified := false } s' rfl rfl (fun x => Iff.rfl) hp
            simpa using this
          obtain ⟨-, -, hmod⟩ := topoPass_grows g g.ops _ s' hp
          have hm : s'.modified = true := by
            rw [hmod, hs', hn]; simp
          rw [hm] at hr
          simp only [if_true] at hr
          unfold topoLoop at hr
          rw [if_neg (by rw [hs']; omega)] at hr
          cases hr

/-! ## InvTranspose on permutations -/

theorem isPermutation_spec (p : List Int) (h : isPermutation p = true) :
    p.Nodup ∧ ∀ x ∈ p, 0 ≤ x ∧ x < (p.length : Int) := by
  unfold isPermutation at h
  simp only [Bool.and_eq_true, decide_eq_true_eq, List.all_eq_true] at h
  exact h

/-- Reading a permutation at an index in range yields an entry in range. -/
theorem perm_read (p : List Int) (h : isPermutation p = true) (i : Nat) (hi : i < p.length) :
    ∃ j : Int, p[i]? = some j ∧ 0 ≤ j ∧ j < (p.length : Int) := by
  have hm : p[i] ∈ p := List.getElem_mem _
  exact ⟨p[i], List.getElem?_eq_getElem hi, (isPermutation_spec p h).2 _ hm⟩

/-- A permutation has no two positions with the same entry. -/
theorem perm_inj (p : List Int) (h : isPermutation p = true) (i j : Nat) (v : Int)
    (hi : p[i]? = some v) (hj : p[j]? = some v) : i = j := by
  have hnd := (isPermutation_spec p h).1
  obtain ⟨hi1, hi2⟩ := List.getElem?_eq_some_iff.mp hi
  obtain ⟨hj1, hj2⟩ := List.getElem?_eq_some_iff.mp hj
  exact (List.Nodup.getElem_inj_iff hnd).mp (hi2.trans hj2.symm)

/-- On permutations of equal rank below `2^64`, the loop of `InvTranspose`
over the axes `l` never reads out of range and answers whether
`a[b[i]] = i` for each axis of `l`. -/
theorem invTransposeFrom_eq (a b : List Int) (ha : isPermutation a = true)
    (hb : isPermutation b = true) (hlen : a.length = b.length) (hn : a.length < SIZE_MOD) :
    ∀ l : List Nat, (∀ i ∈ l, i < a.length) →
      invTransposeFrom a b l = .ok (l.all (fun i =>
        match b[i]? with
        | none => false
        | some j => decide (0 ≤ j) && decide (a[j.toNat]? = some (i : Int)))) := by
  intro l
  induction l with
  | nil => intro _; rfl
  | cons i rest ih =>
    intro hl
    have hi : i < a.length := hl i (List.mem_cons_self _ _)
    obtain ⟨j, hj, hj0, hj1⟩ := perm_read b hb i (by omega)
    have hjm : (j % (SIZE_MOD : Int)).toNat = j.toNat := by
      rw [Int.emod_eq_of_lt hj0 (by unfold SIZE_MOD at hn ⊢; omega)]
    obtain ⟨v, hv, hv0, hv1⟩ := perm_read a ha j.toNat (by omega)
    have hvm : (v % (SIZE_MOD : Int)).toNat = v.toNat := by
      rw [Int.emod_eq_of_lt hv0 (by unfold SIZE_MOD at hn ⊢; omega)]
    unfold invTransposeFrom
    rw [hj]
    simp only
    rw [hjm, hv]
    simp only
    rw [hvm, List.all_cons, hj]
    simp only
    rw [hv]
    by_cases hvi : v.toNat = i
    · rw [if_neg (by simpa using hvi), ih (fun k hk => hl k (List.mem_cons_of_mem _ hk))]
      have : v = (i : Int) := by omega
      simp [hj0, this]
    · rw [if_pos hvi]
      have : v ≠ (i : Int) := by omega
      simp [this]

theorem InvTranspose_eq (a b : List Int) (ha : isPermutation a = true)
    (hb : isPermutation b = true) (hlen : a.length = b.length) (hn : a.length < SIZE_MOD) :
    InvTranspose a b = .ok (composeIsId a b a.length) := by
  unfold InvTranspose composeIsId
  exact invTransposeFrom_eq a b ha hb hlen hn _ (fun i hi => List.mem_range.mp hi)

theorem composeIsId_spec (a b : List Int) (n : Nat) :
    composeIsId a b n = true ↔
      ∀ i : Nat, i < n → ∃ j : Int, b[i]? = some j ∧ 0 ≤ j ∧ a[j.toNat]? = some (i : Int) := by
  unfold composeIsId
  rw [List.all_eq_true]
  constructor
  · intro h i hi
    have := h i (List.mem_range.mpr hi)
    cases hb : b[i]? with
    | none => rw [hb] at this; cases this
    | some j =>
      rw [hb] at this
      simp only [Bool.and_eq_true, decide_eq_true_eq] at this
      exact ⟨j, rfl, this⟩
  · intro h i hi
    obtain ⟨j, hj, hj0, hja⟩ := h i (List.mem_range.mp hi)
    rw [hj]
    simp [hj0, hja]

/-- For permutations of equal rank, `a ∘ b = id` gives `b ∘ a = id`. -/
theorem composeIsId_symm (a b : List Int) (ha : isPermutation a = true)
    (hlen : a.length = b.length)
    (h : composeIsId a b a.length = true) : composeIsId b a b.length = true := by
  rw [composeIsId_spec] at h ⊢
  intro i hi
  obtain ⟨k, hk, hk0, hk1⟩ := perm_read a ha i (by omega)
  obtain ⟨j, hj, hj0, hja⟩ := h k.toNat (by omega)
  have hkk : ((k.toNat : Nat) : Int) = k := by omega
  rw [hkk] at hja
  have : j.toNat = i := perm_inj a ha _ _ _ hja hk
  refine ⟨k, hk, hk0, ?_⟩
  rw [hj]
  congr 1
  omega

/-- C21 (redundant-pair test): for permutations `a` and `b` of `{0..n-1}` of
the same rank `n`, `InvTranspose a b` returns, reading in range only; it
returns true exactly when `a[b[i]] = i` for every axis `i`; and it returns
the same answer with the arguments swapped. -/
theorem InvTranspose_iff_inverse (a b : List Int) (ha : isPermutation a = true)
    (hb : isPermutation b = true) (hlen : a.length = b.length) (hn : a.length < SIZE_MOD) :
    (∃ r, InvTranspose a b = .ok r)
    ∧ (InvTranspose a b = .ok true ↔
        ∀ i : Nat, i < a.length →
          ∃ j : Int, b[i]? = some j ∧ 0 ≤ j ∧ a[j.toNat]? = some (i : Int))
    ∧ InvTranspose a b = InvTranspose b a := by
  have hab := InvTranspose_eq a b ha hb hlen hn
  have hba := InvTranspose_eq b a hb ha hlen.symm (by omega)
  refine ⟨⟨_, hab⟩, ?_, ?_⟩
  · rw [hab, ← composeIsId_spec]
    constructor
    · intro h
      cases hc : composeIsId a b a.length with
      | true => rfl
      | false => rw [hc] at h; cases h
    · intro h; rw [h]
  · rw [hab, hba]
    congr 1
    cases h1 : composeIsId a b a.length with
    | true => exact (composeIsId_symm a b ha hlen h1).symm
    | false =>
      cases h2 : composeIsId b a b.length with
      | false => rfl
      | true =>
        have := composeIsId_symm b a hb hlen.symm h2
        rw [h1] at this; cases this

/-- Witness for C21: the rotations `[1, 2, 0]` and `[2, 0, 1]` are inverse
to each other, and neither is its own inverse. -/
theorem InvTranspose_iff_inverse_witness :
    InvTranspose [1, 2, 0] [2, 0, 1] = .ok true
    ∧ InvTranspose [1, 2, 0] [1, 2, 0] = .ok false
    ∧ ((∃ r, InvTranspose [1, 2, 0] [2, 0, 1] = .ok r)
      ∧ (InvTranspose [1, 2, 0] [2, 0, 1] = .ok true ↔
          ∀ i : Nat, i < [1, 2, 0].length →
            ∃ j : Int, [2, 0, 1][i]? = some j ∧ 0 ≤ j ∧ [1, 2, 0][j.toNat]? = some (i : Int))
      ∧ InvTranspose [1, 2, 0] [2, 0, 1] = InvTranspose [2, 0, 1] [1, 2, 0]) :=
  ⟨rfl, rfl, InvTranspose_iff_inverse [1, 2, 0] [2, 0, 1] (by decide) (by decide) rfl
    (by unfold SIZE_MOD; decide)⟩

/-! ## isTransForMul accepts the swap of the last two axes -/

theorem getD_read (p : List Int) (i : Nat) (hi : i < p.length) :
    p[i]? = some (p.getD i 0) ∧ p.getD i 0 ∈ p := by
  have h1 : p[i]? = some p[i] := List.getElem?_eq_getElem hi
  have h2 : p.getD i 0 = p[i] := by
    rw [List.getD_eq_getElem?_getD, h1]; rfl
  rw [h2]
  exact ⟨h1, List.getElem_mem _⟩

/-- The bounds-checked loop over axes in range never fails, and agrees with
the `any` of the unchecked embedding. -/
theorem transForMulLoop_eq (p : List Int) :
    ∀ l : List Nat, (∀ i ∈ l, i < p.length) →
      transForMulLoop p l = .ok (!l.any
        (fun i => decide ((p.getD i 0 % (SIZE_MOD : Int)).toNat ≠ i))) := by
  intro l
  induction l with
  | nil => intro _; rfl
  | cons i rest ih =>
    intro hl
    obtain ⟨hr, -⟩ := getD_read p i (hl i (List.mem_cons_self _ _))
    unfold transForMulLoop
    rw [hr]
    simp only
    by_cases hv : (p.getD i 0 % (SIZE_MOD : Int)).toNat = i
    · rw [if_neg (not_not.mpr hv), ih (fun k hk => hl k (List.mem_cons_of_mem _ hk)),
        List.any_cons, decide_eq_false (not_not.mpr hv), Bool.false_or]
    · rw [if_pos hv, List.any_cons, decide_eq_true hv, Bool.true_or]
      rfl

/-- The bounds-checked embedding of `isTransForMul` never reads out of range
and returns what the unchecked one returns, for every vector. -/
theorem isTransForMulChecked_eq (p : List Int) :
    isTransForMulChecked p = .ok (isTransForMul p) := by
  unfold isTransForMulChecked isTransForMul
  simp only
  by_cases hr : p.length < 2
  · rw [if_pos hr, if_pos hr]
  · rw [if_neg hr, if_neg hr]
    rw [transForMulLoop_eq p _ (fun i hi => by have := List.mem_range.mp hi; omega)]
    obtain ⟨h1, -⟩ := getD_read p (p.length - 1) (by omega)
    obtain ⟨h2, -⟩ := getD_read p (p.length - 2) (by omega)
    cases ha : (List.range (p.length - 2)).any
        (fun i => decide ((p.getD i 0 % (SIZE_MOD : Int)).toNat ≠ i)) with
    | true => simp
    | false =>
      simp only [Bool.not_false, Bool.false_eq_true, if_false]
      rw [h1]
      simp only
      by_cases hx : p.getD (p.length - 1) 0 = (p.length : Int) - 2
      · rw [if_pos hx, h2]
        simp only
        by_cases hy : p.getD (p.length - 2) 0 = (p.length : Int) - 1
        · rw [if_pos hy, if_pos ⟨hx, hy⟩]
        · rw [if_neg hy, if_neg (fun h => hy h.2)]
      · rw [if_neg hx, if_neg (fun h => hx h.1)]

/-- On a vector of `int` entries of rank below `2^31`, `isTransForMul` holds
exactly of the vectors `[0, …, n-3, n-1, n-2]`. -/
theorem isTransForMul_iff (p : List Int)
    (hint : ∀ x ∈ p, -(2147483648 : Int) ≤ x ∧ x < 2147483648)
    (hn : p.length < 2147483648) :
    isTransForMul p = true ↔
      2 ≤ p.length ∧ (∀ i : Nat, i < p.length - 2 → p[i]? = some (i : Int))
        ∧ p[p.length - 2]? = some ((p.length : Int) - 1)
        ∧ p[p.length - 1]? = some ((p.length : Int) - 2) := by
  unfold isTransForMul
  simp only
  by_cases hr : p.length < 2
  · rw [if_pos hr]
    constructor
    · intro h; cases h
    · rintro ⟨h, -⟩; omega
  · rw [if_neg hr]
    obtain ⟨h1, -⟩ := getD_read p (p.length - 1) (by omega)
    obtain ⟨h2, -⟩ := getD_read p (p.length - 2) (by omega)
    have hloop : (List.range (p.length - 2)).any
        (fun i => decide ((p.getD i 0 % (SIZE_MOD : Int)).toNat ≠ i)) = false ↔
        ∀ i : Nat, i < p.length - 2 → p[i]? = some (i : Int) := by
      rw [List.any_eq_false]
      constructor
      · intro h i hi
        have := h i (List.mem_range.mpr hi)
        obtain ⟨hg, hm⟩ := getD_read p i (by omega)
        obtain ⟨hlo, hhi⟩ := hint _ hm
        have heq : (p.getD i 0 % (SIZE_MOD : Int)).toNat = i := by
          by_contra hne
          exact this (decide_eq_true hne)
        rw [hg]
        congr 1
        unfold SIZE_MOD at heq
        omega
      · intro h i hi
        have hi' := List.mem_range.mp hi
        obtain ⟨hg, -⟩ := getD_read p i (by omega)
        have := h i hi'
        rw [hg] at this
        have hv : p.getD i 0 = (i : Int) := Option.some.inj this
        intro hd
        apply of_decide_eq_true hd
        rw [hv]
        unfold SIZE_MOD
        omega
    cases ha : (List.range (p.length - 2)).any
        (fun i => decide ((p.getD i 0 % (SIZE_MOD : Int)).toNat ≠ i)) with
    | true =>
      simp only [if_true]
      constructor
      · intro h; cases h
      · rintro ⟨-, h, -⟩
        rw [hloop.mpr h] at ha; cases ha
    | false =>
      simp only [Bool.false_eq_true, if_false]
      have hl := hloop.mp ha
      rw [h1, h2]
      by_cases hc : p.getD (p.length - 1) 0 = (p.length : Int) - 2
          ∧ p.getD (p.length - 2) 0 = (p.length : Int) - 1
      · rw [if_pos hc]
        simp only [true_iff]
        exact ⟨by omega, hl, by rw [hc.2], by rw [hc.1]⟩
      · rw [if_neg hc]
        constructor
        · intro h; cases h
        · rintro ⟨-, -, h3, h4⟩
          exact absurd ⟨Option.some.inj h4, Option.some.inj h3⟩ hc

/-- A vector `[0, …, n-3, n-1, n-2]` is a permutation of `{0..n-1}` and
composed with itself gives the identity. -/
theorem lastTwoSwapped_involution (p : List Int) (h2 : 2 ≤ p.length)
    (hl : ∀ i : Nat, i < p.length - 2 → p[i]? = some (i : Int))
    (ha : p[p.length - 2]? = some ((p.length : Int) - 1))
    (hb : p[p.length - 1]? = some ((p.length : Int) - 2)) :
    isPermutation p = true ∧ composeIsId p p p.length = true := by
  have hread : ∀ i : Nat, i < p.length → ∃ v : Int, p[i]? = some v ∧ 0 ≤ v
      ∧ v < (p.length : Int)
      ∧ ((i < p.length - 2 ∧ v = i) ∨ (i = p.length - 2 ∧ v = (p.length : Int) - 1)
        ∨ (i = p.length - 1 ∧ v = (p.length : Int) - 2)) := by
    intro i hi
    by_cases h1 : i < p.length - 2
    · exact ⟨i, hl i h1, by omega, by omega, Or.inl ⟨h1, rfl⟩⟩
    · by_cases h3 : i = p.length - 2
      · exact ⟨_, h3 ▸ ha, by omega, by omega, Or.inr (Or.inl ⟨h3, rfl⟩)⟩
      · have h4 : i = p.length - 1 := by omega
        exact ⟨_, h4 ▸ hb, by omega, by omega, Or.inr (Or.inr ⟨h4, rfl⟩)⟩
  constructor
  · unfold isPermutation
    simp only [Bool.and_eq_true, decide_eq_true_eq, List.all_eq_true]
    constructor
    · rw [List.nodup_iff_getElem?_ne_getElem?]
      intro i j hij hj heq
      obtain ⟨v, hv, -, -, hcv⟩ := hread i (by omega)
      obtain ⟨w, hw, -, -, hcw⟩ := hread j hj
      rw [hv, hw] at heq
      have : v = w := Option.some.inj heq
      omega
    · intro x hx
      obtain ⟨i, hi⟩ := List.mem_iff_getElem?.mp hx
      have hlt : i < p.length := by
        by_contra hge
        rw [List.getElem?_eq_none (by omega)] at hi
        cases hi
      obtain ⟨v, hv, h0, h1, -⟩ := hread i hlt
      rw [hv] at hi
      have : v = x := Option.some.inj hi
      subst this
      exact ⟨h0, h1⟩
  · rw [composeIsId_spec]
    intro i hi
    obtain ⟨v, hv, h0, h1, hcv⟩ := hread i hi
    obtain ⟨w, hw, -, -, hcw⟩ := hread v.toNat (by omega)
    refine ⟨v, hv, h0, ?_⟩
    rw [hw]
    congr 1
    omega

/-- C22 (fusable-transpose test): on every permute vector of `int` entries,
`isTransForMul` reads in range only; it returns true exactly when the rank is
at least 2, `p[i] = i` for every `i < rank - 2`, `p[rank-2] = rank - 1` and
`p[rank-1] = rank - 2`; it returns false for rank 0 and rank 1; and every
vector it accepts is a permutation that is its own inverse. -/
theorem isTransForMul_iff_swaps_last_two (p : List Int)
    (hint : ∀ x ∈ p, -(2147483648 : Int) ≤ x ∧ x < 2147483648)
    (hn : p.length < 2147483648) :
    isTransForMulChecked p = .ok (isTransForMul p)
    ∧ (isTransForMul p = true ↔
        2 ≤ p.length ∧ (∀ i : Nat, i < p.length - 2 → p[i]? = some (i : Int))
          ∧ p[p.length - 2]? = some ((p.length : Int) - 1)
          ∧ p[p.length - 1]? = some ((p.length : Int) - 2))
    ∧ (p.length < 2 → isTransForMulChecked p = .ok false)
    ∧ (isTransForMul p = true →
        isPermutation p = true ∧ InvTranspose p p = .ok true
          ∧ ∀ i : Nat, i < p.length →
              ∃ j : Int, p[i]? = some j ∧ 0 ≤ j ∧ p[j.toNat]? = some (i : Int)) := by
  refine ⟨isTransForMulChecked_eq p, isTransForMul_iff p hint hn, ?_, ?_⟩
  · intro h
    unfold isTransForMulChecked
    simp only
    rw [if_pos h]
  · intro h
    obtain ⟨h2, hl, ha, hb⟩ := (isTransForMul_iff p hint hn).mp h
    obtain ⟨hperm, hid⟩ := lastTwoSwapped_involution p h2 hl ha hb
    refine ⟨hperm, ?_, (composeIsId_spec p p p.length).mp hid⟩
    rw [InvTranspose_eq p p hperm hperm rfl (by unfold SIZE_MOD; omega), hid]

/-- Witness for C22: `[0, 2, 1]` swaps the last two of three axes and is
accepted; the rotation `[1, 2, 0]` is not. -/
theorem isTransForMul_iff_swaps_last_two_witness :
    isTransForMul [0, 2, 1] = true ∧ isTransForMul [1, 2, 0] = false
    ∧ isTransForMul [0] = false ∧ isTransForMul [] = false
    ∧ (isTransForMulChecked [0, 2, 1] = .ok (isTransForMul [0, 2, 1])
      ∧ (isTransForMul [0, 2, 1] = true ↔
          2 ≤ [0, 2, 1].length
            ∧ (∀ i : Nat, i < [0, 2, 1].length - 2 → [0, 2, 1][i]? = some (i : Int))
            ∧ [0, 2, 1][[0, 2, 1].length - 2]? = some (([0, 2, 1].length : Int) - 1)
            ∧ [0, 2, 1][[0, 2, 1].length - 1]? = some (([0, 2, 1].length : Int) - 2))
      ∧ ([0, 2, 1].length < 2 → isTransForMulChecked [0, 2, 1] = .ok false)
      ∧ (isTransForMul [0, 2, 1] = true →
          isPermutation [0, 2, 1] = true ∧ InvTranspose [0, 2, 1] [0, 2, 1] = .ok true
            ∧ ∀ i : Nat, i < [0, 2, 1].length →
                ∃ j : Int, [0, 2, 1][i]? = some j ∧ 0 ≤ j
                  ∧ [0, 2, 1][j.toNat]? = some (i : Int))) :=
  ⟨by decide, by decide, by decide, by decide,
    isTransForMul_iff_swaps_last_two [0, 2, 1] (by decide) (by decide)⟩

end Infini
